import Mathlib

set_option maxRecDepth 100000

/-!
Formal verification of the Samurai-Sudoku generator core
(`geometry.py`, `model.py`, `solver.py`, `dlx9.py`, `generator.py`).

The Python code is shallowly embedded:
* a 21×21 value grid (`Grid`) is a function `Nat → Nat → Option Nat`
  (values 1..9, `none` = empty, matching `model.Grid`);
* a single 9×9 board (`Board9`) is a function `Nat → Nat → Nat`
  (0 = empty, matching the list-of-list boards of `dlx9.py`);
* Python's in-place list mutation becomes functional update (`gset`, `bset`);
  an explicit "undo" write in the source is embedded as the corresponding
  explicit update;
* every consumer of randomness (`random.Random` passed as `rng`, and the
  *global* `random` module used by `solver.solve_unique`) is modelled as an
  explicit oracle with threaded state.  A shuffle oracle returns a list
  permutation (subtype `{l2 // l2.Perm l}`), which is exactly what
  `random.shuffle` guarantees;
* the wall-clock timeout test in `generator._dig_holes_to_target` is modelled
  as a boolean oracle indexed by the (global) count of uniqueness checks
  performed so far;
* unbounded loops / Python recursion are embedded with explicit fuel; fuel
  exhaustion yields a distinguished "divergence" result that the theorems
  prove unreachable.
-/

namespace Samurai

/-! ### geometry.py -/

/-- `BOARD_SIZE = 21`. -/
def BOARD_SIZE : Nat := 21

/-- The five 9×9 boards `(name, r0, c0)` of `geometry.BOARDS`. -/
def BOARDS : List (String × Nat × Nat) :=
  [("TL", 0, 0), ("TR", 0, 12), ("C", 6, 6), ("BL", 12, 0), ("BR", 12, 12)]

/-- `geometry.in_board`. -/
def inBoard (r c r0 c0 : Nat) : Bool :=
  decide (r0 ≤ r) && decide (r < r0 + 9) && decide (c0 ≤ c) && decide (c < c0 + 9)

/-- `geometry.is_active_cell`. -/
def isActiveCell (r c : Nat) : Bool :=
  BOARDS.any fun b => inBoard r c b.2.1 b.2.2

/-- `geometry.active_cells` (row-major order, as in the Python list
comprehension). -/
def activeCells : List (Nat × Nat) :=
  (List.range BOARD_SIZE).flatMap fun r =>
    ((List.range BOARD_SIZE).filter fun c => isActiveCell r c).map fun c => (r, c)

/-- `geometry.boards_covering_cell`. -/
def boardsCoveringCell (r c : Nat) : List (String × Nat × Nat) :=
  BOARDS.filter fun b => inBoard r c b.2.1 b.2.2

/-! ### model.py -/

/-- `model.Grid`: 21×21 of optional digits (1..9). -/
def Grid : Type := Nat → Nat → Option Nat

/-- `model.empty_samurai_grid` (all cells `None`). -/
def emptySamuraiGrid : Grid := fun _ _ => none

/-- Functional update of a grid cell: the embedding of `g[r][c] = v`. -/
def gset (g : Grid) (r c : Nat) (v : Option Nat) : Grid :=
  fun r2 c2 => if r2 = r ∧ c2 = c then v else g r2 c2

/-- Digit `d` already appears in some row/column/box (of any covering board)
of cell `(r,c)`: membership in the `used` set built by `model.candidates`. -/
def usedDigit (g : Grid) (r c d : Nat) : Bool :=
  (boardsCoveringCell r c).any fun b =>
    let r0 := b.2.1
    let c0 := b.2.2
    -- row
    ((List.range 9).any fun cc => g (r0 + (r - r0)) (c0 + cc) == some d) ||
    -- column
    ((List.range 9).any fun rr2 => g (r0 + rr2) (c0 + (c - c0)) == some d) ||
    -- box
    ((List.range 3).any fun i => (List.range 3).any fun j =>
      g (r0 + ((r - r0) / 3 * 3 + i)) (c0 + ((c - c0) / 3 * 3 + j)) == some d)

/-- `model.candidates`: allowed digits 1..9 at `(r,c)` respecting all boards
covering that cell. -/
def candidates (g : Grid) (r c : Nat) : List Nat :=
  (List.range' 1 9).filter fun d => ! usedDigit g r c d

/-- `model.is_valid_assignment`: placing `v` at `(r,c)` conflicts with no
filled cell (the cell itself excluded) in any covering board. -/
def isValidAssignment (g : Grid) (r c v : Nat) : Bool :=
  (boardsCoveringCell r c).all fun b =>
    let r0 := b.2.1
    let c0 := b.2.2
    let rr := r - r0
    let cc := c - c0
    -- row
    ((List.range 9).all fun x =>
      (c0 + x == c) || ! (g (r0 + rr) (c0 + x) == some v)) &&
    -- column
    ((List.range 9).all fun y =>
      (r0 + y == r) || ! (g (r0 + y) (c0 + cc) == some v)) &&
    -- box
    ((List.range 3).all fun y => (List.range 3).all fun x =>
      (decide ((r0 + (rr / 3 * 3 + y), c0 + (cc / 3 * 3 + x)) = (r, c))) ||
      ! (g (r0 + (rr / 3 * 3 + y)) (c0 + (cc / 3 * 3 + x)) == some v))

/-! ### Basic geometry facts -/

theorem activeCells_length : activeCells.length = 369 := rfl

theorem activeCells_nodup : activeCells.Nodup := by
  apply List.nodup_flatMap.2
  constructor
  · intro x _
    exact (List.Nodup.filter _ (List.nodup_range _)).map fun a b h => congrArg Prod.snd h
  · apply List.Pairwise.imp ?_ (List.nodup_range 21)
    intro a b hne
    intro x hxa hxb
    rcases List.mem_map.1 hxa with ⟨c1, _, rfl⟩
    rcases List.mem_map.1 hxb with ⟨c2, _, h2⟩
    exact hne (congrArg Prod.fst h2).symm

theorem mem_activeCells_iff (r c : Nat) :
    (r, c) ∈ activeCells ↔ r < 21 ∧ c < 21 ∧ isActiveCell r c = true := by
  simp only [activeCells, List.mem_flatMap, List.mem_map, List.mem_filter, List.mem_range]
  constructor
  · rintro ⟨a, ha, b, ⟨hb, hact⟩, heq⟩
    cases heq
    exact ⟨ha, hb, hact⟩
  · rintro ⟨hr, hc, hact⟩
    exact ⟨r, hr, c, ⟨hc, hact⟩, rfl⟩

/-! ### Randomness oracles

`random.Random` instances passed around as `rng`, and the global `random`
module state used by `solver.solve_unique`, are modelled as explicit shuffle
oracles with a threaded state.  `random.shuffle` produces a permutation of
its input list, which is precisely the data carried by the subtype below.
-/

/-- A seeded random source (the `rng : random.Random` argument).  `shuffle`
models both `rng.shuffle` and `rng.sample(range(1,10), 9)` (a sample of the
whole list is a shuffled copy). -/
structure RandomSource where
  St : Type
  shuffle : (α : Type) → St → (l : List α) → { l2 : List α // l2.Perm l } × St

/-- The ambient global `random` module state, consumed by `random.shuffle`
inside `solver.solve_unique` (only ever applied to lists of digits). -/
structure GlobalRand where
  St : Type
  shuffle : St → (l : List Nat) → { l2 : List Nat // l2.Perm l } × St

/-! ### solver.py -/

/-- The `best is None or len(cand) < len(best[2])` test of
`solver.find_next_cell`. -/
def betterThan (cand : List Nat) : Option (Nat × Nat × List Nat) → Bool
  | none => true
  | some b => cand.length < b.2.2.length

/-- One scan step of `solver.find_next_cell`: fold over the remaining active
cells carrying the best candidate so far (MRV with first-found tie-break,
early `return None` on an empty candidate set, early `break` on a
single-candidate cell). -/
def findGo (g : Grid) : List (Nat × Nat) → Option (Nat × Nat × List Nat) →
    Option (Nat × Nat × List Nat)
  | [], best => best
  | (r, c) :: rest, best =>
    if g r c = none then
      let cand := candidates g r c
      if cand.isEmpty then none
      else if betterThan cand best then
        if cand.length = 1 then some (r, c, cand)
        else findGo g rest (some (r, c, cand))
      else findGo g rest best
    else findGo g rest best

/-- `solver.find_next_cell`. -/
def findNextCell (g : Grid) : Option (Nat × Nat × List Nat) :=
  findGo g activeCells none

/-- Number of empty active cells; the fuel/termination measure of the
backtracking search. -/
def numEmpty (g : Grid) : Nat :=
  activeCells.countP fun p => decide (g p.1 p.2 = none)

/-- The full-grid test done by `solve_unique`'s `backtrack` when
`find_next_cell` returns `None` (a linear scan for an empty active cell). -/
def gridFull (g : Grid) : Bool :=
  activeCells.all fun p => ! (g p.1 p.2 == none)

/-- The candidate loop of `solver.solve_unique.backtrack`
(`for v in cand: ...`): try each value in the shuffled candidate list,
assigning, recursing (`rec`), and undoing the assignment (`grid[r][c] =
None`) when the recursive call returns `False`.  Results are
`(stop, grid, count, global-random state)`. -/
def tryCand (G : GlobalRand) (rec : G.St → Grid → Nat → Bool × Grid × Nat × G.St)
    (r c : Nat) : List Nat → G.St → Grid → Nat → Bool × Grid × Nat × G.St
  | [], s, g, k => (false, g, k, s)
  | v :: vs, s, g, k =>
    if isValidAssignment g r c v then
      match rec s (gset g r c (some v)) k with
      | (true, g2, k2, s2) => (true, g2, k2, s2)
      | (false, g2, k2, s2) => tryCand G rec r c vs s2 (gset g2 r c none) k2
    else tryCand G rec r c vs s g k

/-- `solver.solve_unique.backtrack`, with explicit fuel (one unit per cell
assignment; fuel `numEmpty g + 1` always suffices and is what `solveUnique`
passes).  Out of fuel returns `false` with the state untouched. -/
def btrack (G : GlobalRand) (L : Nat) :
    Nat → G.St → Grid → Nat → Bool × Grid × Nat × G.St
  | 0, s, g, k => (false, g, k, s)
  | fuel + 1, s, g, k =>
    match findNextCell g with
    | none =>
      if gridFull g then (decide (L ≤ k + 1), g, k + 1, s)
      else (false, g, k, s)
    | some (r, c, cand) =>
      let sh := G.shuffle s cand
      tryCand G (btrack G L fuel) r c sh.1.val sh.2 g k

/-- `solver.solve_unique`: returns `((has_solution, count), final grid,
final global-random state)`.  The final grid records the in-place mutation
of the argument (the callers in `generator.py` always pass a copy). -/
def solveUnique (G : GlobalRand) (g : Grid) (L : Nat) (s : G.St) :
    (Bool × Nat) × Grid × G.St :=
  match btrack G L (numEmpty g + 1) s g 0 with
  | (_, g2, k, s2) => ((decide (0 < k), k), g2, s2)

/-- The (shuffle-free) exhaustive solution count explored by `backtrack`,
with the same branching structure but no early stop. -/
def ncount : Nat → Grid → Nat
  | 0, _ => 0
  | fuel + 1, g =>
    match findNextCell g with
    | none => if gridFull g then 1 else 0
    | some (r, c, cand) =>
      (cand.map fun v =>
        if isValidAssignment g r c v then ncount fuel (gset g r c (some v)) else 0).sum

/-- The number of solutions `solve_unique` would count with no limit. -/
def nsols (g : Grid) : Nat := ncount (numEmpty g + 1) g

/-! ### Grid update lemmas -/

theorem gset_self (g : Grid) (r c : Nat) (v : Option Nat) : gset g r c v r c = v := by
  simp [gset]

theorem gset_other (g : Grid) (r c : Nat) (v : Option Nat) {r2 c2 : Nat}
    (h : ¬(r2 = r ∧ c2 = c)) : gset g r c v r2 c2 = g r2 c2 := by
  simp only [gset, if_neg h]

theorem gset_gset_cancel {g : Grid} {r c : Nat} (v : Option Nat) (h : g r c = none) :
    gset (gset g r c v) r c none = g := by
  funext r2 c2
  by_cases hrc : r2 = r ∧ c2 = c
  · obtain ⟨rfl, rfl⟩ := hrc
    rw [gset_self, h]
  · rw [gset_other _ _ _ _ hrc, gset_other _ _ _ _ hrc]

theorem gset_gset_restore {g : Grid} {r c v : Nat} (h : g r c = some v) :
    gset (gset g r c none) r c (some v) = g := by
  funext r2 c2
  by_cases hrc : r2 = r ∧ c2 = c
  · obtain ⟨rfl, rfl⟩ := hrc
    rw [gset_self, h]
  · rw [gset_other _ _ _ _ hrc, gset_other _ _ _ _ hrc]

/-! ### `find_next_cell` specification -/

/-- What `find_next_cell` guarantees about a returned cell: it is an active
empty cell whose (nonempty) candidate list is `candidates g r c`. -/
def GoodBest (g : Grid) (x : Nat × Nat × List Nat) : Prop :=
  (x.1, x.2.1) ∈ activeCells ∧ g x.1 x.2.1 = none ∧
    x.2.2 = candidates g x.1 x.2.1 ∧ x.2.2 ≠ []

theorem findGo_spec (g : Grid) :
    ∀ (l : List (Nat × Nat)) (best : Option (Nat × Nat × List Nat)),
      (∀ p ∈ l, p ∈ activeCells) →
      (∀ x, best = some x → GoodBest g x) →
      ∀ x, findGo g l best = some x → GoodBest g x := by
  intro l
  induction l with
  | nil => intro best _ hbest x hx; exact hbest x hx
  | cons p rest ih =>
    intro best hl hbest x hx
    obtain ⟨r, c⟩ := p
    have hmem : (r, c) ∈ activeCells := hl _ (List.mem_cons_self _ _)
    have hrest : ∀ q ∈ rest, q ∈ activeCells := fun q hq => hl q (List.mem_cons_of_mem _ hq)
    unfold findGo at hx
    by_cases hg : g r c = none
    · rw [if_pos hg] at hx
      by_cases hemp : (candidates g r c).isEmpty = true
      · rw [if_pos hemp] at hx; cases hx
      · rw [if_neg hemp] at hx
        have hne : candidates g r c ≠ [] := by
          intro h0; rw [h0] at hemp; exact hemp rfl
        by_cases hbet : betterThan (candidates g r c) best = true
        · rw [if_pos hbet] at hx
          by_cases hone : (candidates g r c).length = 1
          · rw [if_pos hone] at hx
            cases hx
            exact ⟨hmem, hg, rfl, hne⟩
          · rw [if_neg hone] at hx
            refine ih _ hrest ?_ x hx
            intro y hy
            cases hy
            exact ⟨hmem, hg, rfl, hne⟩
        · rw [if_neg hbet] at hx
          exact ih _ hrest hbest x hx
    · rw [if_neg hg] at hx
      exact ih _ hrest hbest x hx

theorem findNextCell_spec {g : Grid} {r c : Nat} {cand : List Nat}
    (h : findNextCell g = some (r, c, cand)) :
    (r, c) ∈ activeCells ∧ g r c = none ∧ cand = candidates g r c ∧ cand ≠ [] :=
  findGo_spec g activeCells none (fun _ hp => hp) (fun _ h0 => by cases h0) _ h

theorem findGo_of_filled (g : Grid) :
    ∀ (l : List (Nat × Nat)) (best : Option (Nat × Nat × List Nat)),
      (∀ p ∈ l, ¬ g p.1 p.2 = none) → findGo g l best = best := by
  intro l
  induction l with
  | nil => intro best _; rfl
  | cons p rest ih =>
    intro best hl
    obtain ⟨r, c⟩ := p
    unfold findGo
    rw [if_neg (hl (r, c) (List.mem_cons_self _ _))]
    exact ih best fun q hq => hl q (List.mem_cons_of_mem _ hq)

theorem gridFull_iff {g : Grid} :
    gridFull g = true ↔ ∀ p ∈ activeCells, ¬ g p.1 p.2 = none := by
  simp only [gridFull, List.all_eq_true, Bool.not_eq_eq_eq_not, Bool.not_true, beq_eq_false_iff_ne,
    ne_eq]

theorem findNextCell_of_full {g : Grid} (h : gridFull g = true) : findNextCell g = none :=
  findGo_of_filled g activeCells none (gridFull_iff.1 h)

/-! ### `numEmpty` bookkeeping -/

theorem countP_swap_one {α : Type} {l : List α} (hnd : l.Nodup) {a : α} (ha : a ∈ l)
    {P Q : α → Bool} (hoff : ∀ x ∈ l, x ≠ a → Q x = P x)
    (hPa : P a = true) (hQa : Q a = false) :
    l.countP Q + 1 = l.countP P := by
  induction l with
  | nil => cases ha
  | cons x xs ih =>
    rcases List.mem_cons.1 ha with hcase | hmem
    · subst hcase
      rw [List.countP_cons_of_neg _ _ (by simp [hQa]), List.countP_cons_of_pos _ _ hPa]
      have : xs.countP Q = xs.countP P := by
        apply List.countP_congr
        intro y hy
        have hya : y ≠ a := by
          intro h0
          subst h0
          exact (List.nodup_cons.1 hnd).1 hy
        rw [hoff y (List.mem_cons_of_mem _ hy) hya]
      omega
    · have hax : a ≠ x := by
        intro h0
        subst h0
        exact (List.nodup_cons.1 hnd).1 hmem
      have hQx : Q x = P x := hoff x (List.mem_cons_self _ _) (fun h0 => hax h0.symm)
      rcases hPx : P x with _ | _
      · rw [List.countP_cons_of_neg _ _ (by simp [hQx, hPx]),
          List.countP_cons_of_neg _ _ (by simp [hPx])]
        exact ih (List.nodup_cons.1 hnd).2 hmem
          (fun y hy hya => hoff y (List.mem_cons_of_mem _ hy) hya)
      · rw [List.countP_cons_of_pos _ _ (by simp [hQx, hPx]),
          List.countP_cons_of_pos _ _ (by simp [hPx])]
        have := ih (List.nodup_cons.1 hnd).2 hmem
          (fun y hy hya => hoff y (List.mem_cons_of_mem _ hy) hya)
        omega

theorem numEmpty_pos {g : Grid} {r c : Nat} (hmem : (r, c) ∈ activeCells)
    (h : g r c = none) : 0 < numEmpty g := by
  apply List.countP_pos_iff.2
  exact ⟨(r, c), hmem, by simpa using h⟩

theorem numEmpty_gset {g : Grid} {r c v : Nat} (hmem : (r, c) ∈ activeCells)
    (h : g r c = none) : numEmpty (gset g r c (some v)) + 1 = numEmpty g := by
  apply countP_swap_one activeCells_nodup hmem
  · intro x _ hx
    have : ¬(x.1 = r ∧ x.2 = c) := by
      rintro ⟨h1, h2⟩
      exact hx (Prod.ext h1 h2)
    simp only [gset_other _ _ _ _ this]
  · simpa using h
  · simp [gset_self]

/-! ### Frame property of the backtracker

When `backtrack` returns `False`, every trial assignment has been undone and
the grid is exactly as it was on entry. -/

theorem tryCand_frame (G : GlobalRand) (rec : G.St → Grid → Nat → Bool × Grid × Nat × G.St)
    (r c : Nat) (hrec : ∀ s g k, (rec s g k).1 = false → (rec s g k).2.1 = g) :
    ∀ (l : List Nat) (s : G.St) (g : Grid) (k : Nat), g r c = none →
      (tryCand G rec r c l s g k).1 = false → (tryCand G rec r c l s g k).2.1 = g := by
  intro l
  induction l with
  | nil => intro s g k _ _; rfl
  | cons v vs ih =>
    intro s g k hg hfalse
    unfold tryCand at hfalse ⊢
    by_cases hv : isValidAssignment g r c v = true
    · rw [if_pos hv] at hfalse ⊢
      rcases hrc : rec s (gset g r c (some v)) k with ⟨b, g2, k2, s2⟩
      rw [hrc] at hfalse
      cases b
      · have hg2 : g2 = gset g r c (some v) := by
          have h2 := hrec s (gset g r c (some v)) k
          rw [hrc] at h2
          exact h2 rfl
        have hfalse2 : (tryCand G rec r c vs s2 (gset g2 r c none) k2).1 = false := hfalse
        show (tryCand G rec r c vs s2 (gset g2 r c none) k2).2.1 = g
        rw [hg2, gset_gset_cancel _ hg] at hfalse2 ⊢
        exact ih s2 g k2 hg hfalse2
      · have hx : true = false := hfalse
        exact Bool.noConfusion hx
    · rw [if_neg hv] at hfalse ⊢
      exact ih s g k hg hfalse

theorem btrack_frame (G : GlobalRand) (L : Nat) :
    ∀ (fuel : Nat) (s : G.St) (g : Grid) (k : Nat),
      (btrack G L fuel s g k).1 = false → (btrack G L fuel s g k).2.1 = g := by
  intro fuel
  induction fuel with
  | zero => intro s g k _; rfl
  | succ f ih =>
    intro s g k hfalse
    unfold btrack at hfalse ⊢
    rcases hfn : findNextCell g with _ | x
    · show (if gridFull g = true then (decide (L ≤ k + 1), g, k + 1, s)
          else (false, g, k, s)).2.1 = g
      by_cases hful : gridFull g = true
      · rw [if_pos hful]
      · rw [if_neg hful]
    · obtain ⟨r, c, cand⟩ := x
      rw [hfn] at hfalse
      have hg : g r c = none := (findNextCell_spec hfn).2.1
      have hfalse2 : (tryCand G (btrack G L f) r c (G.shuffle s cand).1.val
          (G.shuffle s cand).2 g k).1 = false := hfalse
      show (tryCand G (btrack G L f) r c (G.shuffle s cand).1.val
          (G.shuffle s cand).2 g k).2.1 = g
      exact tryCand_frame G _ r c (fun s2 g2 k2 => ih s2 g2 k2) _ _ _ _ hg hfalse2

/-! ### The count computed by the backtracker

`backtrack` with limit `L`, started at count `k < L`, ends with count
`min L (k + nsols g)` and returns `True` exactly when the limit was hit.
In particular the result is independent of the candidate shuffles drawn
from the global random state. -/

theorem nsols_full {g : Grid} (h : gridFull g = true) : nsols g = 1 := by
  unfold nsols ncount
  rw [findNextCell_of_full h, if_pos h]

theorem nsols_dead {g : Grid} (hfn : findNextCell g = none) (h : ¬ gridFull g = true) :
    nsols g = 0 := by
  unfold nsols ncount
  rw [hfn, if_neg h]

theorem nsols_node {g : Grid} {r c : Nat} {cand : List Nat}
    (hfn : findNextCell g = some (r, c, cand)) :
    nsols g = (cand.map fun v =>
      if isValidAssignment g r c v then nsols (gset g r c (some v)) else 0).sum := by
  obtain ⟨hmem, hg, _, _⟩ := findNextCell_spec hfn
  unfold nsols ncount
  rw [hfn]
  refine congrArg List.sum (List.map_congr_left ?_)
  intro v _
  by_cases hv : isValidAssignment g r c v = true
  · rw [if_pos hv, if_pos hv]
    rw [show numEmpty g = numEmpty (gset g r c (some v)) + 1 from
      (@numEmpty_gset g r c v hmem hg).symm]
    rfl
  · rw [if_neg hv, if_neg hv]

theorem tryCand_count (G : GlobalRand) (L : Nat)
    (rec : G.St → Grid → Nat → Bool × Grid × Nat × G.St) (r c : Nat) {g : Grid}
    (hrecF : ∀ s g2 k, (rec s g2 k).1 = false → (rec s g2 k).2.1 = g2)
    (hrecC : ∀ (s : G.St) (k : Nat) (v : Nat), k < L → isValidAssignment g r c v = true →
      (rec s (gset g r c (some v)) k).2.2.1 = min L (k + nsols (gset g r c (some v))) ∧
      (rec s (gset g r c (some v)) k).1
        = decide (L ≤ k + nsols (gset g r c (some v))))
    (hg : g r c = none) :
    ∀ (l : List Nat) (s : G.St) (k : Nat), k < L →
      (tryCand G rec r c l s g k).2.2.1
        = min L (k + (l.map fun v =>
            if isValidAssignment g r c v then nsols (gset g r c (some v)) else 0).sum) ∧
      (tryCand G rec r c l s g k).1
        = decide (L ≤ k + (l.map fun v =>
            if isValidAssignment g r c v then nsols (gset g r c (some v)) else 0).sum) := by
  intro l
  induction l with
  | nil =>
    intro s k hk
    refine ⟨?_, ?_⟩
    · show k = min L (k + (List.map _ []).sum)
      simp only [List.map_nil, List.sum_nil, Nat.add_zero]
      omega
    · show false = decide (L ≤ k + (List.map _ []).sum)
      simp only [List.map_nil, List.sum_nil, Nat.add_zero]
      symm
      exact decide_eq_false (by omega)
  | cons v vs ih =>
    intro s k hk
    unfold tryCand
    by_cases hv : isValidAssignment g r c v = true
    · rw [if_pos hv]
      rcases hrc : rec s (gset g r c (some v)) k with ⟨b, g2, k2, s2⟩
      have hspec := hrecC s k v hk hv
      rw [hrc] at hspec
      have hk2 : k2 = min L (k + nsols (gset g r c (some v))) := hspec.1
      have hb : b = decide (L ≤ k + nsols (gset g r c (some v))) := hspec.2
      cases b
      · -- recursion exhausted below the limit; grid restored, keep scanning
        have hlt : k + nsols (gset g r c (some v)) < L := by
          by_contra hge
          rw [decide_eq_true (show L ≤ k + nsols (gset g r c (some v)) by omega)] at hb
          cases hb
        have hk2x : k2 = k + nsols (gset g r c (some v)) := by
          rw [hk2]
          omega
        have hg2 : g2 = gset g r c (some v) := by
          have h2 := hrecF s (gset g r c (some v)) k
          rw [hrc] at h2
          exact h2 rfl
        have hgrid : gset g2 r c none = g := by
          rw [hg2]
          exact gset_gset_cancel _ hg
        have hrest := ih s2 k2 (by omega)
        refine ⟨?_, ?_⟩
        · show (tryCand G rec r c vs s2 (gset g2 r c none) k2).2.2.1
            = min L (k + (List.map _ (v :: vs)).sum)
          rw [hgrid, hrest.1, hk2x]
          simp only [List.map_cons, List.sum_cons, if_pos hv]
          omega
        · show (tryCand G rec r c vs s2 (gset g2 r c none) k2).1
            = decide (L ≤ k + (List.map _ (v :: vs)).sum)
          rw [hgrid, hrest.2, hk2x]
          simp only [List.map_cons, List.sum_cons, if_pos hv]
          rw [Nat.add_assoc]
      · -- limit hit inside the recursion: stop the whole search
        have hge : L ≤ k + nsols (gset g r c (some v)) := by
          by_contra hlt
          rw [decide_eq_false (show ¬ L ≤ k + nsols (gset g r c (some v)) by omega)] at hb
          cases hb
        have hsumge : L ≤ k + (List.map (fun v =>
            if isValidAssignment g r c v then nsols (gset g r c (some v)) else 0)
              (v :: vs)).sum := by
          simp only [List.map_cons, List.sum_cons, if_pos hv]
          omega
        refine ⟨?_, ?_⟩
        · show k2 = min L (k + (List.map _ (v :: vs)).sum)
          rw [hk2]
          simp only [List.map_cons, List.sum_cons, if_pos hv]
          omega
        · show true = decide (L ≤ k + (List.map _ (v :: vs)).sum)
          symm
          exact decide_eq_true hsumge
    · rw [if_neg hv]
      have hrest := ih s k hk
      refine ⟨?_, ?_⟩
      · rw [hrest.1]
        simp only [List.map_cons, List.sum_cons, if_neg hv, Nat.zero_add]
      · rw [hrest.2]
        simp only [List.map_cons, List.sum_cons, if_neg hv, Nat.zero_add]

theorem btrack_count (G : GlobalRand) (L : Nat) :
    ∀ (fuel : Nat) (g : Grid) (s : G.St) (k : Nat), numEmpty g < fuel → k < L →
      (btrack G L fuel s g k).2.2.1 = min L (k + nsols g) ∧
      (btrack G L fuel s g k).1 = decide (L ≤ k + nsols g) := by
  intro fuel
  induction fuel with
  | zero => intro g s k hfuel _; omega
  | succ f ih =>
    intro g s k hfuel hk
    unfold btrack
    rcases hfn : findNextCell g with _ | x
    · refine ⟨?_, ?_⟩
      · show (if gridFull g = true then (decide (L ≤ k + 1), g, k + 1, s)
            else (false, g, k, s)).2.2.1 = min L (k + nsols g)
        by_cases hful : gridFull g = true
        · rw [if_pos hful, nsols_full hful]
          show k + 1 = min L (k + 1)
          omega
        · rw [if_neg hful, nsols_dead hfn hful]
          show k = min L (k + 0)
          omega
      · show (if gridFull g = true then (decide (L ≤ k + 1), g, k + 1, s)
            else (false, g, k, s)).1 = decide (L ≤ k + nsols g)
        by_cases hful : gridFull g = true
        · rw [if_pos hful, nsols_full hful]
        · rw [if_neg hful, nsols_dead hfn hful]
          show false = decide (L ≤ k + 0)
          symm
          exact decide_eq_false (by omega)
    · obtain ⟨r, c, cand⟩ := x
      obtain ⟨hmem, hg, _, _⟩ := findNextCell_spec hfn
      have hsub : ∀ v, numEmpty (gset g r c (some v)) < f := by
        intro v
        have := @numEmpty_gset g r c v hmem hg
        omega
      have hmain := tryCand_count G L (btrack G L f) r c
        (fun s2 g2 k2 => btrack_frame G L f s2 g2 k2)
        (fun s2 k2 v hk2 hv => ih (gset g r c (some v)) s2 k2 (hsub v) hk2)
        hg (G.shuffle s cand).1.val (G.shuffle s cand).2 k hk
      have hsum : ((G.shuffle s cand).1.val.map fun v =>
            if isValidAssignment g r c v then nsols (gset g r c (some v)) else 0).sum
          = (cand.map fun v =>
            if isValidAssignment g r c v then nsols (gset g r c (some v)) else 0).sum :=
        List.Perm.sum_eq (List.Perm.map _ (G.shuffle s cand).1.property)
      rw [hsum] at hmain
      rw [← nsols_node hfn] at hmain
      refine ⟨?_, ?_⟩
      · show (tryCand G (btrack G L f) r c (G.shuffle s cand).1.val
            (G.shuffle s cand).2 g k).2.2.1 = min L (k + nsols g)
        exact hmain.1
      · show (tryCand G (btrack G L f) r c (G.shuffle s cand).1.val
            (G.shuffle s cand).2 g k).1 = decide (L ≤ k + nsols g)
        exact hmain.2

/-! ### `solve_unique` specification -/

theorem solveUnique_spec (G : GlobalRand) (g : Grid) (L : Nat) (s : G.St) (hL : 0 < L) :
    (solveUnique G g L s).1 = (decide (0 < min L (nsols g)), min L (nsols g)) := by
  have h := btrack_count G L (numEmpty g + 1) g s 0 (Nat.lt_succ_self _) hL
  unfold solveUnique
  rcases hb : btrack G L (numEmpty g + 1) s g 0 with ⟨b, g2, k, s2⟩
  rw [hb] at h
  have hk : k = min L (0 + nsols g) := h.1
  show ((decide (0 < k), k), g2, s2).1 = _
  rw [hk, Nat.zero_add]

/-- `solve_unique(g, 2) = (True, 1)` exactly when the exhaustive count is 1. -/
theorem solveUnique_eq_one_iff (G : GlobalRand) (g : Grid) (s : G.St) :
    (solveUnique G g 2 s).1 = (true, 1) ↔ nsols g = 1 := by
  rw [solveUnique_spec G g 2 s (by omega)]
  constructor
  · intro h
    have h2 := congrArg Prod.snd h
    simp only at h2
    omega
  · intro h
    rw [h]
    simp

/-- The result pair of `solve_unique` does not depend on the global random
state (nor on the global shuffle oracle). -/
theorem solveUnique_result_irrel (G1 G2 : GlobalRand) (g : Grid) (L : Nat)
    (s1 : G1.St) (s2 : G2.St) (hL : 0 < L) :
    (solveUnique G1 g L s1).1 = (solveUnique G2 g L s2).1 := by
  rw [solveUnique_spec G1 g L s1 hL, solveUnique_spec G2 g L s2 hL]

/-! ### dlx9.py — single-board exact-cover solver

A 9×9 board is `Nat → Nat → Nat` (0 = unset, values 1..9), matching the
list-of-lists boards of the source.  The exact-cover matrix state
(`rows_for_col`, `active_rows`, `active_cols`, `solution`) is embedded with
`Finset Nat`.  `cover` is the closed form of the source's loop (snapshot
`T = rows_for_col[col]`, remove `T ∩ active_rows` from the active rows and
from every still-active column, then deactivate `col`); the source's
`uncover` is dead code and the `saved_*` snapshots in the main loop are
never read, so neither appears here. -/

def Board9 : Type := Nat → Nat → Nat

/-- Functional update of a board cell (`board[r][c] = v`). -/
def bset (b : Board9) (r c v : Nat) : Board9 :=
  fun r2 c2 => if r2 = r ∧ c2 = c then v else b r2 c2

/-- `dlx9._box_index`. -/
def boxIndex (r c : Nat) : Nat := r / 3 * 3 + c / 3

/-- `dlx9._col_ids_for_candidate`. -/
def colIds (r c d : Nat) : List Nat :=
  [r * 9 + d, 81 + c * 9 + d, 162 + boxIndex r c * 9 + d, 243 + r * 9 + c]

/-- `dlx9.solve_random.row_id`. -/
def rowId (r c d : Nat) : Nat := (r * 9 + c) * 9 + d

/-- `cols_for_row[rid]` (the build loop stores `colIds r c d` at index
`rowId r c d`). -/
def colsForRow (rid : Nat) : List Nat := colIds (rid / 9 / 9) (rid / 9 % 9) (rid % 9)

/-- The initially built `rows_for_col[c]`. -/
def rowsForColInit (c : Nat) : Finset Nat :=
  (Finset.range 729).filter fun rid => c ∈ colsForRow rid

/-- The exact-cover search state of `dlx9.solve_random`. -/
structure DlxSt where
  S : Nat → Finset Nat
  A : Finset Nat
  C : Finset Nat
  sol : List Nat

def dlxInit : DlxSt := ⟨rowsForColInit, Finset.range 729, Finset.range 324, []⟩

/-- `dlx9.solve_random.cover` (net effect). -/
def cover (col : Nat) (st : DlxSt) : DlxSt :=
  { S := fun cc => if cc ∈ st.C then st.S cc \ (st.S col ∩ st.A) else st.S cc
    A := st.A \ st.S col
    C := st.C.erase col
    sol := st.sol }

/-- Select a row: cover all four of its columns, then append it to the
partial solution (this is both the given-application step and the branch
step of the main loop). -/
def selectRow (st : DlxSt) (rid : Nat) : DlxSt :=
  let st2 := (colsForRow rid).foldl (fun s col => cover col s) st
  ⟨st2.S, st2.A, st2.C, st2.sol ++ [rid]⟩

/-- The `# Apply givens` loop. -/
def applyGivens (givens : List (Nat × Nat × Nat)) (st : DlxSt) : DlxSt :=
  givens.foldl (fun s gv => selectRow s (rowId gv.1 gv.2.1 gv.2.2)) st

/-- The `rows_for_col` rebuild after the givens. -/
def rebuild (st : DlxSt) : DlxSt :=
  ⟨fun c => (st.S c).filter fun rid => rid ∈ st.A ∨ rid ∈ st.sol, st.A, st.C, st.sol⟩

/-- The solution decoding loop at the end of `solve_random`
(later writes win, as for the Python list assignments). -/
def decodeSol (sol : List Nat) : Board9 :=
  sol.foldl (fun b rid => bset b (rid / 9 / 9) (rid / 9 % 9) (rid % 9 + 1)) fun _ _ => 0

/-- `choose_col` iterates the `active_cols` *set* (unspecified iteration
order) to find a minimal-candidate column; what the rest of the code relies
on is only that the result is a member, so the tie-breaking walk is
abstracted as an oracle producing a member of the (nonempty) set. -/
structure PickCol where
  pick : (s : Finset Nat) → s.Nonempty → { c : Nat // c ∈ s }

inductive DlxOut (σ : Type) where
  | done (sol : List Nat) (rs : σ)
  | stuck (rs : σ)

/-- The `while True` loop of `solve_random`, with fuel (each iteration
deactivates the chosen column, so `|active_cols| + 1 ≤ 325` units suffice;
`none` models non-termination and is proved unreachable).  A `stuck` result
is the source's bail-out to `_solve_from_scratch`.  The branch row is
`rng.shuffle(rids); rid = rids[0]` on `list(rows_for_col[col])`. -/
def dlxLoop (R : RandomSource) (P : PickCol) : Nat → DlxSt → R.St → Option (DlxOut R.St)
  | 0, _, _ => none
  | fuel + 1, st, rs =>
    if hC : st.C = ∅ then some (.done st.sol rs)
    else
      let col := (P.pick st.C (Finset.nonempty_iff_ne_empty.2 hC)).val
      if st.S col = ∅ then some (.stuck rs)
      else
        let sh := R.shuffle Nat rs ((st.S col).sort (· ≤ ·))
        dlxLoop R P fuel (selectRow st (sh.1.val.headD 0)) sh.2

/-! #### `dlx9._solve_from_scratch` -/

/-- State of the fallback backtracker: the board plus the `rows`/`cols`/
`boxs` used-value sets (sets as membership functions).  The source's
`remove` calls on backtracking are subsumed by passing state by value. -/
structure FsSt where
  board : Board9
  rows : Nat → Nat → Bool
  cols : Nat → Nat → Bool
  boxs : Nat → Nat → Bool

def setAdd (f : Nat → Nat → Bool) (i v : Nat) : Nat → Nat → Bool :=
  fun i2 v2 => if i2 = i ∧ v2 = v then true else f i2 v2

/-- `board[r][c]=v; rows[r].add(v); cols[c].add(v); boxs[b].add(v)`. -/
def fsAssign (st : FsSt) (r c v : Nat) : FsSt :=
  ⟨bset st.board r c v, setAdd st.rows r v, setAdd st.cols c v,
    setAdd st.boxs (boxIndex r c) v⟩

/-- The givens-loading loop of `_solve_from_scratch` (`v = d+1`). -/
def fsInit (givens : List (Nat × Nat × Nat)) : FsSt :=
  givens.foldl (fun st gv => fsAssign st gv.1 gv.2.1 (gv.2.2 + 1))
    ⟨fun _ _ => 0, fun _ _ => false, fun _ _ => false, fun _ _ => false⟩

/-- `cells = [(r,c) for r in range(9) for c in range(9) if board[r][c]==0]`. -/
def fsCells (st : FsSt) : List (Nat × Nat) :=
  (List.range 9).flatMap fun r =>
    ((List.range 9).filter fun c => st.board r c == 0).map fun c => (r, c)

/-- The `for v in cand` loop of the fallback's `backtrack` (the random
state advanced inside a failed branch is threaded on, as for the global
Python rng). -/
def fsTry (R : RandomSource) (rec : FsSt → R.St → Option Board9 × R.St) (r c : Nat) :
    List Nat → FsSt → R.St → Option Board9 × R.St
  | [], _, rs => (none, rs)
  | v :: vs, st, rs =>
    match rec (fsAssign st r c v) rs with
    | (some b, rs2) => (some b, rs2)
    | (none, rs2) => fsTry R rec r c vs st rs2

/-- `_solve_from_scratch.backtrack` over the remaining cells.
`rng.sample(range(1,10), 9)` is a random permutation of 1..9. -/
def fsGo (R : RandomSource) : List (Nat × Nat) → FsSt → R.St → Option Board9 × R.St
  | [], st, rs => (some st.board, rs)
  | (r, c) :: rest, st, rs =>
    let sh := R.shuffle Nat rs (List.range' 1 9)
    let cand := sh.1.val.filter fun v =>
      ! st.rows r v && ! st.cols c v && ! st.boxs (boxIndex r c) v
    fsTry R (fsGo R rest) r c cand st sh.2

/-- `dlx9._solve_from_scratch`; `none` is the source's failed
`assert backtrack()`. -/
def solveFromScratch (R : RandomSource) (rs : R.St) (givens : List (Nat × Nat × Nat)) :
    Option Board9 × R.St :=
  let st := fsInit givens
  fsGo R (fsCells st) st rs

/-- `dlx9.solve_random`. -/
def solveRandom (R : RandomSource) (P : PickCol) (rs : R.St)
    (givens : List (Nat × Nat × Nat)) : Option Board9 × R.St :=
  match dlxLoop R P 325 (rebuild (applyGivens givens dlxInit)) rs with
  | some (.done sol rs2) => (some (decodeSol sol), rs2)
  | some (.stuck rs2) => solveFromScratch R rs2 givens
  | none => (none, rs)

/-! ### generator.py -/

/-- `generator._embed` (net effect of the write loop: the board's region is
overwritten, everything else is left as is). -/
def embedBoard (b : Board9) (r0 c0 : Nat) (g : Grid) : Grid :=
  fun r c =>
    if r0 ≤ r ∧ r < r0 + 9 ∧ c0 ≤ c ∧ c < c0 + 9 then some (b (r - r0) (c - c0))
    else g r c

/-- The `m[corner]` subgrid origin inside center (`generator.
_extract_overlap_givens`; the unused first component of `m` is dropped). -/
def overlapSrc : String → Nat × Nat
  | "TL" => (0, 0)
  | "TR" => (0, 6)
  | "BL" => (6, 0)
  | "BR" => (6, 6)
  | _ => (0, 0)

/-- The `pos[corner]` overlap block origin inside the corner board. -/
def overlapPos : String → Nat × Nat
  | "TL" => (6, 6)
  | "TR" => (6, 0)
  | "BL" => (0, 6)
  | "BR" => (0, 0)
  | _ => (0, 0)

/-- `generator._extract_overlap_givens` (0-based digits: `v - 1`). -/
def extractOverlapGivens (center9 : Board9) (corner : String) : List (Nat × Nat × Nat) :=
  let src := overlapSrc corner
  let pos := overlapPos corner
  (List.range 3).flatMap fun dr =>
    (List.range 3).map fun dc =>
      (pos.1 + dr, pos.2 + dc, center9 (src.1 + dr) (src.2 + dc) - 1)

/-- The 9×9 board read out of a 21×21 grid region (empty cells read 0). -/
def subBoard (g : Grid) (r0 c0 : Nat) : Board9 :=
  fun r c => (g (r0 + r) (c0 + c)).getD 0

/-- The net effect of the five `_embed` calls of
`_solve_samurai_by_composition` (in order tl, tr, center, bl, br; later
writes win). -/
def stitched (tl tr c9 bl br : Board9) : Grid :=
  embedBoard br 12 12 (embedBoard bl 12 0 (embedBoard c9 6 6
    (embedBoard tr 0 12 (embedBoard tl 0 0 emptySamuraiGrid))))

/-- `generator._solve_samurai_by_composition`: center first, then the four
corners constrained by the overlap givens, stitched in the order
tl, tr, center, bl, br (later writes win). -/
def solveComposition (R : RandomSource) (P : PickCol) (rs : R.St) : Option Grid × R.St :=
  match solveRandom R P rs [] with
  | (none, rs1) => (none, rs1)
  | (some center9, rs1) =>
    match solveRandom R P rs1 (extractOverlapGivens center9 "TL") with
    | (none, rs2) => (none, rs2)
    | (some tl, rs2) =>
      match solveRandom R P rs2 (extractOverlapGivens center9 "TR") with
      | (none, rs3) => (none, rs3)
      | (some tr, rs3) =>
        match solveRandom R P rs3 (extractOverlapGivens center9 "BL") with
        | (none, rs4) => (none, rs4)
        | (some bl, rs4) =>
          match solveRandom R P rs4 (extractOverlapGivens center9 "BR") with
          | (none, rs5) => (none, rs5)
          | (some br, rs5) => (some (stitched tl tr center9 bl br), rs5)

/-- `count_clues` of `generator._dig_holes_to_target` (a sum over the
shuffled actives list). -/
def countClues (actives : List (Nat × Nat)) (g : Grid) : Nat :=
  actives.countP fun p => (g p.1 p.2).isSome

/-- The cell loop of `generator._dig_holes_to_target`.  `tmo t` models
`time.time() - start > uniq_timeout_s` for the `t`-th uniqueness check of
the generation run (the wall clock as a boolean oracle); the grid handed to
`solve_unique` is a copy, so only the result and the advanced global random
state are kept. -/
def digGo (G : GlobalRand) (tmo : Nat → Bool) (target : Nat) (actives : List (Nat × Nat)) :
    List (Nat × Nat) → Grid → Nat → G.St → Grid × Nat × G.St
  | [], p, t, gs => (p, t, gs)
  | (r, c) :: rest, p, t, gs =>
    if countClues actives p ≤ target then (p, t, gs)
    else
      match p r c with
      | none => digGo G tmo target actives rest p t gs
      | some v =>
        let p2 := gset p r c none
        let res := solveUnique G p2 2 gs
        if tmo t || ! (res.1.1 && res.1.2 == 1) then
          digGo G tmo target actives rest (gset p2 r c (some v)) (t + 1) res.2.2
        else
          digGo G tmo target actives rest p2 (t + 1) res.2.2

/-- `generator._dig_holes_to_target`: copy the solved grid, shuffle the
active cells, run the dig loop.  Returns (puzzle, rng state, global random
state, check counter). -/
def digHoles (R : RandomSource) (G : GlobalRand) (tmo : Nat → Bool) (solved : Grid)
    (target : Nat) (rs : R.St) (gs : G.St) (t : Nat) : Grid × R.St × G.St × Nat :=
  let sh := R.shuffle (Nat × Nat) rs activeCells
  let out := digGo G tmo target sh.1.val sh.1.val solved t gs
  (out.1, sh.2, out.2.2, out.2.1)

/-- `generator.DIFFICULTY_CLUES`. -/
def DIFFICULTY_CLUES : List (String × Nat) :=
  [("easy", 170), ("medium", 140), ("hard", 110), ("evil", 80)]

/-- `difficulty.lower()` (ASCII, character by character). -/
def lowerStr (s : String) : String := ⟨s.data.map Char.toLower⟩

/-- The failures `generate_samurai` can raise: `ValueError` for an unknown
difficulty, and the (never reached) solver failure of the composition
(`assert` / non-termination inside `dlx9`). -/
inductive GenErr where
  | invalidDifficulty (msg : String)
  | solverStuck

/-- The `for attempt in range(3)` loop of `generate_samurai` plus the final
fallback dig (`target = max(base, 210)`, returned without re-verification).
`n` counts the remaining attempts; `!adapt` jumps straight to the
fallback. -/
def genAttempts (R : RandomSource) (G : GlobalRand) (tmo : Nat → Bool) (adapt : Bool)
    (solved : Grid) (base : Nat) :
    Nat → Nat → R.St → G.St → Nat → Except GenErr (Grid × Grid) × (R.St × G.St × Nat)
  | 0, _, rs, gs, t =>
    let out := digHoles R G tmo solved (max base 210) rs gs t
    (.ok (out.1, solved), (out.2.1, out.2.2.1, out.2.2.2))
  | n + 1, target, rs, gs, t =>
    let out := digHoles R G tmo solved target rs gs t
    let chk := solveUnique G out.1 2 out.2.2.1
    if chk.1.1 && chk.1.2 == 1 then
      (.ok (out.1, solved), (out.2.1, chk.2.2, out.2.2.2))
    else if ! adapt then
      genAttempts R G tmo adapt solved base 0 target out.2.1 chk.2.2 out.2.2.2
    else
      genAttempts R G tmo adapt solved base n (target + 10) out.2.1 chk.2.2 out.2.2.2

/-- `generator.generate_samurai`.  Returns the `(puzzle, solution)` pair (or
the error) together with the final oracle states and check counter. -/
def generateSamurai (R : RandomSource) (G : GlobalRand) (P : PickCol) (tmo : Nat → Bool)
    (rs : R.St) (gs : G.St) (difficulty : String) (adapt : Bool) :
    Except GenErr (Grid × Grid) × (R.St × G.St × Nat) :=
  let d := lowerStr difficulty
  match DIFFICULTY_CLUES.lookup d with
  | none => (.error (.invalidDifficulty d), (rs, gs, 0))
  | some base =>
    match solveComposition R P rs with
    | (none, rs1) => (.error .solverStuck, (rs1, gs, 0))
    | (some solved, rs1) => genAttempts R G tmo adapt solved base 3 base rs1 gs 0

/-! ### Exact-cover encoding arithmetic -/

theorem colsForRow_rowId {r c d : Nat} (hc : c < 9) (hd : d < 9) :
    colsForRow (rowId r c d) = colIds r c d := by
  have h1 : rowId r c d / 9 = r * 9 + c := by
    unfold rowId
    omega
  have h2 : rowId r c d % 9 = d := by
    unfold rowId
    omega
  have h3 : rowId r c d / 9 / 9 = r := by
    rw [h1]
    omega
  have h4 : rowId r c d / 9 % 9 = c := by
    rw [h1]
    omega
  show colIds (rowId r c d / 9 / 9) (rowId r c d / 9 % 9) (rowId r c d % 9) = colIds r c d
  rw [h2, h3, h4]

theorem rowId_lt {r c d : Nat} (hr : r < 9) (hc : c < 9) (hd : d < 9) :
    rowId r c d < 729 := by
  unfold rowId
  omega

theorem colsForRow_lt {rid : Nat} (h : rid < 729) : ∀ cc ∈ colsForRow rid, cc < 324 := by
  intro cc hcc
  unfold colsForRow colIds boxIndex at hcc
  simp only [List.mem_cons, List.mem_singleton, List.not_mem_nil, or_false] at hcc
  rcases hcc with rfl | rfl | rfl | rfl <;> omega

theorem colsForRow_ne_nil {rid : Nat} : colsForRow rid ≠ [] := by
  unfold colsForRow colIds
  simp

theorem colsForRow_nodup : ∀ rid, rid < 729 → (colsForRow rid).Nodup := by decide

theorem mem_colsForRow_cell {rid r c : Nat} (hrid : rid < 729) (hr : r < 9) (hc : c < 9) :
    (243 + r * 9 + c) ∈ colsForRow rid ↔ rid / 9 = r * 9 + c := by
  have hb1 : rid / 9 / 9 < 9 := by omega
  have hb2 : rid / 9 / 9 / 3 <= 2 := by omega
  have hb3 : rid / 9 % 9 / 3 <= 2 := by omega
  unfold colsForRow colIds boxIndex
  simp only [List.mem_cons, List.mem_singleton, List.not_mem_nil, or_false]
  omega

theorem mem_colsForRow_row {rid r d : Nat} (hrid : rid < 729) (hr : r < 9) (hd : d < 9) :
    (r * 9 + d) ∈ colsForRow rid ↔ rid / 9 / 9 = r ∧ rid % 9 = d := by
  have hb1 : rid / 9 / 9 < 9 := by omega
  have hb2 : rid / 9 / 9 / 3 <= 2 := by omega
  have hb3 : rid / 9 % 9 / 3 <= 2 := by omega
  unfold colsForRow colIds boxIndex
  simp only [List.mem_cons, List.mem_singleton, List.not_mem_nil, or_false]
  omega

theorem mem_colsForRow_col {rid c d : Nat} (hrid : rid < 729) (hc : c < 9) (hd : d < 9) :
    (81 + c * 9 + d) ∈ colsForRow rid ↔ rid / 9 % 9 = c ∧ rid % 9 = d := by
  have hb1 : rid / 9 / 9 < 9 := by omega
  have hb2 : rid / 9 / 9 / 3 <= 2 := by omega
  have hb3 : rid / 9 % 9 / 3 <= 2 := by omega
  unfold colsForRow colIds boxIndex
  simp only [List.mem_cons, List.mem_singleton, List.not_mem_nil, or_false]
  omega

theorem mem_colsForRow_box {rid bi d : Nat} (hrid : rid < 729) (hb : bi < 9) (hd : d < 9) :
    (162 + bi * 9 + d) ∈ colsForRow rid ↔
      boxIndex (rid / 9 / 9) (rid / 9 % 9) = bi ∧ rid % 9 = d := by
  have hb1 : rid / 9 / 9 < 9 := by omega
  have hb2 : rid / 9 / 9 / 3 <= 2 := by omega
  have hb3 : rid / 9 % 9 / 3 <= 2 := by omega
  unfold colsForRow colIds boxIndex
  simp only [List.mem_cons, List.mem_singleton, List.not_mem_nil, or_false]
  omega

/-! ### Exact-cover state invariants -/

/-- Two candidate rows touch no common constraint column. -/
def colsDisjoint (r1 r2 : Nat) : Prop := ∀ cc ∈ colsForRow r1, cc ∉ colsForRow r2

theorem colsDisjoint_symm {r1 r2 : Nat} (h : colsDisjoint r1 r2) : colsDisjoint r2 r1 :=
  fun cc h2 h1 => h cc h1 h2

/-- Invariant of the matrix part of the state: still-active columns index
exactly the active rows that touch them, active rows touch only active
columns, and everything is in range. -/
structure DlxCore (st : DlxSt) : Prop where
  hS : ∀ c ∈ st.C, st.S c = st.A.filter fun rid => c ∈ colsForRow rid
  hA : st.A ⊆ Finset.range 729
  hAC : ∀ rid ∈ st.A, ∀ cc ∈ colsForRow rid, cc ∈ st.C
  hC : st.C ⊆ Finset.range 324

/-- Full loop invariant: the matrix invariant plus bookkeeping of the
selected rows (covered columns are covered by some selected row, selected
rows touch no active column and are pairwise disjoint). -/
structure DlxInv (st : DlxSt) : Prop where
  core : DlxCore st
  hCov : ∀ cc, cc < 324 → cc ∉ st.C → ∃ rid ∈ st.sol, cc ∈ colsForRow rid
  hSolC : ∀ rid ∈ st.sol, ∀ cc ∈ colsForRow rid, cc ∉ st.C
  hDisj : st.sol.Pairwise colsDisjoint
  hSolLt : ∀ rid ∈ st.sol, rid < 729

theorem cover_core {st : DlxSt} (h : DlxCore st) {col : Nat} (hcol : col ∈ st.C) :
    DlxCore (cover col st) ∧
    (cover col st).C = st.C.erase col ∧
    (cover col st).A = st.A.filter (fun rid => col ∉ colsForRow rid) ∧
    (cover col st).sol = st.sol := by
  have hScol : st.S col = st.A.filter fun rid => col ∈ colsForRow rid := h.hS col hcol
  have hAeq : (cover col st).A = st.A.filter fun rid => col ∉ colsForRow rid := by
    show st.A \ st.S col = _
    rw [hScol]
    ext x
    simp only [Finset.mem_sdiff, Finset.mem_filter]
    tauto
  refine ⟨⟨?_, ?_, ?_, ?_⟩, rfl, hAeq, rfl⟩
  · intro cc hcc
    have hccC : cc ∈ st.C := Finset.mem_of_mem_erase hcc
    show (if cc ∈ st.C then st.S cc \ (st.S col ∩ st.A) else st.S cc) = _
    rw [if_pos hccC, hAeq, h.hS cc hccC, hScol]
    ext x
    simp only [Finset.mem_sdiff, Finset.mem_filter, Finset.mem_inter]
    constructor
    · rintro ⟨⟨hxA, hxcc⟩, hneg⟩
      exact ⟨⟨hxA, fun hcov => hneg ⟨⟨hxA, hcov⟩, hxA⟩⟩, hxcc⟩
    · rintro ⟨⟨hxA, hncov⟩, hxcc⟩
      exact ⟨⟨hxA, hxcc⟩, fun hin => hncov hin.1.2⟩
  · rw [hAeq]
    intro x hx
    exact h.hA (Finset.mem_filter.1 hx).1
  · intro rid hrid cc hcc
    rw [hAeq] at hrid
    obtain ⟨hridA, hncov⟩ := Finset.mem_filter.1 hrid
    show cc ∈ st.C.erase col
    refine Finset.mem_erase.2 ⟨?_, h.hAC rid hridA cc hcc⟩
    intro h0
    subst h0
    exact hncov hcc
  · show st.C.erase col ⊆ _
    exact Finset.Subset.trans (Finset.erase_subset _ _) h.hC

theorem coverList_core {cols : List Nat} :
    ∀ {st : DlxSt}, DlxCore st → cols.Nodup → (∀ c ∈ cols, c ∈ st.C) →
      DlxCore (cols.foldl (fun s col => cover col s) st) ∧
      (cols.foldl (fun s col => cover col s) st).C = st.C \ cols.toFinset ∧
      (cols.foldl (fun s col => cover col s) st).A
        = st.A.filter (fun rid => ∀ c ∈ cols, c ∉ colsForRow rid) ∧
      (cols.foldl (fun s col => cover col s) st).sol = st.sol := by
  induction cols with
  | nil =>
    intro st h _ _
    refine ⟨h, by simp, ?_, rfl⟩
    symm
    apply Finset.filter_true_of_mem
    intro x _
    simp
  | cons c0 rest ih =>
    intro st h hnd hin
    simp only [List.foldl_cons]
    obtain ⟨hc0nd, hrestnd⟩ := List.nodup_cons.1 hnd
    have hc0 : c0 ∈ st.C := hin c0 (List.mem_cons_self _ _)
    obtain ⟨hcore1, hC1, hA1, hsol1⟩ := cover_core h hc0
    have hrest : ∀ c ∈ rest, c ∈ (cover c0 st).C := by
      intro c hc
      rw [hC1]
      refine Finset.mem_erase.2 ⟨?_, hin c (List.mem_cons_of_mem _ hc)⟩
      intro h0
      subst h0
      exact hc0nd hc
    obtain ⟨hcore2, hC2, hA2, hsol2⟩ := ih hcore1 hrestnd hrest
    refine ⟨hcore2, ?_, ?_, by rw [hsol2, hsol1]⟩
    · rw [hC2, hC1]
      ext x
      simp only [Finset.mem_sdiff, Finset.mem_erase, List.toFinset_cons, Finset.mem_insert,
        List.mem_toFinset]
      constructor
      · rintro ⟨⟨hne, hC⟩, hnin⟩
        exact ⟨hC, fun hor => hor.elim hne hnin⟩
      · rintro ⟨hC, hnor⟩
        exact ⟨⟨fun h0 => hnor (Or.inl h0), hC⟩, fun hx => hnor (Or.inr hx)⟩
    · rw [hA2, hA1, Finset.filter_filter]
      apply Finset.filter_congr
      intro x _
      simp only [List.mem_cons, eq_iff_iff]
      constructor
      · rintro ⟨h0, hr⟩ c hc
        rcases hc with rfl | hc
        · exact h0
        · exact hr c hc
      · intro hall
        exact ⟨hall c0 (Or.inl rfl), fun c hc => hall c (Or.inr hc)⟩

theorem selectRow_inv {st : DlxSt} {rid : Nat} (h : DlxInv st) (hrid : rid ∈ st.A) :
    DlxInv (selectRow st rid) ∧
    (selectRow st rid).sol = st.sol ++ [rid] ∧
    (selectRow st rid).A = st.A.filter (fun r2 => ∀ c ∈ colsForRow rid, c ∉ colsForRow r2) ∧
    (selectRow st rid).C = st.C \ (colsForRow rid).toFinset := by
  have hlt : rid < 729 := Finset.mem_range.1 (h.core.hA hrid)
  have hcols : ∀ c ∈ colsForRow rid, c ∈ st.C := h.core.hAC rid hrid
  obtain ⟨hcore2, hC2, hA2, hsol2⟩ :=
    coverList_core h.core (colsForRow_nodup rid hlt) hcols
  set st2 := (colsForRow rid).foldl (fun s col => cover col s) st with hst2
  have hfields : (selectRow st rid).S = st2.S ∧ (selectRow st rid).A = st2.A ∧
      (selectRow st rid).C = st2.C ∧ (selectRow st rid).sol = st2.sol ++ [rid] :=
    ⟨rfl, rfl, rfl, rfl⟩
  refine ⟨⟨⟨?_, ?_, ?_, ?_⟩, ?_, ?_, ?_, ?_⟩, ?_, ?_, ?_⟩
  · exact hcore2.hS
  · exact hcore2.hA
  · exact hcore2.hAC
  · exact hcore2.hC
  · -- covered columns have a selected witness
    intro cc hcc hnin
    rw [hfields.2.2.1, hC2] at hnin
    rw [hfields.2.2.2, hsol2]
    simp only [Finset.mem_sdiff, not_and, not_not, List.mem_toFinset] at hnin
    by_cases hccC : cc ∈ st.C
    · exact ⟨rid, List.mem_append.2 (Or.inr (List.mem_singleton.2 rfl)), hnin hccC⟩
    · obtain ⟨r2, hr2, hr2c⟩ := h.hCov cc hcc hccC
      exact ⟨r2, List.mem_append.2 (Or.inl hr2), hr2c⟩
  · -- selected rows touch no active column
    intro r2 hr2 cc hcc
    rw [hfields.2.2.2, hsol2] at hr2
    rw [hfields.2.2.1, hC2]
    simp only [Finset.mem_sdiff, List.mem_toFinset, not_and, not_not]
    rcases List.mem_append.1 hr2 with hr2 | hr2
    · intro hC
      exact absurd hC (h.hSolC r2 hr2 cc hcc)
    · rw [List.mem_singleton.1 hr2] at hcc
      intro _
      exact hcc
  · -- pairwise disjointness
    rw [hfields.2.2.2, hsol2]
    rw [List.pairwise_append]
    refine ⟨h.hDisj, List.pairwise_singleton _ _, ?_⟩
    intro r2 hr2 r3 hr3
    rw [List.mem_singleton.1 hr3]
    intro cc hcc
    intro hccrid
    exact h.hSolC r2 hr2 cc hcc (hcols cc hccrid)
  · -- selected rows in range
    intro r2 hr2
    rw [hfields.2.2.2, hsol2] at hr2
    rcases List.mem_append.1 hr2 with hr2 | hr2
    · exact h.hSolLt r2 hr2
    · rw [List.mem_singleton.1 hr2]
      exact hlt
  · rw [hfields.2.2.2, hsol2]
  · rw [hfields.2.1, hA2]
  · rw [hfields.2.2.1, hC2]

theorem dlxInit_inv : DlxInv dlxInit := by
  refine ⟨⟨?_, ?_, ?_, ?_⟩, ?_, ?_, ?_, ?_⟩
  · intro c _
    rfl
  · exact Finset.Subset.refl _
  · intro rid hrid cc hcc
    exact Finset.mem_range.2 (colsForRow_lt (Finset.mem_range.1 hrid) cc hcc)
  · exact Finset.Subset.refl _
  · intro cc hcc hnin
    exact absurd (Finset.mem_range.2 hcc) hnin
  · intro rid hrid
    cases hrid
  · exact List.Pairwise.nil
  · intro rid hrid
    cases hrid

theorem rebuild_inv {st : DlxSt} (h : DlxInv st) : DlxInv (rebuild st) := by
  have hS : ∀ c ∈ st.C, (rebuild st).S c = st.S c := by
    intro c hc
    show (st.S c).filter _ = st.S c
    apply Finset.filter_true_of_mem
    intro x hx
    rw [h.core.hS c hc] at hx
    exact Or.inl (Finset.mem_filter.1 hx).1
  refine ⟨⟨?_, h.core.hA, h.core.hAC, h.core.hC⟩, h.hCov, h.hSolC, h.hDisj, h.hSolLt⟩
  intro c hc
  rw [hS c hc]
  exact h.core.hS c hc

/-- Applying a list of pairwise-disjoint active rows (the givens). -/
theorem selectRows_inv {rids : List Nat} :
    ∀ {st : DlxSt}, DlxInv st → (∀ r2 ∈ rids, r2 ∈ st.A) → rids.Pairwise colsDisjoint →
      DlxInv (rids.foldl selectRow st) ∧
      (rids.foldl selectRow st).sol = st.sol ++ rids := by
  induction rids with
  | nil =>
    intro st h _ _
    exact ⟨h, by simp⟩
  | cons r0 rest ih =>
    intro st h hin hpw
    simp only [List.foldl_cons]
    obtain ⟨hpw0, hpwrest⟩ := List.pairwise_cons.1 hpw
    have hr0 : r0 ∈ st.A := hin r0 (List.mem_cons_self _ _)
    obtain ⟨hinv1, hsol1, hA1, _⟩ := selectRow_inv h hr0
    have hrest : ∀ r2 ∈ rest, r2 ∈ (selectRow st r0).A := by
      intro r2 hr2
      rw [hA1]
      refine Finset.mem_filter.2 ⟨hin r2 (List.mem_cons_of_mem _ hr2), ?_⟩
      exact hpw0 r2 hr2
    obtain ⟨hinv2, hsol2⟩ := ih hinv1 hrest hpwrest
    refine ⟨hinv2, ?_⟩
    rw [hsol2, hsol1, List.append_assoc]
    rfl

/-- The solution-list property guaranteed when the main loop exits with
`active_cols` empty: all 324 constraint columns are covered by
pairwise-disjoint selected rows. -/
def ExactCover (sol : List Nat) : Prop :=
  (∀ rid ∈ sol, rid < 729) ∧ sol.Pairwise colsDisjoint ∧
    ∀ cc, cc < 324 → ∃ rid ∈ sol, cc ∈ colsForRow rid

theorem dlxLoop_spec (R : RandomSource) (P : PickCol) :
    ∀ (fuel : Nat) (st : DlxSt) (rs : R.St), DlxInv st → st.C.card < fuel →
      dlxLoop R P fuel st rs ≠ none ∧
      ∀ sol rs2, dlxLoop R P fuel st rs = some (.done sol rs2) →
        ExactCover sol ∧ ∀ rid ∈ st.sol, rid ∈ sol := by
  intro fuel
  induction fuel with
  | zero =>
    intro st rs _ hcard
    omega
  | succ f ih =>
    intro st rs hinv hcard
    unfold dlxLoop
    by_cases hC : st.C = ∅
    · rw [dif_pos hC]
      refine ⟨by simp, ?_⟩
      intro sol rs2 heq
      have hsol : st.sol = sol ∧ rs = rs2 := by
        cases heq
        exact ⟨rfl, rfl⟩
      obtain ⟨hsoleq, _⟩ := hsol
      subst hsoleq
      refine ⟨⟨hinv.hSolLt, hinv.hDisj, ?_⟩, fun rid hr => hr⟩
      intro cc hcc
      apply hinv.hCov cc hcc
      rw [hC]
      exact Finset.not_mem_empty cc
    · rw [dif_neg hC]
      set col := (P.pick st.C (Finset.nonempty_iff_ne_empty.2 hC)).val with hcol
      have hcolC : col ∈ st.C := (P.pick st.C (Finset.nonempty_iff_ne_empty.2 hC)).property
      by_cases hS : st.S col = ∅
      · rw [if_pos hS]
        exact ⟨by simp, fun sol rs2 heq => by cases heq⟩
      · rw [if_neg hS]
        set sh := R.shuffle Nat rs ((st.S col).sort (· ≤ ·)) with hsh
        set rid := sh.1.val.headD 0 with hrid
        have hmemsort : rid ∈ (st.S col).sort (· ≤ ·) := by
          have hne : (st.S col).sort (· ≤ ·) ≠ [] := by
            intro h0
            apply hS
            have := Finset.sort_toFinset (· ≤ ·) (st.S col)
            rw [h0] at this
            simpa using this.symm
          have hne2 : sh.1.val ≠ [] := by
            intro h0
            apply hne
            have := sh.1.property
            rw [h0] at this
            exact (List.Perm.nil_eq this).symm
          have : rid ∈ sh.1.val := by
            rw [hrid]
            cases hval : sh.1.val with
            | nil => exact absurd hval hne2
            | cons a l =>
              simp [hval]
          exact (sh.1.property.mem_iff).1 this
        have hmem : rid ∈ st.S col := (Finset.mem_sort (· ≤ ·)).1 hmemsort
        have hridA : rid ∈ st.A := by
          rw [hinv.core.hS col hcolC] at hmem
          exact (Finset.mem_filter.1 hmem).1
        have hridcol : col ∈ colsForRow rid := by
          rw [hinv.core.hS col hcolC] at hmem
          exact (Finset.mem_filter.1 hmem).2
        obtain ⟨hinv2, hsol2, _, hC2⟩ := selectRow_inv hinv hridA
        have hcard2 : (selectRow st rid).C.card < f := by
          have hsub : (selectRow st rid).C ⊆ st.C.erase col := by
            rw [hC2]
            intro x hx
            obtain ⟨hxC, hxn⟩ := Finset.mem_sdiff.1 hx
            refine Finset.mem_erase.2 ⟨?_, hxC⟩
            intro h0
            subst h0
            exact hxn (List.mem_toFinset.2 hridcol)
          have h1 : (selectRow st rid).C.card ≤ (st.C.erase col).card :=
            Finset.card_le_card hsub
          have h2 : (st.C.erase col).card < st.C.card := Finset.card_erase_lt_of_mem hcolC
          omega
        obtain ⟨hnn, hdone⟩ := ih (selectRow st rid) sh.2 hinv2 hcard2
        refine ⟨hnn, ?_⟩
        intro sol rs2 heq
        obtain ⟨hec, hsub⟩ := hdone sol rs2 heq
        refine ⟨hec, ?_⟩
        intro r2 hr2
        apply hsub
        rw [hsol2]
        exact List.mem_append.2 (Or.inl hr2)

/-! ### From exact cover to a valid decoded board -/

theorem bset_self (b : Board9) (r c v : Nat) : bset b r c v r c = v := by
  simp [bset]

theorem bset_other (b : Board9) (r c v : Nat) {r2 c2 : Nat}
    (h : ¬(r2 = r ∧ c2 = c)) : bset b r c v r2 c2 = b r2 c2 := by
  simp only [bset, if_neg h]

theorem countP_le_one_of_pairwise {α : Type} {l : List α} {P : α → Bool}
    (h : l.Pairwise fun a b => ¬(P a = true ∧ P b = true)) : l.countP P ≤ 1 := by
  induction l with
  | nil => simp
  | cons x xs ih =>
    obtain ⟨hx, hxs⟩ := List.pairwise_cons.1 h
    by_cases hPx : P x = true
    · rw [List.countP_cons_of_pos _ _ hPx]
      have h0 : xs.countP P = 0 :=
        List.countP_eq_zero.2 fun a ha hPa => hx a ha ⟨hPx, hPa⟩
      omega
    · rw [List.countP_cons_of_neg _ _ hPx]
      exact ih hxs

theorem countP_eq_one_of {α : Type} {l : List α} {P : α → Bool} {a : α}
    (hmem : a ∈ l) (hPa : P a = true) (hle : l.countP P ≤ 1) : l.countP P = 1 := by
  have hpos : 0 < l.countP P := List.countP_pos_iff.2 ⟨a, hmem, hPa⟩
  omega

theorem pairwise_of_nodup_mem {α : Type} {l : List α} {S : α → α → Prop}
    (hnd : l.Nodup) (h : ∀ a ∈ l, ∀ b ∈ l, a ≠ b → S a b) : l.Pairwise S := by
  refine List.Pairwise.imp_of_mem ?_ hnd
  intro a b ha hb hne
  exact h a ha b hb hne

/-- In a pairwise-disjoint solution, a constraint column is covered by at
most one row value. -/
theorem exactCover_unique_cover {sol : List Nat} (hpw : sol.Pairwise colsDisjoint)
    {cc a b : Nat} (ha : a ∈ sol) (hb : b ∈ sol)
    (hca : cc ∈ colsForRow a) (hcb : cc ∈ colsForRow b) : a = b := by
  by_contra hne
  have hsym : Symmetric colsDisjoint := fun x y h => colsDisjoint_symm h
  exact (hpw.forall hsym) ha hb hne cc hca hcb

theorem decode_preserve {r c : Nat} :
    ∀ (sol : List Nat) (b : Board9),
      (∀ rid ∈ sol, ¬(rid / 9 / 9 = r ∧ rid / 9 % 9 = c)) →
      (sol.foldl (fun b2 rid => bset b2 (rid / 9 / 9) (rid / 9 % 9) (rid % 9 + 1)) b) r c
        = b r c := by
  intro sol
  induction sol with
  | nil => intro b _; rfl
  | cons x xs ih =>
    intro b hno
    simp only [List.foldl_cons]
    rw [ih _ fun rid hrid => hno rid (List.mem_cons_of_mem _ hrid)]
    apply bset_other
    intro hrc
    exact hno x (List.mem_cons_self _ _) ⟨hrc.1.symm, hrc.2.symm⟩

theorem decode_unique_writer {r c rid0 : Nat} :
    ∀ (sol : List Nat) (b : Board9),
      rid0 ∈ sol → rid0 / 9 / 9 = r → rid0 / 9 % 9 = c →
      (sol.countP fun rid => decide (rid / 9 / 9 = r ∧ rid / 9 % 9 = c)) = 1 →
      (sol.foldl (fun b2 rid => bset b2 (rid / 9 / 9) (rid / 9 % 9) (rid % 9 + 1)) b) r c
        = rid0 % 9 + 1 := by
  intro sol
  induction sol with
  | nil => intro b h; cases h
  | cons x xs ih =>
    intro b hmem hr hc hcount
    simp only [List.foldl_cons]
    by_cases hPx : x / 9 / 9 = r ∧ x / 9 % 9 = c
    · have hcx : xs.countP (fun rid => decide (rid / 9 / 9 = r ∧ rid / 9 % 9 = c)) = 0 := by
        rw [List.countP_cons_of_pos _ _ (by simpa using hPx)] at hcount
        omega
      have hnone : ∀ rid ∈ xs, ¬(rid / 9 / 9 = r ∧ rid / 9 % 9 = c) := by
        intro rid hrid hP
        have := List.countP_eq_zero.1 hcx rid hrid
        simp only [decide_eq_true_eq] at this
        exact this hP
      have hx0 : x = rid0 := by
        rcases List.mem_cons.1 hmem with h0 | hmem2
        · exact h0.symm
        · exact absurd ⟨hr, hc⟩ (hnone rid0 hmem2)
      rw [decode_preserve xs _ hnone]
      subst hx0
      obtain ⟨h1, h2⟩ := hPx
      rw [← h1, ← h2, bset_self]
    · have hx0 : rid0 ∈ xs := by
        rcases List.mem_cons.1 hmem with h0 | hmem2
        · subst h0
          exact absurd ⟨hr, hc⟩ hPx
        · exact hmem2
      have hcount2 : xs.countP (fun rid => decide (rid / 9 / 9 = r ∧ rid / 9 % 9 = c)) = 1 := by
        rw [List.countP_cons_of_neg _ _ (by simpa using hPx)] at hcount
        exact hcount
      exact ih _ hx0 hr hc hcount2

/-- Cell-level consequence of an exact cover: each cell has exactly one
selected row, and the decoded value records its digit. -/
theorem exactCover_cell {sol : List Nat} (hec : ExactCover sol) {r c : Nat}
    (hr : r < 9) (hc : c < 9) :
    ∃ d, d < 9 ∧ rowId r c d ∈ sol ∧ decodeSol sol r c = d + 1 ∧
      ∀ d2, d2 < 9 → (decodeSol sol r c = d2 + 1 ↔ rowId r c d2 ∈ sol) := by
  obtain ⟨hlt, hpw, hcov⟩ := hec
  obtain ⟨rid, hrid, hmem⟩ := hcov (243 + r * 9 + c) (by omega)
  have hridlt := hlt rid hrid
  rw [mem_colsForRow_cell hridlt hr hc] at hmem
  have hrr : rid / 9 / 9 = r := by omega
  have hcc : rid / 9 % 9 = c := by omega
  have hd : rid % 9 < 9 := by omega
  have hdec : rid = rowId r c (rid % 9) := by
    unfold rowId
    omega
  have hcount : (sol.countP fun rid2 => decide (rid2 / 9 / 9 = r ∧ rid2 / 9 % 9 = c)) = 1 := by
    apply countP_eq_one_of hrid (by simp [hrr, hcc])
    apply countP_le_one_of_pairwise
    apply List.Pairwise.imp_of_mem ?_ hpw
    intro a b ha hb hdisj hP
    simp only [decide_eq_true_eq] at hP
    obtain ⟨⟨ha1, ha2⟩, hb1, hb2⟩ := hP
    have halt := hlt a ha
    have hblt := hlt b hb
    have hacov : (243 + r * 9 + c) ∈ colsForRow a := by
      rw [mem_colsForRow_cell halt hr hc]
      omega
    have hbcov : (243 + r * 9 + c) ∈ colsForRow b := by
      rw [mem_colsForRow_cell hblt hr hc]
      omega
    exact hdisj _ hacov hbcov
  have hval : decodeSol sol r c = rid % 9 + 1 :=
    decode_unique_writer sol _ hrid hrr hcc hcount
  refine ⟨rid % 9, hd, by rw [← hdec]; exact hrid, hval, ?_⟩
  intro d2 hd2
  constructor
  · intro hv2
    have : rid % 9 = d2 := by omega
    rw [← this, ← hdec]
    exact hrid
  · intro hmem2
    have h2lt : rowId r c d2 < 729 := rowId_lt hr hc hd2
    have hcov2 : (243 + r * 9 + c) ∈ colsForRow (rowId r c d2) := by
      rw [mem_colsForRow_cell h2lt hr hc]
      unfold rowId
      omega
    have hcov1 : (243 + r * 9 + c) ∈ colsForRow rid := by
      rw [mem_colsForRow_cell hridlt hr hc]
      omega
    have heq := exactCover_unique_cover hpw hrid hmem2 hcov1 hcov2
    rw [hval]
    have : rid % 9 = d2 := by
      rw [heq]
      unfold rowId
      omega
    omega

/-- The cells of local 3×3 box `bi` of a 9×9 board. -/
def boxCells (bi : Nat) : List (Nat × Nat) :=
  (List.range 3).flatMap fun i =>
    (List.range 3).map fun j => (bi / 3 * 3 + i, bi % 3 * 3 + j)

theorem mem_boxCells_iff {bi : Nat} {p : Nat × Nat} :
    p ∈ boxCells bi ↔ ∃ i, i < 3 ∧ ∃ j, j < 3 ∧ p = (bi / 3 * 3 + i, bi % 3 * 3 + j) := by
  simp only [boxCells, List.mem_flatMap, List.mem_map, List.mem_range]
  constructor
  · rintro ⟨i, hi, j, hj, rfl⟩
    exact ⟨i, hi, j, hj, rfl⟩
  · rintro ⟨i, hi, j, hj, rfl⟩
    exact ⟨i, hi, j, hj, rfl⟩

theorem boxCells_nodup (bi : Nat) : (boxCells bi).Nodup := by
  apply List.nodup_flatMap.2
  constructor
  · intro i _
    refine (List.nodup_range _).map ?_
    intro a b h
    have := congrArg Prod.snd h
    simp only at this
    omega
  · apply List.Pairwise.imp ?_ (List.nodup_range 3)
    intro a b hne x hxa hxb
    rcases List.mem_map.1 hxa with ⟨j1, _, rfl⟩
    rcases List.mem_map.1 hxb with ⟨j2, _, h2⟩
    have := congrArg Prod.fst h2
    simp only at this
    exact hne (by omega)

/-- Full validity of a solved 9×9 board: all values 1..9, and every row,
column and 3×3 box contains each digit exactly once. -/
def ValidBoard9 (b : Board9) : Prop :=
  (∀ r c, r < 9 → c < 9 → 1 ≤ b r c ∧ b r c ≤ 9) ∧
  (∀ r d, r < 9 → d < 9 → ((List.range 9).countP fun c => b r c == d + 1) = 1) ∧
  (∀ c d, c < 9 → d < 9 → ((List.range 9).countP fun r => b r c == d + 1) = 1) ∧
  (∀ bi d, bi < 9 → d < 9 → ((boxCells bi).countP fun p => b p.1 p.2 == d + 1) = 1)

theorem exactCover_row_count {sol : List Nat} (hec : ExactCover sol) {r d : Nat}
    (hr : r < 9) (hd : d < 9) :
    ((List.range 9).countP fun c => decide (rowId r c d ∈ sol)) = 1 := by
  obtain ⟨hlt, hpw, hcov⟩ := hec
  obtain ⟨rid, hrid, hmem⟩ := hcov (r * 9 + d) (by omega)
  have hridlt := hlt rid hrid
  rw [mem_colsForRow_row hridlt hr hd] at hmem
  have hc2 : rid / 9 % 9 < 9 := by omega
  have hdec : rid = rowId r (rid / 9 % 9) d := by
    unfold rowId
    omega
  apply countP_eq_one_of (List.mem_range.2 hc2)
  · simp only [decide_eq_true_eq]
    rw [← hdec]
    exact hrid
  · apply countP_le_one_of_pairwise
    apply pairwise_of_nodup_mem (List.nodup_range 9)
    intro c1 h1 c2 h2 hne hP
    simp only [decide_eq_true_eq] at hP
    obtain ⟨hm1, hm2⟩ := hP
    have hcv1 : (r * 9 + d) ∈ colsForRow (rowId r c1 d) := by
      rw [colsForRow_rowId (List.mem_range.1 h1) hd]
      simp [colIds]
    have hcv2 : (r * 9 + d) ∈ colsForRow (rowId r c2 d) := by
      rw [colsForRow_rowId (List.mem_range.1 h2) hd]
      simp [colIds]
    have heq := exactCover_unique_cover hpw hm1 hm2 hcv1 hcv2
    apply hne
    have hb1 := List.mem_range.1 h1
    have hb2 := List.mem_range.1 h2
    unfold rowId at heq
    omega

theorem exactCover_col_count {sol : List Nat} (hec : ExactCover sol) {c d : Nat}
    (hc : c < 9) (hd : d < 9) :
    ((List.range 9).countP fun r => decide (rowId r c d ∈ sol)) = 1 := by
  obtain ⟨hlt, hpw, hcov⟩ := hec
  obtain ⟨rid, hrid, hmem⟩ := hcov (81 + c * 9 + d) (by omega)
  have hridlt := hlt rid hrid
  rw [mem_colsForRow_col hridlt hc hd] at hmem
  have hr2 : rid / 9 / 9 < 9 := by omega
  have hdec : rid = rowId (rid / 9 / 9) c d := by
    unfold rowId
    omega
  apply countP_eq_one_of (List.mem_range.2 hr2)
  · simp only [decide_eq_true_eq]
    rw [← hdec]
    exact hrid
  · apply countP_le_one_of_pairwise
    apply pairwise_of_nodup_mem (List.nodup_range 9)
    intro r1 h1 r2 h2 hne hP
    simp only [decide_eq_true_eq] at hP
    obtain ⟨hm1, hm2⟩ := hP
    have hcv1 : (81 + c * 9 + d) ∈ colsForRow (rowId r1 c d) := by
      rw [colsForRow_rowId hc hd]
      simp [colIds]
    have hcv2 : (81 + c * 9 + d) ∈ colsForRow (rowId r2 c d) := by
      rw [colsForRow_rowId hc hd]
      simp [colIds]
    have heq := exactCover_unique_cover hpw hm1 hm2 hcv1 hcv2
    apply hne
    have hb1 := List.mem_range.1 h1
    have hb2 := List.mem_range.1 h2
    unfold rowId at heq
    omega

theorem exactCover_box_count {sol : List Nat} (hec : ExactCover sol) {bi d : Nat}
    (hb : bi < 9) (hd : d < 9) :
    ((boxCells bi).countP fun p => decide (rowId p.1 p.2 d ∈ sol)) = 1 := by
  obtain ⟨hlt, hpw, hcov⟩ := hec
  obtain ⟨rid, hrid, hmem⟩ := hcov (162 + bi * 9 + d) (by omega)
  have hridlt := hlt rid hrid
  rw [mem_colsForRow_box hridlt hb hd] at hmem
  obtain ⟨hbox, hmod⟩ := hmem
  unfold boxIndex at hbox
  have hrr : rid / 9 / 9 < 9 := by omega
  have hcc : rid / 9 % 9 < 9 := by omega
  have hpmem : (rid / 9 / 9, rid / 9 % 9) ∈ boxCells bi := by
    rw [mem_boxCells_iff]
    exact ⟨rid / 9 / 9 % 3, by omega, rid / 9 % 9 % 3, by omega, by
      have e1 : bi / 3 = rid / 9 / 9 / 3 := by omega
      have e2 : bi % 3 = rid / 9 % 9 / 3 := by omega
      rw [e1, e2]
      have : rid / 9 / 9 / 3 * 3 + rid / 9 / 9 % 3 = rid / 9 / 9 := by omega
      have : rid / 9 % 9 / 3 * 3 + rid / 9 % 9 % 3 = rid / 9 % 9 := by omega
      congr 1 <;> omega⟩
  have hdec : rid = rowId (rid / 9 / 9) (rid / 9 % 9) d := by
    unfold rowId
    omega
  apply countP_eq_one_of hpmem
  · simp only [decide_eq_true_eq]
    rw [← hdec]
    exact hrid
  · apply countP_le_one_of_pairwise
    apply pairwise_of_nodup_mem (boxCells_nodup bi)
    intro p1 h1 p2 h2 hne hP
    simp only [decide_eq_true_eq] at hP
    obtain ⟨hm1, hm2⟩ := hP
    obtain ⟨i1, hi1, j1, hj1, rfl⟩ := mem_boxCells_iff.1 h1
    obtain ⟨i2, hi2, j2, hj2, rfl⟩ := mem_boxCells_iff.1 h2
    have hbd : bi / 3 ≤ 2 := by omega
    have hcv1 : (162 + bi * 9 + d) ∈ colsForRow (rowId (bi / 3 * 3 + i1) (bi % 3 * 3 + j1) d) := by
      rw [colsForRow_rowId (show bi % 3 * 3 + j1 < 9 by omega) hd]
      have hbx : boxIndex (bi / 3 * 3 + i1) (bi % 3 * 3 + j1) = bi := by
        unfold boxIndex
        omega
      simp [colIds, hbx]
    have hcv2 : (162 + bi * 9 + d) ∈ colsForRow (rowId (bi / 3 * 3 + i2) (bi % 3 * 3 + j2) d) := by
      rw [colsForRow_rowId (show bi % 3 * 3 + j2 < 9 by omega) hd]
      have hbx : boxIndex (bi / 3 * 3 + i2) (bi % 3 * 3 + j2) = bi := by
        unfold boxIndex
        omega
      simp [colIds, hbx]
    have heq := exactCover_unique_cover hpw hm1 hm2 hcv1 hcv2
    apply hne
    unfold rowId at heq
    have : i1 = i2 ∧ j1 = j2 := by omega
    rw [this.1, this.2]

/-- The decoded board of an exact cover is а fully valid 9×9 solution, and
it holds the digit of every selected row. -/
theorem decode_valid {sol : List Nat} (hec : ExactCover sol) :
    ValidBoard9 (decodeSol sol) ∧
    ∀ r c d, r < 9 → c < 9 → d < 9 → rowId r c d ∈ sol → decodeSol sol r c = d + 1 := by
  have hcell := fun {r c : Nat} (hr : r < 9) (hc : c < 9) => exactCover_cell hec hr hc
  constructor
  · refine ⟨?_, ?_, ?_, ?_⟩
    · intro r c hr hc
      obtain ⟨d, hd, _, hval, _⟩ := hcell hr hc
      omega
    · intro r d hr hd
      rw [List.countP_congr ?_]
      · exact exactCover_row_count hec hr hd
      · intro c hcmem
        have hc := List.mem_range.1 hcmem
        obtain ⟨_, _, _, _, hiff⟩ := hcell hr hc
        simp only [beq_iff_eq, decide_eq_true_eq]
        exact hiff d hd
    · intro c d hc hd
      rw [List.countP_congr ?_]
      · exact exactCover_col_count hec hc hd
      · intro r hrmem
        have hr := List.mem_range.1 hrmem
        obtain ⟨_, _, _, _, hiff⟩ := hcell hr hc
        simp only [beq_iff_eq, decide_eq_true_eq]
        exact hiff d hd
    · intro bi d hb hd
      rw [List.countP_congr ?_]
      · exact exactCover_box_count hec hb hd
      · intro p hpmem
        obtain ⟨i, hi, j, hj, rfl⟩ := mem_boxCells_iff.1 hpmem
        have hbd : bi / 3 ≤ 2 := by omega
        obtain ⟨_, _, _, _, hiff⟩ := hcell (show bi / 3 * 3 + i < 9 by omega)
          (show bi % 3 * 3 + j < 9 by omega)
        simp only [beq_iff_eq, decide_eq_true_eq]
        exact hiff d hd
  · intro r c d hr hc hd hmem
    obtain ⟨_, _, _, _, hiff⟩ := hcell hr hc
    exact (hiff d hd).2 hmem

/-! ### Valid givens

"Topologically valid" givens, as produced by `_extract_overlap_givens` from
a solved center: 0-based digits and local coordinates in range, pairwise
distinct cells and digits, all inside one 3×3 block. -/

def ValidGivens (givens : List (Nat × Nat × Nat)) : Prop :=
  (∀ gv ∈ givens, gv.1 < 9 ∧ gv.2.1 < 9 ∧ gv.2.2 < 9) ∧
  givens.Pairwise (fun a b => (a.1, a.2.1) ≠ (b.1, b.2.1) ∧ a.2.2 ≠ b.2.2) ∧
  (∀ a ∈ givens, ∀ b ∈ givens, a.1 / 3 = b.1 / 3 ∧ a.2.1 / 3 = b.2.1 / 3)

/-! ### Counting helpers for board validity -/

theorem two_mem_countP_ge_two {α : Type} {l : List α} {P : α → Bool} :
    ∀ {a b : α}, l.Nodup → a ∈ l → b ∈ l → a ≠ b → P a = true → P b = true →
      2 ≤ l.countP P := by
  induction l with
  | nil => intro a b _ ha; cases ha
  | cons x xs ih =>
    intro a b hnd ha hb hne hPa hPb
    obtain ⟨hx, hxs⟩ := List.nodup_cons.1 hnd
    rcases List.mem_cons.1 ha with rfl | ha2
    · rcases List.mem_cons.1 hb with rfl | hb2
      · exact absurd rfl hne
      · rw [List.countP_cons_of_pos _ _ hPa]
        have : 0 < xs.countP P := List.countP_pos_iff.2 ⟨b, hb2, hPb⟩
        omega
    · rcases List.mem_cons.1 hb with rfl | hb2
      · rw [List.countP_cons_of_pos _ _ hPb]
        have : 0 < xs.countP P := List.countP_pos_iff.2 ⟨a, ha2, hPa⟩
        omega
      · have := ih hxs ha2 hb2 hne hPa hPb
        rw [List.countP_cons]
        omega

/-- Pigeonhole: nine distinct values from 1..9 over a 9-element index list
hit every digit exactly once. -/
theorem counts_from_inj_full {α : Type} [DecidableEq α] {l : List α} {f : α → Nat}
    (hlen : l.length = 9) (hnd : l.Nodup)
    (hrange : ∀ a ∈ l, 1 ≤ f a ∧ f a ≤ 9)
    (hinj : ∀ a ∈ l, ∀ b ∈ l, a ≠ b → f a ≠ f b) :
    ∀ d, d < 9 → (l.countP fun a => f a == d + 1) = 1 := by
  intro d hd
  have hmapnd : (l.map f).Nodup := by
    apply List.Nodup.map_on ?_ hnd
    intro x hx y hy hf
    by_contra hne
    exact hinj x hx y hy hne hf
  have hcardeq : (l.map f).toFinset.card = 9 := by
    rw [List.toFinset_card_of_nodup hmapnd, List.length_map, hlen]
  have hsub : (l.map f).toFinset ⊆ Finset.Icc 1 9 := by
    intro v hv
    obtain ⟨a, ha, rfl⟩ := List.mem_map.1 (List.mem_toFinset.1 hv)
    exact Finset.mem_Icc.2 (hrange a ha)
  have hfull : (l.map f).toFinset = Finset.Icc 1 9 := by
    apply Finset.eq_of_subset_of_card_le hsub
    rw [hcardeq, Nat.card_Icc]
  have hmem : (d + 1) ∈ (l.map f).toFinset := by
    rw [hfull]
    exact Finset.mem_Icc.2 (by omega)
  obtain ⟨a, ha, hfa⟩ := List.mem_map.1 (List.mem_toFinset.1 hmem)
  apply countP_eq_one_of ha (by simp [hfa])
  apply countP_le_one_of_pairwise
  apply pairwise_of_nodup_mem hnd
  intro x hx y hy hne hP
  simp only [beq_iff_eq] at hP
  exact hinj x hx y hy hne (hP.1.trans hP.2.symm)

/-- Distinct cells of a row of a valid board hold distinct values (and
similarly for columns and boxes, via the `countP = 1` clauses). -/
theorem validBoard_row_ne {b : Board9} (hv : ValidBoard9 b) {r c1 c2 : Nat}
    (hr : r < 9) (h1 : c1 < 9) (h2 : c2 < 9) (hne : c1 ≠ c2) : b r c1 ≠ b r c2 := by
  intro heq
  obtain ⟨hrange, hrow, _, _⟩ := hv
  obtain ⟨hge, hle⟩ := hrange r c1 hr h1
  have hcount := hrow r (b r c1 - 1) hr (by omega)
  have h2c : 2 ≤ (List.range 9).countP fun c => b r c == b r c1 - 1 + 1 := by
    apply two_mem_countP_ge_two (List.nodup_range 9) (List.mem_range.2 h1)
      (List.mem_range.2 h2) hne
    · simp only [beq_iff_eq]
      omega
    · simp only [beq_iff_eq]
      omega
  omega

theorem validBoard_col_ne {b : Board9} (hv : ValidBoard9 b) {c r1 r2 : Nat}
    (hc : c < 9) (h1 : r1 < 9) (h2 : r2 < 9) (hne : r1 ≠ r2) : b r1 c ≠ b r2 c := by
  intro heq
  obtain ⟨hrange, _, hcol, _⟩ := hv
  obtain ⟨hge, hle⟩ := hrange r1 c h1 hc
  have hcount := hcol c (b r1 c - 1) hc (by omega)
  have h2c : 2 ≤ (List.range 9).countP fun r => b r c == b r1 c - 1 + 1 := by
    apply two_mem_countP_ge_two (List.nodup_range 9) (List.mem_range.2 h1)
      (List.mem_range.2 h2) hne
    · simp only [beq_iff_eq]
      omega
    · simp only [beq_iff_eq]
      omega
  omega

theorem mem_boxCells_self {r c : Nat} ( _hr : r < 9) (hc : c < 9) :
    (r, c) ∈ boxCells (boxIndex r c) := by
  rw [mem_boxCells_iff]
  refine ⟨r % 3, by omega, c % 3, by omega, ?_⟩
  unfold boxIndex
  have e1 : boxIndex r c / 3 = r / 3 := by
    unfold boxIndex
    omega
  have e2 : boxIndex r c % 3 = c / 3 := by
    unfold boxIndex
    omega
  congr 1 <;> omega

theorem validBoard_box_ne {b : Board9} (hv : ValidBoard9 b) {r1 c1 r2 c2 : Nat}
    (h1r : r1 < 9) (h1c : c1 < 9) (h2r : r2 < 9) (h2c : c2 < 9)
    (hbox : boxIndex r1 c1 = boxIndex r2 c2) (hne : (r1, c1) ≠ (r2, c2)) :
    b r1 c1 ≠ b r2 c2 := by
  intro heq
  obtain ⟨hrange, _, _, hbx⟩ := hv
  obtain ⟨hge, hle⟩ := hrange r1 c1 h1r h1c
  have hbi : boxIndex r1 c1 < 9 := by
    unfold boxIndex
    omega
  have hcount := hbx (boxIndex r1 c1) (b r1 c1 - 1) hbi (by omega)
  have hm1 := mem_boxCells_self h1r h1c
  have hm2 := mem_boxCells_self h2r h2c
  rw [← hbox] at hm2
  have h2c2 : 2 ≤ (boxCells (boxIndex r1 c1)).countP fun p => b p.1 p.2 == b r1 c1 - 1 + 1 := by
    apply two_mem_countP_ge_two (boxCells_nodup _) hm1 hm2 hne
    · simp only [beq_iff_eq]
      omega
    · simp only [beq_iff_eq]
      omega
  omega

/-! ### Fallback solver invariants -/

/-- The `rows`/`cols`/`boxs` sets mirror the board, and the board has no
unit conflict (within the 9×9 region; values are 0 or 1..9). -/
structure FsInv (st : FsSt) : Prop where
  hrange : ∀ r c, r < 9 → c < 9 → st.board r c ≤ 9
  hrows : ∀ r v, r < 9 → 1 ≤ v →
    (st.rows r v = true ↔ ∃ c, c < 9 ∧ st.board r c = v)
  hcols : ∀ c v, c < 9 → 1 ≤ v →
    (st.cols c v = true ↔ ∃ r, r < 9 ∧ st.board r c = v)
  hboxs : ∀ bi v, bi < 9 → 1 ≤ v →
    (st.boxs bi v = true ↔
      ∃ r c, r < 9 ∧ c < 9 ∧ boxIndex r c = bi ∧ st.board r c = v)
  hrowne : ∀ r c1 c2, r < 9 → c1 < 9 → c2 < 9 → c1 ≠ c2 → st.board r c1 ≠ 0 →
    st.board r c1 ≠ st.board r c2
  hcolne : ∀ c r1 r2, c < 9 → r1 < 9 → r2 < 9 → r1 ≠ r2 → st.board r1 c ≠ 0 →
    st.board r1 c ≠ st.board r2 c
  hboxne : ∀ r1 c1 r2 c2, r1 < 9 → c1 < 9 → r2 < 9 → c2 < 9 →
    boxIndex r1 c1 = boxIndex r2 c2 → (r1, c1) ≠ (r2, c2) → st.board r1 c1 ≠ 0 →
    st.board r1 c1 ≠ st.board r2 c2

/-- The remaining cell list is exactly the set of empty in-range cells. -/
structure CellsOk (st : FsSt) (rem : List (Nat × Nat)) : Prop where
  hnd : rem.Nodup
  hmem : ∀ p ∈ rem, p.1 < 9 ∧ p.2 < 9 ∧ st.board p.1 p.2 = 0
  hcomplete : ∀ r c, r < 9 → c < 9 → st.board r c = 0 → (r, c) ∈ rem

/-- `B` completes the partial board `b0`. -/
def ExtendsB (b0 B : Board9) : Prop :=
  ∀ r c, r < 9 → c < 9 → b0 r c ≠ 0 → B r c = b0 r c

theorem setAdd_self (f : Nat → Nat → Bool) (i v : Nat) : setAdd f i v i v = true := by
  simp [setAdd]

theorem setAdd_other (f : Nat → Nat → Bool) (i v : Nat) {i2 v2 : Nat}
    (h : ¬(i2 = i ∧ v2 = v)) : setAdd f i v i2 v2 = f i2 v2 := by
  simp only [setAdd, if_neg h]

/-- Assigning an unused value 1..9 to an empty cell preserves the fallback
invariant. -/
theorem fsAssign_inv {st : FsSt} {r c v : Nat} (h : FsInv st)
    (hr : r < 9) (hc : c < 9) (hv1 : 1 ≤ v) (hv9 : v ≤ 9)
    (h0 : st.board r c = 0) (hnr : ¬ st.rows r v = true)
    (hnc : ¬ st.cols c v = true) (hnb : ¬ st.boxs (boxIndex r c) v = true) :
    FsInv (fsAssign st r c v) := by
  have hbnew : ∀ r2 c2, (fsAssign st r c v).board r2 c2
      = if r2 = r ∧ c2 = c then v else st.board r2 c2 := fun r2 c2 => rfl
  have hnorow : ∀ c2, c2 < 9 → st.board r c2 ≠ v := by
    intro c2 hc2 hbad
    exact hnr ((h.hrows r v hr hv1).2 ⟨c2, hc2, hbad⟩)
  have hnocol : ∀ r2, r2 < 9 → st.board r2 c ≠ v := by
    intro r2 hr2 hbad
    exact hnc ((h.hcols c v hc hv1).2 ⟨r2, hr2, hbad⟩)
  have hnobox : ∀ r2 c2, r2 < 9 → c2 < 9 → boxIndex r2 c2 = boxIndex r c →
      st.board r2 c2 ≠ v := by
    intro r2 c2 hr2 hc2 hbx hbad
    exact hnb ((h.hboxs (boxIndex r c) v (by unfold boxIndex; omega) hv1).2
      ⟨r2, c2, hr2, hc2, hbx, hbad⟩)
  refine ⟨?_, ?_, ?_, ?_, ?_, ?_, ?_⟩
  · intro r2 c2 hr2 hc2
    rw [hbnew]
    by_cases hrc : r2 = r ∧ c2 = c
    · rw [if_pos hrc]; omega
    · rw [if_neg hrc]; exact h.hrange r2 c2 hr2 hc2
  · intro r2 v2 hr2 hv2
    show setAdd st.rows r v r2 v2 = true ↔ _
    by_cases hmatch : r2 = r ∧ v2 = v
    · obtain ⟨rfl, rfl⟩ := hmatch
      rw [setAdd_self]
      simp only [true_iff]
      exact ⟨c, hc, by rw [hbnew, if_pos ⟨rfl, rfl⟩]⟩
    · rw [setAdd_other _ _ _ hmatch, h.hrows r2 v2 hr2 hv2]
      constructor
      · rintro ⟨c2, hc2, hb⟩
        refine ⟨c2, hc2, ?_⟩
        rw [hbnew]
        rw [if_neg ?_]
        · exact hb
        · rintro ⟨rfl, rfl⟩
          omega
      · rintro ⟨c2, hc2, hb⟩
        rw [hbnew] at hb
        by_cases hrc : c2 = c ∧ r2 = r
        · exfalso
          rw [if_pos ⟨hrc.2, hrc.1⟩] at hb
          exact hmatch ⟨hrc.2, hb.symm⟩
        · refine ⟨c2, hc2, ?_⟩
          rw [if_neg ?_] at hb
          · exact hb
          · rintro ⟨rfl, rfl⟩
            exact hrc ⟨rfl, rfl⟩
  · intro c2 v2 hc2 hv2
    show setAdd st.cols c v c2 v2 = true ↔ _
    by_cases hmatch : c2 = c ∧ v2 = v
    · obtain ⟨rfl, rfl⟩ := hmatch
      rw [setAdd_self]
      simp only [true_iff]
      exact ⟨r, hr, by rw [hbnew, if_pos ⟨rfl, rfl⟩]⟩
    · rw [setAdd_other _ _ _ hmatch, h.hcols c2 v2 hc2 hv2]
      constructor
      · rintro ⟨r2, hr2, hb⟩
        refine ⟨r2, hr2, ?_⟩
        rw [hbnew]
        rw [if_neg ?_]
        · exact hb
        · rintro ⟨rfl, rfl⟩
          omega
      · rintro ⟨r2, hr2, hb⟩
        rw [hbnew] at hb
        by_cases hrc : r2 = r ∧ c2 = c
        · exfalso
          rw [if_pos hrc] at hb
          exact hmatch ⟨hrc.2, hb.symm⟩
        · refine ⟨r2, hr2, ?_⟩
          rw [if_neg hrc] at hb
          exact hb
  · intro bi v2 hbi hv2
    show setAdd st.boxs (boxIndex r c) v bi v2 = true ↔ _
    by_cases hmatch : bi = boxIndex r c ∧ v2 = v
    · obtain ⟨rfl, rfl⟩ := hmatch
      rw [setAdd_self]
      simp only [true_iff]
      exact ⟨r, c, hr, hc, rfl, by rw [hbnew, if_pos ⟨rfl, rfl⟩]⟩
    · rw [setAdd_other _ _ _ hmatch, h.hboxs bi v2 hbi hv2]
      constructor
      · rintro ⟨r2, c2, hr2, hc2, hbx, hb⟩
        refine ⟨r2, c2, hr2, hc2, hbx, ?_⟩
        rw [hbnew]
        rw [if_neg ?_]
        · exact hb
        · rintro ⟨rfl, rfl⟩
          omega
      · rintro ⟨r2, c2, hr2, hc2, hbx, hb⟩
        rw [hbnew] at hb
        by_cases hrc : r2 = r ∧ c2 = c
        · exfalso
          rw [if_pos hrc] at hb
          obtain ⟨rfl, rfl⟩ := hrc
          exact hmatch ⟨hbx.symm, hb.symm⟩
        · refine ⟨r2, c2, hr2, hc2, hbx, ?_⟩
          rw [if_neg hrc] at hb
          exact hb
  · intro r2 c1 c2 hr2 hc1 hc2 hne hnz
    rw [hbnew, hbnew]
    by_cases ha : r2 = r ∧ c1 = c
    · rw [if_pos ha, if_neg (by rintro ⟨_, rfl⟩; exact hne ha.2)]
      obtain ⟨rfl, rfl⟩ := ha
      exact fun hb => hnorow c2 hc2 hb.symm
    · rw [if_neg ha]
      by_cases hb2 : r2 = r ∧ c2 = c
      · rw [if_pos hb2]
        obtain ⟨rfl, rfl⟩ := hb2
        intro hbad
        rw [hbnew] at hnz
        rw [if_neg ha] at hnz
        exact hnorow c1 hc1 hbad
      · rw [if_neg hb2]
        rw [hbnew, if_neg ha] at hnz
        exact h.hrowne r2 c1 c2 hr2 hc1 hc2 hne hnz
  · intro c2 r1 r2 hc2 hr1 hr2 hne hnz
    rw [hbnew, hbnew]
    by_cases ha : r1 = r ∧ c2 = c
    · rw [if_pos ha, if_neg (by rintro ⟨rfl, _⟩; exact hne ha.1)]
      obtain ⟨rfl, rfl⟩ := ha
      exact fun hb => hnocol r2 hr2 hb.symm
    · rw [if_neg ha]
      by_cases hb2 : r2 = r ∧ c2 = c
      · rw [if_pos hb2]
        obtain ⟨rfl, rfl⟩ := hb2
        intro hbad
        rw [hbnew] at hnz
        rw [if_neg ha] at hnz
        exact hnocol r1 hr1 hbad
      · rw [if_neg hb2]
        rw [hbnew, if_neg ha] at hnz
        exact h.hcolne c2 r1 r2 hc2 hr1 hr2 hne hnz
  · intro r1 c1 r2 c2 hr1 hc1 hr2 hc2 hbx hne hnz
    rw [hbnew, hbnew]
    by_cases ha : r1 = r ∧ c1 = c
    · rw [if_pos ha, if_neg (by
        rintro ⟨rfl, rfl⟩
        exact hne (by rw [ha.1, ha.2]))]
      obtain ⟨rfl, rfl⟩ := ha
      exact fun hb => hnobox r2 c2 hr2 hc2 hbx.symm hb.symm
    · rw [if_neg ha]
      by_cases hb2 : r2 = r ∧ c2 = c
      · rw [if_pos hb2]
        obtain ⟨rfl, rfl⟩ := hb2
        intro hbad
        rw [hbnew] at hnz
        rw [if_neg ha] at hnz
        exact hnobox r1 c1 hr1 hc1 hbx hbad
      · rw [if_neg hb2]
        rw [hbnew, if_neg ha] at hnz
        exact h.hboxne r1 c1 r2 c2 hr1 hc1 hr2 hc2 hbx hne hnz

theorem fsCells_nodup (st : FsSt) : (fsCells st).Nodup := by
  apply List.nodup_flatMap.2
  constructor
  · intro x _
    exact (List.Nodup.filter _ (List.nodup_range _)).map fun a b h => congrArg Prod.snd h
  · apply List.Pairwise.imp ?_ (List.nodup_range 9)
    intro a b hne x hxa hxb
    rcases List.mem_map.1 hxa with ⟨c1, _, rfl⟩
    rcases List.mem_map.1 hxb with ⟨c2, _, h2⟩
    exact hne (congrArg Prod.fst h2).symm

theorem mem_fsCells_iff {st : FsSt} {r c : Nat} :
    (r, c) ∈ fsCells st ↔ r < 9 ∧ c < 9 ∧ st.board r c = 0 := by
  simp only [fsCells, List.mem_flatMap, List.mem_map, List.mem_filter, List.mem_range]
  constructor
  · rintro ⟨a, ha, b, ⟨hb, hz⟩, heq⟩
    cases heq
    exact ⟨ha, hb, by simpa using hz⟩
  · rintro ⟨hr, hc, hz⟩
    exact ⟨r, hr, c, ⟨hc, by simpa using hz⟩, rfl⟩

theorem fsCells_ok (st : FsSt) : CellsOk st (fsCells st) := by
  refine ⟨fsCells_nodup st, ?_, ?_⟩
  · intro p hp
    obtain ⟨r, c⟩ := p
    exact mem_fsCells_iff.1 hp
  · intro r c hr hc hz
    exact mem_fsCells_iff.2 ⟨hr, hc, hz⟩

theorem mem_range1_9 {m : Nat} : m ∈ List.range' 1 9 ↔ 1 ≤ m ∧ m ≤ 9 := by
  rw [List.mem_range']
  constructor
  · rintro ⟨i, hi, rfl⟩
    omega
  · intro h
    exact ⟨m - 1, by omega, by omega⟩

/-- A full conflict-free board (no remaining cells) is a valid solution. -/
theorem fsFull_valid {st : FsSt} (hinv : FsInv st) (hcells : CellsOk st []) :
    ValidBoard9 st.board := by
  have hnz : ∀ r c, r < 9 → c < 9 → st.board r c ≠ 0 := by
    intro r c hr hc h0
    cases hcells.hcomplete r c hr hc h0
  refine ⟨?_, ?_, ?_, ?_⟩
  · intro r c hr hc
    have := hinv.hrange r c hr hc
    have := hnz r c hr hc
    omega
  · intro r d hr hd
    apply counts_from_inj_full (List.length_range 9) (List.nodup_range 9)
    · intro c hcm
      have hc := List.mem_range.1 hcm
      have := hinv.hrange r c hr hc
      have := hnz r c hr hc
      omega
    · intro c1 h1 c2 h2 hne
      exact hinv.hrowne r c1 c2 hr (List.mem_range.1 h1) (List.mem_range.1 h2) hne
        (hnz r c1 hr (List.mem_range.1 h1))
    · exact hd
  · intro c d hc hd
    apply counts_from_inj_full (List.length_range 9) (List.nodup_range 9)
    · intro r hrm
      have hr := List.mem_range.1 hrm
      have := hinv.hrange r c hr hc
      have := hnz r c hr hc
      omega
    · intro r1 h1 r2 h2 hne
      exact hinv.hcolne c r1 r2 hc (List.mem_range.1 h1) (List.mem_range.1 h2) hne
        (hnz r1 c (List.mem_range.1 h1) hc)
    · exact hd
  · intro bi d hbi hd
    have hbnd : ∀ p ∈ boxCells bi, p.1 < 9 ∧ p.2 < 9 ∧ boxIndex p.1 p.2 = bi := by
      intro p hp
      obtain ⟨i, hi, j, hj, rfl⟩ := mem_boxCells_iff.1 hp
      have : bi / 3 ≤ 2 := by omega
      refine ⟨by omega, by omega, ?_⟩
      unfold boxIndex
      omega
    apply counts_from_inj_full (show (boxCells bi).length = 9 from rfl) (boxCells_nodup bi)
    · intro p hp
      obtain ⟨h1, h2, _⟩ := hbnd p hp
      have := hinv.hrange p.1 p.2 h1 h2
      have := hnz p.1 p.2 h1 h2
      omega
    · intro p1 h1 p2 h2 hne
      obtain ⟨h11, h12, h13⟩ := hbnd p1 h1
      obtain ⟨h21, h22, h23⟩ := hbnd p2 h2
      exact hinv.hboxne p1.1 p1.2 p2.1 p2.2 h11 h12 h21 h22 (by rw [h13, h23])
        (by simpa using hne) (hnz p1.1 p1.2 h11 h12)
    · exact hd

theorem fsTry_sound {R : RandomSource} {rec : FsSt → R.St → Option Board9 × R.St}
    {r c : Nat} {Q : Board9 → Prop} :
    ∀ (cand : List Nat) (st : FsSt) (rs : R.St),
      (∀ v ∈ cand, ∀ (rs2 : R.St) (b : Board9) (rs3 : R.St),
        rec (fsAssign st r c v) rs2 = (some b, rs3) → Q b) →
      ∀ b rs2, fsTry R rec r c cand st rs = (some b, rs2) → Q b := by
  intro cand
  induction cand with
  | nil =>
    intro st rs _ b rs2 h
    exact Option.noConfusion (congrArg Prod.fst h)
  | cons v vs ih =>
    intro st rs hrec b rs2 hout
    unfold fsTry at hout
    rcases hrc : rec (fsAssign st r c v) rs with ⟨ob, rs3⟩
    rw [hrc] at hout
    cases ob with
    | some b2 =>
      have hb : b2 = b := Option.some_inj.1 (congrArg Prod.fst hout)
      rw [← hb]
      exact hrec v (List.mem_cons_self _ _) rs b2 rs3 hrc
    | none =>
      exact ih st rs3 (fun v2 hv2 => hrec v2 (List.mem_cons_of_mem _ hv2)) b rs2 hout

theorem fsTry_some {R : RandomSource} {rec : FsSt → R.St → Option Board9 × R.St}
    {r c : Nat} :
    ∀ (cand : List Nat) (st : FsSt) (rs : R.St),
      (∃ v ∈ cand, ∀ rs2 : R.St, (rec (fsAssign st r c v) rs2).1.isSome = true) →
      (fsTry R rec r c cand st rs).1.isSome = true := by
  intro cand
  induction cand with
  | nil =>
    rintro st rs ⟨v, hv, _⟩
    cases hv
  | cons v vs ih =>
    rintro st rs ⟨v0, hv0, hsome⟩
    unfold fsTry
    rcases hrc : rec (fsAssign st r c v) rs with ⟨ob, rs3⟩
    cases ob with
    | some b2 => rfl
    | none =>
      rcases List.mem_cons.1 hv0 with rfl | hv0tail
      · have := hsome rs
        rw [hrc] at this
        cases this
      · exact ih st rs3 ⟨v0, hv0tail, hsome⟩

/-- Conditions available for every candidate value the fallback loop tries. -/
theorem fsCand_conditions {R : RandomSource} {st : FsSt} {r c v : Nat} {rs : R.St}
    (hv : v ∈ (R.shuffle Nat rs (List.range' 1 9)).1.val.filter fun v2 =>
      ! st.rows r v2 && ! st.cols c v2 && ! st.boxs (boxIndex r c) v2) :
    1 ≤ v ∧ v ≤ 9 ∧ st.rows r v = false ∧ st.cols c v = false ∧
      st.boxs (boxIndex r c) v = false := by
  obtain ⟨hmem, hcond⟩ := List.mem_filter.1 hv
  have hrange := mem_range1_9.1 ((R.shuffle Nat rs (List.range' 1 9)).1.property.mem_iff.1 hmem)
  simp only [Bool.and_eq_true, Bool.not_eq_true'] at hcond
  exact ⟨hrange.1, hrange.2, hcond.1.1, hcond.1.2, hcond.2⟩

/-- Assigning a candidate value preserves the cell bookkeeping. -/
theorem fsAssign_cellsOk {st : FsSt} {r c v : Nat} {rest : List (Nat × Nat)}
    (hcells : CellsOk st ((r, c) :: rest)) (hv1 : 1 ≤ v) :
    CellsOk (fsAssign st r c v) rest := by
  obtain ⟨hnd, hmem, hcomp⟩ := hcells
  obtain ⟨hhead, htail⟩ := List.nodup_cons.1 hnd
  refine ⟨htail, ?_, ?_⟩
  · intro p hp
    obtain ⟨h1, h2, h3⟩ := hmem p (List.mem_cons_of_mem _ hp)
    refine ⟨h1, h2, ?_⟩
    show (if p.1 = r ∧ p.2 = c then v else st.board p.1 p.2) = 0
    rw [if_neg ?_]
    · exact h3
    · rintro ⟨ha, hb⟩
      apply hhead
      have : p = (r, c) := Prod.ext ha hb
      rw [← this]
      exact hp
  · intro r2 c2 hr2 hc2 hz
    have hz2 : st.board r2 c2 = 0 ∧ ¬(r2 = r ∧ c2 = c) := by
      by_cases hrc : r2 = r ∧ c2 = c
      · exfalso
        have : (if r2 = r ∧ c2 = c then v else st.board r2 c2) = 0 := hz
        rw [if_pos hrc] at this
        omega
      · have : (if r2 = r ∧ c2 = c then v else st.board r2 c2) = 0 := hz
        rw [if_neg hrc] at this
        exact ⟨this, hrc⟩
    have := hcomp r2 c2 hr2 hc2 hz2.1
    rcases List.mem_cons.1 this with heq | htl
    · exfalso
      apply hz2.2
      exact ⟨congrArg Prod.fst heq, congrArg Prod.snd heq⟩
    · exact htl

theorem fsGo_sound (R : RandomSource) :
    ∀ (rem : List (Nat × Nat)) (st : FsSt) (rs : R.St), FsInv st → CellsOk st rem →
      ∀ b rs2, fsGo R rem st rs = (some b, rs2) →
        ValidBoard9 b ∧ ExtendsB st.board b := by
  intro rem
  induction rem with
  | nil =>
    intro st rs hinv hcells b rs2 hout
    have hb : st.board = b := Option.some_inj.1 (congrArg Prod.fst hout)
    rw [← hb]
    exact ⟨fsFull_valid hinv hcells, fun r c _ _ _ => rfl⟩
  | cons p rest ih =>
    intro st rs hinv hcells b rs2 hout
    obtain ⟨r, c⟩ := p
    obtain ⟨hr, hc, h0⟩ := hcells.hmem (r, c) (List.mem_cons_self _ _)
    unfold fsGo at hout
    refine @fsTry_sound R (fsGo R rest) r c
      (fun b2 => ValidBoard9 b2 ∧ ExtendsB st.board b2) _ st
      (R.shuffle Nat rs (List.range' 1 9)).2 ?_ b rs2 hout
    intro v hv rs3 b2 rs4 hrec
    obtain ⟨hv1, hv9, hnr, hnc, hnb⟩ := fsCand_conditions hv
    have hinv2 := fsAssign_inv hinv hr hc hv1 hv9 h0 (by rw [hnr]; simp)
      (by rw [hnc]; simp) (by rw [hnb]; simp)
    have hcells2 := fsAssign_cellsOk hcells hv1
    obtain ⟨hvld, hext⟩ := ih (fsAssign st r c v) rs3 hinv2 hcells2 b2 rs4 hrec
    refine ⟨hvld, ?_⟩
    intro r2 c2 h2r h2c hnz
    have : (fsAssign st r c v).board r2 c2 = st.board r2 c2 := by
      show (if r2 = r ∧ c2 = c then v else st.board r2 c2) = _
      rw [if_neg ?_]
      rintro ⟨rfl, rfl⟩
      exact hnz h0
    rw [← this]
    apply hext r2 c2 h2r h2c
    rw [this]
    exact hnz

theorem fsGo_some (R : RandomSource) :
    ∀ (rem : List (Nat × Nat)) (st : FsSt), FsInv st → CellsOk st rem →
      (∃ B, ValidBoard9 B ∧ ExtendsB st.board B) →
      ∀ rs : R.St, (fsGo R rem st rs).1.isSome = true := by
  intro rem
  induction rem with
  | nil =>
    intro st _ _ _ rs
    rfl
  | cons p rest ih =>
    intro st hinv hcells hex rs
    obtain ⟨B, hBv, hBe⟩ := hex
    obtain ⟨r, c⟩ := p
    obtain ⟨hr, hc, h0⟩ := hcells.hmem (r, c) (List.mem_cons_self _ _)
    unfold fsGo
    apply fsTry_some
    have hBrange := hBv.1 r c hr hc
    have hnr : st.rows r (B r c) = false := by
      by_contra hrow
      rw [Bool.not_eq_false] at hrow
      obtain ⟨c2, hc2, hb2⟩ := (hinv.hrows r (B r c) hr hBrange.1).1 hrow
      have hne : c2 ≠ c := by
        intro h2
        rw [h2, h0] at hb2
        omega
      have := validBoard_row_ne hBv hr hc hc2 (fun h2 => hne h2.symm)
      rw [hBe r c2 hr hc2 (by omega)] at this
      exact this hb2.symm
    have hnc : st.cols c (B r c) = false := by
      by_contra hcol
      rw [Bool.not_eq_false] at hcol
      obtain ⟨r2, hr2, hb2⟩ := (hinv.hcols c (B r c) hc hBrange.1).1 hcol
      have hne : r2 ≠ r := by
        intro h2
        rw [h2, h0] at hb2
        omega
      have := validBoard_col_ne hBv hc hr hr2 (fun h2 => hne h2.symm)
      rw [hBe r2 c hr2 hc (by omega)] at this
      exact this hb2.symm
    have hnb : st.boxs (boxIndex r c) (B r c) = false := by
      by_contra hbox
      rw [Bool.not_eq_false] at hbox
      obtain ⟨r2, c2, hr2, hc2, hbx, hb2⟩ :=
        (hinv.hboxs (boxIndex r c) (B r c) (by unfold boxIndex; omega) hBrange.1).1 hbox
      have hne : (r2, c2) ≠ (r, c) := by
        intro h2
        have e1 : r2 = r := congrArg Prod.fst h2
        have e2 : c2 = c := congrArg Prod.snd h2
        rw [e1, e2, h0] at hb2
        omega
      have := validBoard_box_ne hBv hr hc hr2 hc2 hbx.symm
        (fun h2 => hne (by rw [← h2]))
      rw [hBe r2 c2 hr2 hc2 (by omega)] at this
      exact this hb2.symm
    refine ⟨B r c, ?_, ?_⟩
    · apply List.mem_filter.2
      constructor
      · exact ((R.shuffle Nat rs (List.range' 1 9)).1.property.mem_iff).2
          (mem_range1_9.2 ⟨hBrange.1, hBrange.2⟩)
      · simp only [Bool.and_eq_true, Bool.not_eq_true']
        exact ⟨⟨hnr, hnc⟩, hnb⟩
    · intro rs2
      have hinv2 := fsAssign_inv hinv hr hc hBrange.1 hBrange.2 h0
        (by rw [hnr]; simp) (by rw [hnc]; simp) (by rw [hnb]; simp)
      have hcells2 := fsAssign_cellsOk hcells hBrange.1
      apply ih (fsAssign st r c (B r c)) hinv2 hcells2 ?_ rs2
      refine ⟨B, hBv, ?_⟩
      intro r2 c2 h2r h2c hnz
      by_cases hrc : r2 = r ∧ c2 = c
      · obtain ⟨rfl, rfl⟩ := hrc
        show B r2 c2 = (if r2 = r2 ∧ c2 = c2 then B r2 c2 else st.board r2 c2)
        rw [if_pos ⟨rfl, rfl⟩]
      · have hsame : (fsAssign st r c (B r c)).board r2 c2 = st.board r2 c2 := by
          show (if r2 = r ∧ c2 = c then B r c else st.board r2 c2) = _
          rw [if_neg hrc]
        rw [hsame]
        rw [hsame] at hnz
        exact hBe r2 c2 h2r h2c hnz

/-! ### Loading the givens into the fallback state -/

theorem fsInitGo :
    ∀ (gs : List (Nat × Nat × Nat)) (st : FsSt), FsInv st →
      (∀ gv ∈ gs, gv.1 < 9 ∧ gv.2.1 < 9 ∧ gv.2.2 < 9) →
      (∀ gv ∈ gs, st.board gv.1 gv.2.1 = 0) →
      (∀ gv ∈ gs, st.rows gv.1 (gv.2.2 + 1) = false ∧
        st.cols gv.2.1 (gv.2.2 + 1) = false ∧
        st.boxs (boxIndex gv.1 gv.2.1) (gv.2.2 + 1) = false) →
      gs.Pairwise (fun a b => (a.1, a.2.1) ≠ (b.1, b.2.1) ∧ a.2.2 ≠ b.2.2) →
      FsInv (gs.foldl (fun s gv => fsAssign s gv.1 gv.2.1 (gv.2.2 + 1)) st) ∧
      (∀ gv ∈ gs,
        (gs.foldl (fun s gv2 => fsAssign s gv2.1 gv2.2.1 (gv2.2.2 + 1)) st).board gv.1 gv.2.1
          = gv.2.2 + 1) ∧
      (∀ r c,
        (gs.foldl (fun s gv2 => fsAssign s gv2.1 gv2.2.1 (gv2.2.2 + 1)) st).board r c
          ≠ st.board r c →
        ∃ gv ∈ gs, gv.1 = r ∧ gv.2.1 = c ∧
          (gs.foldl (fun s gv2 => fsAssign s gv2.1 gv2.2.1 (gv2.2.2 + 1)) st).board r c
            = gv.2.2 + 1) := by
  intro gs
  induction gs with
  | nil =>
    intro st hinv _ _ _ _
    exact ⟨hinv, fun gv hgv => absurd hgv (List.not_mem_nil gv), fun r c hne => absurd rfl hne⟩
  | cons gv0 gs ih =>
    intro st hinv hbnd hemp hfree hpw
    simp only [List.foldl_cons]
    obtain ⟨hr0, hc0, hd0⟩ := hbnd gv0 (List.mem_cons_self _ _)
    obtain ⟨hfr, hfc, hfb⟩ := hfree gv0 (List.mem_cons_self _ _)
    obtain ⟨hpw0, hpwtl⟩ := List.pairwise_cons.1 hpw
    have h00 := hemp gv0 (List.mem_cons_self _ _)
    set st1 := fsAssign st gv0.1 gv0.2.1 (gv0.2.2 + 1) with hst1
    have hb1 : ∀ r c, st1.board r c =
        if r = gv0.1 ∧ c = gv0.2.1 then gv0.2.2 + 1 else st.board r c := fun r c => rfl
    have hinv1 : FsInv st1 :=
      fsAssign_inv hinv hr0 hc0 (by omega) (by omega) h00
        (by rw [hfr]; simp) (by rw [hfc]; simp) (by rw [hfb]; simp)
    have hemp1 : ∀ gv ∈ gs, st1.board gv.1 gv.2.1 = 0 := by
      intro gv hgv
      rw [hb1, if_neg ?_]
      · exact hemp gv (List.mem_cons_of_mem _ hgv)
      · rintro ⟨ha, hb⟩
        exact (hpw0 gv hgv).1 (by rw [ha, hb])
    have hfree1 : ∀ gv ∈ gs, st1.rows gv.1 (gv.2.2 + 1) = false ∧
        st1.cols gv.2.1 (gv.2.2 + 1) = false ∧
        st1.boxs (boxIndex gv.1 gv.2.1) (gv.2.2 + 1) = false := by
      intro gv hgv
      have hdne : gv.2.2 + 1 ≠ gv0.2.2 + 1 := by
        have := (hpw0 gv hgv).2
        omega
      obtain ⟨h1, h2, h3⟩ := hfree gv (List.mem_cons_of_mem _ hgv)
      refine ⟨?_, ?_, ?_⟩
      · show setAdd st.rows gv0.1 (gv0.2.2 + 1) gv.1 (gv.2.2 + 1) = false
        rw [setAdd_other _ _ _ (by rintro ⟨_, hb⟩; exact hdne hb)]
        exact h1
      · show setAdd st.cols gv0.2.1 (gv0.2.2 + 1) gv.2.1 (gv.2.2 + 1) = false
        rw [setAdd_other _ _ _ (by rintro ⟨_, hb⟩; exact hdne hb)]
        exact h2
      · show setAdd st.boxs (boxIndex gv0.1 gv0.2.1) (gv0.2.2 + 1)
          (boxIndex gv.1 gv.2.1) (gv.2.2 + 1) = false
        rw [setAdd_other _ _ _ (by rintro ⟨_, hb⟩; exact hdne hb)]
        exact h3
    obtain ⟨hinv2, hvals2, hchar2⟩ := ih st1 hinv1
      (fun gv hgv => hbnd gv (List.mem_cons_of_mem _ hgv)) hemp1 hfree1 hpwtl
    refine ⟨hinv2, ?_, ?_⟩
    · intro gv hgv
      rcases List.mem_cons.1 hgv with rfl | hgv2
      · -- the head cell survives the rest of the fold
        by_cases hch : (gs.foldl (fun s gv2 => fsAssign s gv2.1 gv2.2.1 (gv2.2.2 + 1)) st1).board
            gv.1 gv.2.1 = st1.board gv.1 gv.2.1
        · rw [hch, hb1, if_pos ⟨rfl, rfl⟩]
        · obtain ⟨gv2, hgv2, he1, he2, _⟩ := hchar2 gv.1 gv.2.1 hch
          exact absurd (by rw [he1, he2]) (hpw0 gv2 hgv2).1.symm
      · exact hvals2 gv hgv2
    · intro r c hne
      by_cases hch : (gs.foldl (fun s gv2 => fsAssign s gv2.1 gv2.2.1 (gv2.2.2 + 1)) st1).board r c
          = st1.board r c
      · rw [hch] at hne ⊢
        have hrc : r = gv0.1 ∧ c = gv0.2.1 := by
          by_contra hcon
          rw [hb1, if_neg hcon] at hne
          exact hne rfl
        refine ⟨gv0, List.mem_cons_self _ _, hrc.1.symm, hrc.2.symm, ?_⟩
        rw [hb1, if_pos hrc]
      · obtain ⟨gv2, hgv2, he1, he2, he3⟩ := hchar2 r c hch
        exact ⟨gv2, List.mem_cons_of_mem _ hgv2, he1, he2, he3⟩

theorem fsInit_spec {givens : List (Nat × Nat × Nat)} (hval : ValidGivens givens) :
    FsInv (fsInit givens) ∧
    (∀ gv ∈ givens, (fsInit givens).board gv.1 gv.2.1 = gv.2.2 + 1) ∧
    (∀ r c, (fsInit givens).board r c ≠ 0 →
      ∃ gv ∈ givens, gv.1 = r ∧ gv.2.1 = c ∧ (fsInit givens).board r c = gv.2.2 + 1) := by
  obtain ⟨hbnd, hpw, _⟩ := hval
  have hinv0 : FsInv ⟨fun _ _ => 0, fun _ _ => false, fun _ _ => false, fun _ _ => false⟩ := by
    refine ⟨?_, ?_, ?_, ?_, ?_, ?_, ?_⟩
    · intro r c _ _
      exact Nat.zero_le 9
    · intro r v _ hv
      constructor
      · intro h
        exact Bool.noConfusion h
      · rintro ⟨c, _, h0⟩
        have h1 : (0 : Nat) = v := h0
        omega
    · intro c v _ hv
      constructor
      · intro h
        exact Bool.noConfusion h
      · rintro ⟨r, _, h0⟩
        have h1 : (0 : Nat) = v := h0
        omega
    · intro bi v _ hv
      constructor
      · intro h
        exact Bool.noConfusion h
      · rintro ⟨r, c, _, _, _, h0⟩
        have h1 : (0 : Nat) = v := h0
        omega
    · intro r c1 c2 _ _ _ _ h0
      exact absurd rfl h0
    · intro c r1 r2 _ _ _ _ h0
      exact absurd rfl h0
    · intro r1 c1 r2 c2 _ _ _ _ _ _ h0
      exact absurd rfl h0
  obtain ⟨h1, h2, h3⟩ := fsInitGo givens _ hinv0 hbnd (fun _ _ => rfl)
    (fun _ _ => ⟨rfl, rfl, rfl⟩) hpw
  exact ⟨h1, h2, fun r c hne => h3 r c hne⟩

/-! ### A completion exists for any valid one-box set of givens

Witness: a canonical valid board composed with a digit permutation that
matches the given digits on the shared box. -/

/-- A canonical valid filling (0-based digits). -/
def canonK (r c : Nat) : Nat := (3 * (r % 3) + r / 3 + c) % 9

theorem canonK_lt (r c : Nat) : canonK r c < 9 := by
  unfold canonK
  omega

theorem canonK_row : ∀ r, r < 9 → ∀ d, d < 9 →
    ((List.range 9).countP fun c => canonK r c == d) = 1 := by decide

theorem canonK_col : ∀ c, c < 9 → ∀ d, d < 9 →
    ((List.range 9).countP fun r => canonK r c == d) = 1 := by decide

theorem canonK_box : ∀ bi, bi < 9 → ∀ d, d < 9 →
    ((boxCells bi).countP fun p => canonK p.1 p.2 == d) = 1 := by decide

theorem canonK_box_inj : ∀ r1, r1 < 9 → ∀ c1, c1 < 9 → ∀ r2, r2 < 9 → ∀ c2, c2 < 9 →
    boxIndex r1 c1 = boxIndex r2 c2 → canonK r1 c1 = canonK r2 c2 →
    r1 = r2 ∧ c1 = c2 := by
  intro r1 h1 c1 h2 r2 h3 c2 h4 hbx hck
  unfold boxIndex at hbx
  unfold canonK at hck
  omega

/-- Build a permutation of `Fin 9` matching a partial injection given as a
pair list (right-to-left swap construction). -/
def buildPerm : List (Fin 9 × Fin 9) → Equiv.Perm (Fin 9)
  | [] => Equiv.refl _
  | (a, b) :: rest =>
    let pi0 := buildPerm rest
    pi0.trans (Equiv.swap (pi0 a) b)

theorem buildPerm_matches :
    ∀ (L : List (Fin 9 × Fin 9)),
      L.Pairwise (fun p q => p.1 ≠ q.1) → L.Pairwise (fun p q => p.2 ≠ q.2) →
      ∀ p ∈ L, buildPerm L p.1 = p.2 := by
  intro L
  induction L with
  | nil => intro _ _ p hp; cases hp
  | cons x rest ih =>
    intro h1 h2 p hp
    obtain ⟨a, b⟩ := x
    obtain ⟨h1x, h1r⟩ := List.pairwise_cons.1 h1
    obtain ⟨h2x, h2r⟩ := List.pairwise_cons.1 h2
    rcases List.mem_cons.1 hp with rfl | hp2
    · show (Equiv.swap (buildPerm rest a) b) (buildPerm rest a) = _
      exact Equiv.swap_apply_left _ _
    · have hmatch := ih h1r h2r p hp2
      show (Equiv.swap (buildPerm rest a) b) (buildPerm rest p.1) = p.2
      rw [hmatch]
      apply Equiv.swap_apply_of_ne_of_ne
      · intro heq
        have : a = p.1 := (buildPerm rest).injective (by rw [hmatch]; exact heq.symm)
        exact h1x p hp2 this
      · exact fun heq => h2x p hp2 heq.symm

/-- Nat-level interface to the permutation construction. -/
theorem exists_perm_match (pairs : List (Nat × Nat))
    (hlt : ∀ p ∈ pairs, p.1 < 9 ∧ p.2 < 9)
    (hfst : pairs.Pairwise fun a b => a.1 ≠ b.1)
    (hsnd : pairs.Pairwise fun a b => a.2 ≠ b.2) :
    ∃ f : Nat → Nat, (∀ x, x < 9 → f x < 9) ∧
      (∀ p ∈ pairs, f p.1 = p.2) ∧
      (∀ d, d < 9 → ∃ e, e < 9 ∧ ∀ x, x < 9 → (f x = d ↔ x = e)) := by
  set L : List (Fin 9 × Fin 9) :=
    pairs.map fun p => (⟨p.1 % 9, Nat.mod_lt _ (by omega)⟩, ⟨p.2 % 9, Nat.mod_lt _ (by omega)⟩)
    with hL
  have hmod : ∀ p ∈ pairs, p.1 % 9 = p.1 ∧ p.2 % 9 = p.2 := by
    intro p hp
    obtain ⟨h1, h2⟩ := hlt p hp
    omega
  have hfstL : L.Pairwise fun p q => p.1 ≠ q.1 := by
    rw [hL, List.pairwise_map]
    refine List.Pairwise.imp_of_mem ?_ hfst
    intro a b ha hb hne heq
    apply hne
    have := congrArg Fin.val heq
    simp only at this
    rw [(hmod a ha).1, (hmod b hb).1] at this
    exact this
  have hsndL : L.Pairwise fun p q => p.2 ≠ q.2 := by
    rw [hL, List.pairwise_map]
    refine List.Pairwise.imp_of_mem ?_ hsnd
    intro a b ha hb hne heq
    apply hne
    have := congrArg Fin.val heq
    simp only at this
    rw [(hmod a ha).2, (hmod b hb).2] at this
    exact this
  refine ⟨fun x => ((buildPerm L) ⟨x % 9, Nat.mod_lt _ (by omega)⟩).val, ?_, ?_, ?_⟩
  · intro x _
    exact ((buildPerm L) _).isLt
  · intro p hp
    have hmem : ((⟨p.1 % 9, Nat.mod_lt _ (by omega)⟩ : Fin 9),
        (⟨p.2 % 9, Nat.mod_lt _ (by omega)⟩ : Fin 9)) ∈ L := by
      rw [hL]
      exact List.mem_map.2 ⟨p, hp, rfl⟩
    have hbm := buildPerm_matches L hfstL hsndL _ hmem
    show ((buildPerm L) ⟨p.1 % 9, Nat.mod_lt _ (by omega)⟩).val = p.2
    have hbm2 : (buildPerm L) ⟨p.1 % 9, Nat.mod_lt _ (by omega)⟩
        = ⟨p.2 % 9, Nat.mod_lt _ (by omega)⟩ := hbm
    rw [hbm2]
    exact (hmod p hp).2
  · intro d hd
    refine ⟨((buildPerm L).symm ⟨d, hd⟩).val, ((buildPerm L).symm _).isLt, ?_⟩
    intro x hx
    constructor
    · intro hfx
      have hfin : (buildPerm L) ⟨x % 9, Nat.mod_lt _ (by omega)⟩ = ⟨d, hd⟩ :=
        Fin.val_injective hfx
      have h2 := congrArg (buildPerm L).symm hfin
      rw [Equiv.symm_apply_apply] at h2
      have hval := congrArg Fin.val h2
      simp only at hval
      omega
    · intro hx2
      subst hx2
      show ((buildPerm L) ⟨((buildPerm L).symm ⟨d, hd⟩).val % 9, Nat.mod_lt _ (by omega)⟩).val = d
      have hfineq : (⟨((buildPerm L).symm ⟨d, hd⟩).val % 9, Nat.mod_lt _ (by omega)⟩ : Fin 9)
          = (buildPerm L).symm ⟨d, hd⟩ :=
        Fin.val_injective (Nat.mod_eq_of_lt ((buildPerm L).symm _).isLt)
      rw [hfineq, Equiv.apply_symm_apply]

/-- Every valid one-box set of givens extends to a fully valid board. -/
theorem givens_completion {givens : List (Nat × Nat × Nat)} (hval : ValidGivens givens) :
    ∃ B, ValidBoard9 B ∧ ∀ gv ∈ givens, B gv.1 gv.2.1 = gv.2.2 + 1 := by
  obtain ⟨hbnd, hpw, hbox⟩ := hval
  set pairs : List (Nat × Nat) := givens.map fun gv => (canonK gv.1 gv.2.1, gv.2.2) with hpairs
  have hlt : ∀ p ∈ pairs, p.1 < 9 ∧ p.2 < 9 := by
    intro p hp
    rw [hpairs] at hp
    obtain ⟨gv, hgv, rfl⟩ := List.mem_map.1 hp
    exact ⟨canonK_lt _ _, (hbnd gv hgv).2.2⟩
  have hfst : pairs.Pairwise fun a b => a.1 ≠ b.1 := by
    rw [hpairs, List.pairwise_map]
    refine List.Pairwise.imp_of_mem ?_ hpw
    intro a b ha hb hne heq
    obtain ⟨ha1, ha2, _⟩ := hbnd a ha
    obtain ⟨hb1, hb2, _⟩ := hbnd b hb
    have hbx : boxIndex a.1 a.2.1 = boxIndex b.1 b.2.1 := by
      obtain ⟨e1, e2⟩ := hbox a ha b hb
      unfold boxIndex
      rw [e1, e2]
    obtain ⟨e1, e2⟩ := canonK_box_inj a.1 ha1 a.2.1 ha2 b.1 hb1 b.2.1 hb2 hbx heq
    exact hne.1 (by rw [e1, e2])
  have hsnd : pairs.Pairwise fun a b => a.2 ≠ b.2 := by
    rw [hpairs, List.pairwise_map]
    refine List.Pairwise.imp_of_mem ?_ hpw
    intro a b _ _ hne heq
    exact hne.2 heq
  obtain ⟨f, hfrange, hfmatch, hfuniq⟩ := exists_perm_match pairs hlt hfst hsnd
  refine ⟨fun r c => if r < 9 ∧ c < 9 then f (canonK r c) + 1 else 1, ?_, ?_⟩
  · refine ⟨?_, ?_, ?_, ?_⟩
    · intro r c hr hc
      simp only []
      rw [if_pos ⟨hr, hc⟩]
      have := hfrange (canonK r c) (canonK_lt r c)
      omega
    · intro r d hr hd
      obtain ⟨e, he, huniq⟩ := hfuniq d hd
      rw [List.countP_congr ?_]
      · exact canonK_row r hr e he
      · intro c hcm
        have hc := List.mem_range.1 hcm
        simp only [beq_iff_eq]
        rw [if_pos ⟨hr, hc⟩]
        constructor
        · intro h2
          exact (huniq (canonK r c) (canonK_lt r c)).1 (by omega)
        · intro h2
          have := (huniq (canonK r c) (canonK_lt r c)).2 h2
          omega
    · intro c d hc hd
      obtain ⟨e, he, huniq⟩ := hfuniq d hd
      rw [List.countP_congr ?_]
      · exact canonK_col c hc e he
      · intro r hrm
        have hr := List.mem_range.1 hrm
        simp only [beq_iff_eq]
        rw [if_pos ⟨hr, hc⟩]
        constructor
        · intro h2
          exact (huniq (canonK r c) (canonK_lt r c)).1 (by omega)
        · intro h2
          have := (huniq (canonK r c) (canonK_lt r c)).2 h2
          omega
    · intro bi d hbi hd
      obtain ⟨e, he, huniq⟩ := hfuniq d hd
      rw [List.countP_congr ?_]
      · exact canonK_box bi hbi e he
      · intro p hpm
        obtain ⟨i, hi, j, hj, rfl⟩ := mem_boxCells_iff.1 hpm
        have hb3 : bi / 3 ≤ 2 := by omega
        simp only [beq_iff_eq]
        rw [if_pos ⟨by omega, by omega⟩]
        constructor
        · intro h2
          exact (huniq (canonK _ _) (canonK_lt _ _)).1 (by omega)
        · intro h2
          have := (huniq (canonK _ _) (canonK_lt _ _)).2 h2
          omega
  · intro gv hgv
    obtain ⟨h1, h2, _⟩ := hbnd gv hgv
    simp only []
    rw [if_pos ⟨h1, h2⟩]
    have hmem : (canonK gv.1 gv.2.1, gv.2.2) ∈ pairs := by
      rw [hpairs]
      exact List.mem_map.2 ⟨gv, hgv, rfl⟩
    have := hfmatch _ hmem
    simp only at this
    rw [this]

/-- `_solve_from_scratch` always succeeds on valid givens, with a fully
valid board honoring the givens. -/
theorem solveFromScratch_spec (R : RandomSource) (rs : R.St)
    {givens : List (Nat × Nat × Nat)} (hval : ValidGivens givens) :
    ∃ b rs2, solveFromScratch R rs givens = (some b, rs2) ∧ ValidBoard9 b ∧
      ∀ gv ∈ givens, b gv.1 gv.2.1 = gv.2.2 + 1 := by
  obtain ⟨hinv, hvals, hchar⟩ := fsInit_spec hval
  obtain ⟨B, hBv, hBmatch⟩ := givens_completion hval
  have hext : ExtendsB (fsInit givens).board B := by
    intro r c hr hc hnz
    obtain ⟨gv, hgv, rfl, rfl, hvv⟩ := hchar r c hnz
    rw [hvv, hBmatch gv hgv]
  have hsome := fsGo_some R (fsCells (fsInit givens)) (fsInit givens) hinv
    (fsCells_ok _) ⟨B, hBv, hext⟩ rs
  rcases hout : fsGo R (fsCells (fsInit givens)) (fsInit givens) rs with ⟨ob, rs2⟩
  rw [hout] at hsome
  cases ob with
  | none => exact Bool.noConfusion hsome
  | some b =>
    obtain ⟨hbv, hbe⟩ := fsGo_sound R (fsCells (fsInit givens)) (fsInit givens) rs hinv
      (fsCells_ok _) b rs2 hout
    refine ⟨b, rs2, hout, hbv, ?_⟩
    intro gv hgv
    obtain ⟨h1, h2, _⟩ := hval.1 gv hgv
    have hv := hvals gv hgv
    rw [← hv]
    exact hbe gv.1 gv.2.1 h1 h2 (by rw [hv]; omega)

/-! ### `solve_random` end-to-end -/

/-- Candidate rows with distinct cells and distinct digits share no
constraint column. -/
theorem colsDisjoint_rowId {r1 c1 d1 r2 c2 d2 : Nat}
    (h1 : r1 < 9) (h2 : c1 < 9) (h3 : d1 < 9)
    (h4 : r2 < 9) (h5 : c2 < 9) (h6 : d2 < 9)
    (hcell : (r1, c1) ≠ (r2, c2)) (hd : d1 ≠ d2) :
    colsDisjoint (rowId r1 c1 d1) (rowId r2 c2 d2) := by
  intro cc hcc hcc2
  rw [colsForRow_rowId h2 h3] at hcc
  rw [colsForRow_rowId h5 h6] at hcc2
  unfold colIds boxIndex at hcc hcc2
  simp only [List.mem_cons, List.mem_singleton, List.not_mem_nil, or_false] at hcc hcc2
  have hne : r1 ≠ r2 ∨ c1 ≠ c2 := by
    by_contra h0
    push_neg at h0
    exact hcell (by rw [h0.1, h0.2])
  rcases hcc with rfl | rfl | rfl | rfl <;> rcases hcc2 with h | h | h | h <;> omega

/-- After applying valid givens and rebuilding, the loop invariant holds,
the partial solution is exactly the given row ids, and at most 324 columns
remain active. -/
theorem applyGivens_spec {givens : List (Nat × Nat × Nat)} (hval : ValidGivens givens) :
    DlxInv (rebuild (applyGivens givens dlxInit)) ∧
    (rebuild (applyGivens givens dlxInit)).sol
      = givens.map (fun gv => rowId gv.1 gv.2.1 gv.2.2) ∧
    (rebuild (applyGivens givens dlxInit)).C.card < 325 := by
  obtain ⟨hbnd, hpw, _⟩ := hval
  have hfold : applyGivens givens dlxInit
      = (givens.map fun gv => rowId gv.1 gv.2.1 gv.2.2).foldl selectRow dlxInit := by
    unfold applyGivens
    rw [List.foldl_map]
  have hin : ∀ r2 ∈ givens.map (fun gv => rowId gv.1 gv.2.1 gv.2.2), r2 ∈ dlxInit.A := by
    intro r2 hr2
    obtain ⟨gv, hgv, rfl⟩ := List.mem_map.1 hr2
    obtain ⟨hb1, hb2, hb3⟩ := hbnd gv hgv
    exact Finset.mem_range.2 (rowId_lt hb1 hb2 hb3)
  have hpw2 : (givens.map fun gv => rowId gv.1 gv.2.1 gv.2.2).Pairwise colsDisjoint := by
    rw [List.pairwise_map]
    refine List.Pairwise.imp_of_mem ?_ hpw
    intro a b ha hb hne
    obtain ⟨ha1, ha2, ha3⟩ := hbnd a ha
    obtain ⟨hb1, hb2, hb3⟩ := hbnd b hb
    exact colsDisjoint_rowId ha1 ha2 ha3 hb1 hb2 hb3 hne.1 hne.2
  obtain ⟨hinv, hsol⟩ := selectRows_inv dlxInit_inv hin hpw2
  rw [← hfold] at hinv hsol
  refine ⟨rebuild_inv hinv, ?_, ?_⟩
  · show (applyGivens givens dlxInit).sol = _
    rw [hsol]
    rfl
  · show (applyGivens givens dlxInit).C.card < 325
    have hcard := Finset.card_le_card hinv.core.hC
    rw [Finset.card_range] at hcard
    omega

/-- `solve_random` always returns a fully valid board honoring valid
givens: through the DLX path when the loop covers all 324 constraints, and
through `_solve_from_scratch` when the loop gets stuck. -/
theorem solveRandom_spec (R : RandomSource) (P : PickCol) (rs : R.St)
    {givens : List (Nat × Nat × Nat)} (hval : ValidGivens givens) :
    ∃ b rs2, solveRandom R P rs givens = (some b, rs2) ∧ ValidBoard9 b ∧
      ∀ gv ∈ givens, b gv.1 gv.2.1 = gv.2.2 + 1 := by
  obtain ⟨hinv, hsol, hcard⟩ := applyGivens_spec hval
  obtain ⟨hnn, hdone⟩ :=
    dlxLoop_spec R P 325 (rebuild (applyGivens givens dlxInit)) rs hinv hcard
  cases hout : dlxLoop R P 325 (rebuild (applyGivens givens dlxInit)) rs with
  | none => exact absurd hout hnn
  | some out =>
    cases out with
    | done sol rs2 =>
      obtain ⟨hec, hsub⟩ := hdone sol rs2 hout
      obtain ⟨hv, hvals⟩ := decode_valid hec
      refine ⟨decodeSol sol, rs2, ?_, hv, ?_⟩
      · unfold solveRandom
        rw [hout]
      · intro gv hgv
        obtain ⟨h1, h2, h3⟩ := hval.1 gv hgv
        apply hvals gv.1 gv.2.1 gv.2.2 h1 h2 h3
        apply hsub
        rw [hsol]
        exact List.mem_map.2 ⟨gv, hgv, rfl⟩
    | stuck rs2 =>
      obtain ⟨b, rs3, heq, hbv, hbm⟩ := solveFromScratch_spec R rs2 hval
      refine ⟨b, rs3, ?_, hbv, hbm⟩
      unfold solveRandom
      rw [hout]
      exact heq

/-! ### The composed samurai solution -/

theorem validGivens_nil : ValidGivens [] :=
  ⟨fun gv h => absurd h (List.not_mem_nil gv), List.Pairwise.nil,
   fun a ha => absurd ha (List.not_mem_nil a)⟩

/-- Board validity only inspects the 9×9 region. -/
theorem validBoard9_congr {b1 b2 : Board9} (h : ∀ r c, r < 9 → c < 9 → b1 r c = b2 r c)
    (hv : ValidBoard9 b1) : ValidBoard9 b2 := by
  obtain ⟨h1, h2, h3, h4⟩ := hv
  refine ⟨?_, ?_, ?_, ?_⟩
  · intro r c hr hc
    rw [← h r c hr hc]
    exact h1 r c hr hc
  · intro r d hr hd
    rw [List.countP_congr ?_]
    · exact h2 r d hr hd
    · intro c hcm
      have hc := List.mem_range.1 hcm
      rw [← h r c hr hc]
  · intro c d hc hd
    rw [List.countP_congr ?_]
    · exact h3 c d hc hd
    · intro r hrm
      have hr := List.mem_range.1 hrm
      rw [← h r c hr hc]
  · intro bi d hbi hd
    rw [List.countP_congr ?_]
    · exact h4 bi d hbi hd
    · intro p hpm
      obtain ⟨i, hi, j, hj, rfl⟩ := mem_boxCells_iff.1 hpm
      have hb3 : bi / 3 ≤ 2 := by omega
      rw [← h _ _ (by omega) (by omega)]

def pairList3 : List (Nat × Nat) :=
  (List.range 3).flatMap fun dr => (List.range 3).map fun dc => (dr, dc)

theorem pairList3_nodup : pairList3.Nodup := by decide

theorem mem_pairList3 {p : Nat × Nat} : p ∈ pairList3 ↔ p.1 < 3 ∧ p.2 < 3 := by
  have he : pairList3 = [(0,0),(0,1),(0,2),(1,0),(1,1),(1,2),(2,0),(2,1),(2,2)] := rfl
  rw [he]
  obtain ⟨a, b⟩ := p
  simp only [List.mem_cons, List.not_mem_nil, or_false, Prod.mk.injEq]
  omega

theorem extractOverlapGivens_eq (center9 : Board9) (corner : String) :
    extractOverlapGivens center9 corner = pairList3.map fun p =>
      ((overlapPos corner).1 + p.1, (overlapPos corner).2 + p.2,
        center9 ((overlapSrc corner).1 + p.1) ((overlapSrc corner).2 + p.2) - 1) := rfl

/-- The overlap block extracted from a valid board at a box-aligned origin
forms a topologically valid given set. -/
theorem extractValid_gen {center9 : Board9} (hv : ValidBoard9 center9)
    {p1 p2 s1 s2 : Nat} (hp1 : p1 = 0 ∨ p1 = 6) (hp2 : p2 = 0 ∨ p2 = 6)
    (hs1 : s1 = 0 ∨ s1 = 6) (hs2 : s2 = 0 ∨ s2 = 6) :
    ValidGivens (pairList3.map fun p =>
      (p1 + p.1, p2 + p.2, center9 (s1 + p.1) (s2 + p.2) - 1)) := by
  refine ⟨?_, ?_, ?_⟩
  · intro gv hgv
    obtain ⟨p, hp, rfl⟩ := List.mem_map.1 hgv
    obtain ⟨h1, h2⟩ := mem_pairList3.1 hp
    obtain ⟨hge, hle⟩ := hv.1 (s1 + p.1) (s2 + p.2) (by omega) (by omega)
    refine ⟨?_, ?_, ?_⟩
    · show p1 + p.1 < 9
      omega
    · show p2 + p.2 < 9
      omega
    · show center9 (s1 + p.1) (s2 + p.2) - 1 < 9
      omega
  · rw [List.pairwise_map]
    apply pairwise_of_nodup_mem pairList3_nodup
    intro a ha b hb hne
    obtain ⟨ha1, ha2⟩ := mem_pairList3.1 ha
    obtain ⟨hb1, hb2⟩ := mem_pairList3.1 hb
    have hne2 : a.1 ≠ b.1 ∨ a.2 ≠ b.2 := by
      by_contra h0
      push_neg at h0
      exact hne (Prod.ext h0.1 h0.2)
    constructor
    · show ((p1 + a.1, p2 + a.2) : Nat × Nat) ≠ (p1 + b.1, p2 + b.2)
      intro heq
      rw [Prod.mk.injEq] at heq
      omega
    · show center9 (s1 + a.1) (s2 + a.2) - 1 ≠ center9 (s1 + b.1) (s2 + b.2) - 1
      have hbox : boxIndex (s1 + a.1) (s2 + a.2) = boxIndex (s1 + b.1) (s2 + b.2) := by
        unfold boxIndex
        omega
      have hcellne : (s1 + a.1, s2 + a.2) ≠ (s1 + b.1, s2 + b.2) := by
        intro h0
        rw [Prod.mk.injEq] at h0
        omega
      have hvne := validBoard_box_ne hv (show s1 + a.1 < 9 by omega) (by omega)
        (by omega) (by omega) hbox hcellne
      have hgea := (hv.1 (s1 + a.1) (s2 + a.2) (by omega) (by omega)).1
      have hgeb := (hv.1 (s1 + b.1) (s2 + b.2) (by omega) (by omega)).1
      intro h0
      exact hvne (by omega)
  · intro a ha b hb
    obtain ⟨pa, hpa, rfl⟩ := List.mem_map.1 ha
    obtain ⟨pb, hpb, rfl⟩ := List.mem_map.1 hb
    obtain ⟨ha1, ha2⟩ := mem_pairList3.1 hpa
    obtain ⟨hb1, hb2⟩ := mem_pairList3.1 hpb
    constructor
    · show (p1 + pa.1) / 3 = (p1 + pb.1) / 3
      omega
    · show (p2 + pa.2) / 3 = (p2 + pb.2) / 3
      omega

theorem extractOverlapGivens_valid {center9 : Board9} (hv : ValidBoard9 center9)
    {corner : String}
    (hc : corner = "TL" ∨ corner = "TR" ∨ corner = "BL" ∨ corner = "BR") :
    ValidGivens (extractOverlapGivens center9 corner) := by
  rw [extractOverlapGivens_eq]
  rcases hc with rfl | rfl | rfl | rfl
  · exact extractValid_gen hv (Or.inr rfl) (Or.inr rfl) (Or.inl rfl) (Or.inl rfl)
  · exact extractValid_gen hv (Or.inr rfl) (Or.inl rfl) (Or.inl rfl) (Or.inr rfl)
  · exact extractValid_gen hv (Or.inl rfl) (Or.inr rfl) (Or.inr rfl) (Or.inl rfl)
  · exact extractValid_gen hv (Or.inl rfl) (Or.inl rfl) (Or.inr rfl) (Or.inr rfl)

/-! ### Values of the stitched grid, region by region -/

theorem stitched_tl {tl tr c9 bl br : Board9}
    (hag : ∀ dr dc, dr < 3 → dc < 3 → tl (6 + dr) (6 + dc) = c9 dr dc) :
    ∀ r c, r < 9 → c < 9 → stitched tl tr c9 bl br r c = some (tl r c) := by
  intro r c hr hc
  simp only [stitched, embedBoard, emptySamuraiGrid]
  rw [if_neg (by omega), if_neg (by omega)]
  by_cases h6 : 6 ≤ r ∧ 6 ≤ c
  · rw [if_pos (show 6 ≤ r ∧ r < 6 + 9 ∧ 6 ≤ c ∧ c < 6 + 9 by omega)]
    have hx := hag (r - 6) (c - 6) (by omega) (by omega)
    rw [show 6 + (r - 6) = r by omega, show 6 + (c - 6) = c by omega] at hx
    rw [← hx]
  · rw [if_neg (by omega), if_neg (by omega),
      if_pos (show 0 ≤ r ∧ r < 0 + 9 ∧ 0 ≤ c ∧ c < 0 + 9 by omega)]
    rfl

theorem stitched_tr {tl tr c9 bl br : Board9}
    (hag : ∀ dr dc, dr < 3 → dc < 3 → tr (6 + dr) dc = c9 dr (6 + dc)) :
    ∀ r c, r < 9 → 12 ≤ c → c < 21 → stitched tl tr c9 bl br r c = some (tr r (c - 12)) := by
  intro r c hr h12 h21
  simp only [stitched, embedBoard, emptySamuraiGrid]
  rw [if_neg (by omega), if_neg (by omega)]
  by_cases h6 : 6 ≤ r ∧ c < 15
  · rw [if_pos (show 6 ≤ r ∧ r < 6 + 9 ∧ 6 ≤ c ∧ c < 6 + 9 by omega)]
    have hx := hag (r - 6) (c - 12) (by omega) (by omega)
    rw [show 6 + (r - 6) = r by omega, show 6 + (c - 12) = c - 6 by omega] at hx
    rw [← hx]
  · rw [if_neg (by omega), if_pos (show 0 ≤ r ∧ r < 0 + 9 ∧ 12 ≤ c ∧ c < 12 + 9 by omega)]
    rfl

theorem stitched_c {tl tr c9 bl br : Board9}
    (hagBL : ∀ dr dc, dr < 3 → dc < 3 → bl dr (6 + dc) = c9 (6 + dr) dc)
    (hagBR : ∀ dr dc, dr < 3 → dc < 3 → br dr dc = c9 (6 + dr) (6 + dc)) :
    ∀ r c, 6 ≤ r → r < 15 → 6 ≤ c → c < 15 →
      stitched tl tr c9 bl br r c = some (c9 (r - 6) (c - 6)) := by
  intro r c h6r h15r h6c h15c
  simp only [stitched, embedBoard, emptySamuraiGrid]
  by_cases hbr : 12 ≤ r ∧ 12 ≤ c
  · rw [if_pos (show 12 ≤ r ∧ r < 12 + 9 ∧ 12 ≤ c ∧ c < 12 + 9 by omega)]
    have hx := hagBR (r - 12) (c - 12) (by omega) (by omega)
    rw [show 6 + (r - 12) = r - 6 by omega, show 6 + (c - 12) = c - 6 by omega] at hx
    rw [hx]
  · rw [if_neg (by omega)]
    by_cases hbl : 12 ≤ r ∧ c < 9
    · rw [if_pos (show 12 ≤ r ∧ r < 12 + 9 ∧ 0 ≤ c ∧ c < 0 + 9 by omega)]
      have hx := hagBL (r - 12) (c - 6) (by omega) (by omega)
      rw [show 6 + (c - 6) = c by omega, show 6 + (r - 12) = r - 6 by omega] at hx
      rw [show c - 0 = c from rfl, hx]
    · rw [if_neg (by omega), if_pos (show 6 ≤ r ∧ r < 6 + 9 ∧ 6 ≤ c ∧ c < 6 + 9 by omega)]

theorem stitched_bl {tl tr c9 bl br : Board9} :
    ∀ r c, 12 ≤ r → r < 21 → c < 9 → stitched tl tr c9 bl br r c = some (bl (r - 12) c) := by
  intro r c h12 h21 hc
  simp only [stitched, embedBoard, emptySamuraiGrid]
  rw [if_neg (by omega), if_pos (show 12 ≤ r ∧ r < 12 + 9 ∧ 0 ≤ c ∧ c < 0 + 9 by omega)]
  rfl

theorem stitched_br {tl tr c9 bl br : Board9} :
    ∀ r c, 12 ≤ r → r < 21 → 12 ≤ c → c < 21 →
      stitched tl tr c9 bl br r c = some (br (r - 12) (c - 12)) := by
  intro r c h12 h21 h12c h21c
  simp only [stitched, embedBoard, emptySamuraiGrid]
  rw [if_pos (show 12 ≤ r ∧ r < 12 + 9 ∧ 12 ≤ c ∧ c < 12 + 9 by omega)]

theorem overlapPos_TL : overlapPos "TL" = (6, 6) := by decide

theorem overlapPos_TR : overlapPos "TR" = (6, 0) := by decide

theorem overlapPos_BL : overlapPos "BL" = (0, 6) := by decide

theorem overlapPos_BR : overlapPos "BR" = (0, 0) := by decide

theorem overlapSrc_TL : overlapSrc "TL" = (0, 0) := by decide

theorem overlapSrc_TR : overlapSrc "TR" = (0, 6) := by decide

theorem overlapSrc_BL : overlapSrc "BL" = (6, 0) := by decide

theorem overlapSrc_BR : overlapSrc "BR" = (6, 6) := by decide

theorem isActiveCell_iff {r c : Nat} : isActiveCell r c = true ↔
    ((r < 9 ∧ c < 9) ∨ (r < 9 ∧ 12 ≤ c ∧ c < 21) ∨ (6 ≤ r ∧ r < 15 ∧ 6 ≤ c ∧ c < 15) ∨
     (12 ≤ r ∧ r < 21 ∧ c < 9) ∨ (12 ≤ r ∧ r < 21 ∧ 12 ≤ c ∧ c < 21)) := by
  simp only [isActiveCell, BOARDS, inBoard, List.any_cons, List.any_nil, Bool.or_false,
    Bool.or_eq_true, Bool.and_eq_true, decide_eq_true_eq]
  omega

theorem stitched_none {tl tr c9 bl br : Board9} {r c : Nat}
    (h : isActiveCell r c = false) : stitched tl tr c9 bl br r c = none := by
  have h2 : ¬ ((r < 9 ∧ c < 9) ∨ (r < 9 ∧ 12 ≤ c ∧ c < 21) ∨
      (6 ≤ r ∧ r < 15 ∧ 6 ≤ c ∧ c < 15) ∨
      (12 ≤ r ∧ r < 21 ∧ c < 9) ∨ (12 ≤ r ∧ r < 21 ∧ 12 ≤ c ∧ c < 21)) := by
    intro hx
    rw [isActiveCell_iff.2 hx] at h
    exact Bool.noConfusion h
  simp only [stitched, embedBoard, emptySamuraiGrid]
  rw [if_neg (by omega), if_neg (by omega), if_neg (by omega), if_neg (by omega),
    if_neg (by omega)]

/-- `_solve_samurai_by_composition` always succeeds, and its output is fully
populated exactly on the active cells with all five 9×9 boards fully
valid. -/
theorem solveComposition_spec (R : RandomSource) (P : PickCol) (rs : R.St) :
    ∃ g rs2, solveComposition R P rs = (some g, rs2) ∧
      (∀ b ∈ BOARDS, ValidBoard9 (subBoard g b.2.1 b.2.2)) ∧
      (∀ r c, isActiveCell r c = true → (g r c).isSome = true) ∧
      (∀ r c, isActiveCell r c = false → g r c = none) := by
  obtain ⟨c9, rs1, h1, hc9v, _⟩ := solveRandom_spec R P rs validGivens_nil
  obtain ⟨tl, rs2, h2, htlv, htlm⟩ :=
    solveRandom_spec R P rs1 (extractOverlapGivens_valid hc9v (Or.inl rfl))
  obtain ⟨tr, rs3, h3, htrv, htrm⟩ :=
    solveRandom_spec R P rs2 (extractOverlapGivens_valid hc9v (Or.inr (Or.inl rfl)))
  obtain ⟨bl, rs4, h4, hblv, hblm⟩ :=
    solveRandom_spec R P rs3 (extractOverlapGivens_valid hc9v (Or.inr (Or.inr (Or.inl rfl))))
  obtain ⟨br, rs5, h5, hbrv, hbrm⟩ :=
    solveRandom_spec R P rs4 (extractOverlapGivens_valid hc9v (Or.inr (Or.inr (Or.inr rfl))))
  have hagTL : ∀ dr dc, dr < 3 → dc < 3 → tl (6 + dr) (6 + dc) = c9 dr dc := by
    intro dr dc hdr hdc
    have hmem : (6 + dr, 6 + dc, c9 (0 + dr) (0 + dc) - 1) ∈ extractOverlapGivens c9 "TL" := by
      rw [extractOverlapGivens_eq]
      simp only [overlapPos_TL, overlapSrc_TL]
      exact List.mem_map.2 ⟨(dr, dc), mem_pairList3.2 ⟨hdr, hdc⟩, rfl⟩
    have hx : tl (6 + dr) (6 + dc) = c9 (0 + dr) (0 + dc) - 1 + 1 := htlm _ hmem
    simp only [Nat.zero_add] at hx
    have hge := (hc9v.1 dr dc (by omega) (by omega)).1
    omega
  have hagTR : ∀ dr dc, dr < 3 → dc < 3 → tr (6 + dr) dc = c9 dr (6 + dc) := by
    intro dr dc hdr hdc
    have hmem : (6 + dr, 0 + dc, c9 (0 + dr) (6 + dc) - 1) ∈ extractOverlapGivens c9 "TR" := by
      rw [extractOverlapGivens_eq]
      simp only [overlapPos_TR, overlapSrc_TR]
      exact List.mem_map.2 ⟨(dr, dc), mem_pairList3.2 ⟨hdr, hdc⟩, rfl⟩
    have hx : tr (6 + dr) (0 + dc) = c9 (0 + dr) (6 + dc) - 1 + 1 := htrm _ hmem
    simp only [Nat.zero_add] at hx
    have hge := (hc9v.1 dr (6 + dc) (by omega) (by omega)).1
    omega
  have hagBL : ∀ dr dc, dr < 3 → dc < 3 → bl dr (6 + dc) = c9 (6 + dr) dc := by
    intro dr dc hdr hdc
    have hmem : (0 + dr, 6 + dc, c9 (6 + dr) (0 + dc) - 1) ∈ extractOverlapGivens c9 "BL" := by
      rw [extractOverlapGivens_eq]
      simp only [overlapPos_BL, overlapSrc_BL]
      exact List.mem_map.2 ⟨(dr, dc), mem_pairList3.2 ⟨hdr, hdc⟩, rfl⟩
    have hx : bl (0 + dr) (6 + dc) = c9 (6 + dr) (0 + dc) - 1 + 1 := hblm _ hmem
    simp only [Nat.zero_add] at hx
    have hge := (hc9v.1 (6 + dr) dc (by omega) (by omega)).1
    omega
  have hagBR : ∀ dr dc, dr < 3 → dc < 3 → br dr dc = c9 (6 + dr) (6 + dc) := by
    intro dr dc hdr hdc
    have hmem : (0 + dr, 0 + dc, c9 (6 + dr) (6 + dc) - 1) ∈ extractOverlapGivens c9 "BR" := by
      rw [extractOverlapGivens_eq]
      simp only [overlapPos_BR, overlapSrc_BR]
      exact List.mem_map.2 ⟨(dr, dc), mem_pairList3.2 ⟨hdr, hdc⟩, rfl⟩
    have hx : br (0 + dr) (0 + dc) = c9 (6 + dr) (6 + dc) - 1 + 1 := hbrm _ hmem
    simp only [Nat.zero_add] at hx
    have hge := (hc9v.1 (6 + dr) (6 + dc) (by omega) (by omega)).1
    omega
  refine ⟨stitched tl tr c9 bl br, rs5, ?_, ?_, ?_, ?_⟩
  · simp only [solveComposition, h1, h2, h3, h4, h5]
  · intro b hb
    simp only [BOARDS, List.mem_cons, List.not_mem_nil, or_false] at hb
    rcases hb with rfl | rfl | rfl | rfl | rfl
    · refine validBoard9_congr ?_ htlv
      intro r c hr hc
      simp only [subBoard, Nat.zero_add]
      rw [stitched_tl hagTL r c hr hc]
      rfl
    · refine validBoard9_congr ?_ htrv
      intro r c hr hc
      simp only [subBoard, Nat.zero_add]
      rw [stitched_tr hagTR r (12 + c) hr (by omega) (by omega),
        show 12 + c - 12 = c by omega]
      rfl
    · refine validBoard9_congr ?_ hc9v
      intro r c hr hc
      simp only [subBoard]
      rw [stitched_c hagBL hagBR (6 + r) (6 + c) (by omega) (by omega) (by omega) (by omega),
        show 6 + r - 6 = r by omega, show 6 + c - 6 = c by omega]
      rfl
    · refine validBoard9_congr ?_ hblv
      intro r c hr hc
      simp only [subBoard, Nat.zero_add]
      rw [stitched_bl (12 + r) c (by omega) (by omega) hc, show 12 + r - 12 = r by omega]
      rfl
    · refine validBoard9_congr ?_ hbrv
      intro r c hr hc
      simp only [subBoard]
      rw [stitched_br (12 + r) (12 + c) (by omega) (by omega) (by omega) (by omega),
        show 12 + r - 12 = r by omega, show 12 + c - 12 = c by omega]
      rfl
  · intro r c hact
    rcases isActiveCell_iff.1 hact with h | h | h | h | h
    · rw [stitched_tl hagTL r c h.1 h.2]
      rfl
    · rw [stitched_tr hagTR r c h.1 h.2.1 h.2.2]
      rfl
    · rw [stitched_c hagBL hagBR r c h.1 h.2.1 h.2.2.1 h.2.2.2]
      rfl
    · rw [stitched_bl r c h.1 h.2.1 h.2.2]
      rfl
    · rw [stitched_br r c h.1 h.2.1 h.2.2.1 h.2.2.2]
      rfl
  · intro r c hact
    exact stitched_none hact

/-! ### The dig loop -/

/-- `p` is `sol` with some cells cleared (the puzzle/solution subset
relation). -/
def ExtendsG (p sol : Grid) : Prop := ∀ r c, p r c = none ∨ p r c = sol r c

theorem extendsG_refl (g : Grid) : ExtendsG g g := fun _ _ => Or.inr rfl

theorem extendsG_gset_none {p sol : Grid} (h : ExtendsG p sol) (r c : Nat) :
    ExtendsG (gset p r c none) sol := by
  intro r2 c2
  by_cases hx : r2 = r ∧ c2 = c
  · obtain ⟨rfl, rfl⟩ := hx
    left
    exact gset_self p r2 c2 none
  · rw [gset_other _ _ _ _ hx]
    exact h r2 c2

theorem countClues_le (actives : List (Nat × Nat)) (g : Grid) :
    countClues actives g ≤ actives.length :=
  List.countP_le_length _

theorem countClues_perm {l1 l2 : List (Nat × Nat)} (h : l1.Perm l2) (g : Grid) :
    countClues l1 g = countClues l2 g :=
  h.countP_eq _

theorem countClues_full {g : Grid}
    (h : ∀ r c, isActiveCell r c = true → (g r c).isSome = true) :
    countClues activeCells g = 369 := by
  rw [← activeCells_length]
  apply List.countP_eq_length.2
  intro p hp
  obtain ⟨r, c⟩ := p
  exact h r c ((mem_activeCells_iff r c).1 hp).2.2

theorem countClues_gset_none {actives : List (Nat × Nat)} (hnd : actives.Nodup)
    {p : Grid} {r c v : Nat} (hmem : (r, c) ∈ actives) (hv : p r c = some v) :
    countClues actives (gset p r c none) + 1 = countClues actives p := by
  apply countP_swap_one hnd hmem
  · intro x _ hx
    have hne : ¬(x.1 = r ∧ x.2 = c) := by
      rintro ⟨h1, h2⟩
      exact hx (Prod.ext h1 h2)
    show (gset p r c none x.1 x.2).isSome = (p x.1 x.2).isSome
    rw [gset_other _ _ _ _ hne]
  · show (p r c).isSome = true
    rw [hv]
    rfl
  · show (gset p r c none r c).isSome = false
    rw [gset_self]
    rfl

theorem gridFull_of_full {g : Grid}
    (h : ∀ r c, isActiveCell r c = true → (g r c).isSome = true) :
    gridFull g = true := by
  apply List.all_eq_true.2
  intro p hp
  obtain ⟨r, c⟩ := p
  have hs := h r c ((mem_activeCells_iff r c).1 hp).2.2
  show (! (g r c == none)) = true
  cases hv : g r c with
  | none =>
    rw [hv] at hs
    exact Bool.noConfusion hs
  | some v => rfl

/-- The dig loop keeps the puzzle uniquely solvable, keeps it a subset of
the solution, and never digs the clue count below the target. -/
theorem digGo_spec (G : GlobalRand) (tmo : Nat → Bool) (target : Nat)
    (actives : List (Nat × Nat)) (hnd : actives.Nodup) (sol : Grid) :
    ∀ (cells : List (Nat × Nat)) (p : Grid) (t : Nat) (gs : G.St),
      (∀ x ∈ cells, x ∈ actives) → nsols p = 1 → ExtendsG p sol →
      nsols (digGo G tmo target actives cells p t gs).1 = 1 ∧
      ExtendsG (digGo G tmo target actives cells p t gs).1 sol ∧
      min (countClues actives p) target ≤
        countClues actives (digGo G tmo target actives cells p t gs).1 := by
  intro cells
  induction cells with
  | nil =>
    intro p t gs _ h1 h2
    exact ⟨h1, h2, Nat.min_le_left _ _⟩
  | cons x rest ih =>
    obtain ⟨r, c⟩ := x
    intro p t gs hsub h1 h2
    by_cases hcc : countClues actives p ≤ target
    · have hstep : digGo G tmo target actives ((r, c) :: rest) p t gs = (p, t, gs) := by
        simp only [digGo]
        rw [if_pos hcc]
      rw [hstep]
      exact ⟨h1, h2, Nat.min_le_left _ _⟩
    · rcases hp : p r c with _ | v
      · have hstep : digGo G tmo target actives ((r, c) :: rest) p t gs
            = digGo G tmo target actives rest p t gs := by
          simp only [digGo]
          rw [if_neg hcc, hp]
        rw [hstep]
        exact ih p t gs (fun y hy => hsub y (List.mem_cons_of_mem _ hy)) h1 h2
      · have hstep : digGo G tmo target actives ((r, c) :: rest) p t gs
            = (if (tmo t || ! ((solveUnique G (gset p r c none) 2 gs).1.1 &&
                  ((solveUnique G (gset p r c none) 2 gs).1.2 == 1))) = true then
                digGo G tmo target actives rest (gset (gset p r c none) r c (some v)) (t + 1)
                  (solveUnique G (gset p r c none) 2 gs).2.2
              else
                digGo G tmo target actives rest (gset p r c none) (t + 1)
                  (solveUnique G (gset p r c none) 2 gs).2.2) := by
          simp only [digGo]
          rw [if_neg hcc, hp]
        rw [hstep]
        by_cases hres : (tmo t || ! ((solveUnique G (gset p r c none) 2 gs).1.1 &&
            ((solveUnique G (gset p r c none) 2 gs).1.2 == 1))) = true
        · rw [if_pos hres, gset_gset_restore hp]
          exact ih p (t + 1) _ (fun y hy => hsub y (List.mem_cons_of_mem _ hy)) h1 h2
        · rw [if_neg hres]
          have hb : ((solveUnique G (gset p r c none) 2 gs).1.1 &&
              ((solveUnique G (gset p r c none) 2 gs).1.2 == 1)) = true := by
            cases hbb : ((solveUnique G (gset p r c none) 2 gs).1.1 &&
                ((solveUnique G (gset p r c none) 2 gs).1.2 == 1)) with
            | false =>
              exfalso
              apply hres
              rw [hbb]
              simp
            | true => rfl
          have h12 : (solveUnique G (gset p r c none) 2 gs).1.2 = 1 := by
            simp only [Bool.and_eq_true, beq_iff_eq] at hb
            exact hb.2
          have hspec := solveUnique_spec G (gset p r c none) 2 gs (by omega)
          have hmin : (solveUnique G (gset p r c none) 2 gs).1.2
              = min 2 (nsols (gset p r c none)) := by
            rw [hspec]
          have hn1 : nsols (gset p r c none) = 1 := by omega
          have hcnt := countClues_gset_none hnd (hsub (r, c) (List.mem_cons_self _ _)) hp
          obtain ⟨ha, hb2, hc2⟩ := ih (gset p r c none) (t + 1) _
            (fun y hy => hsub y (List.mem_cons_of_mem _ hy)) hn1 (extendsG_gset_none h2 r c)
          exact ⟨ha, hb2, by omega⟩

theorem digHoles_fst (R : RandomSource) (G : GlobalRand) (tmo : Nat → Bool) (solved : Grid)
    (target : Nat) (rs : R.St) (gs : G.St) (t : Nat) :
    (digHoles R G tmo solved target rs gs t).1 =
      (digGo G tmo target (R.shuffle (Nat × Nat) rs activeCells).1.val
        (R.shuffle (Nat × Nat) rs activeCells).1.val solved t gs).1 := rfl

theorem digHoles_spec (R : RandomSource) (G : GlobalRand) (tmo : Nat → Bool) (solved : Grid)
    (target : Nat) (rs : R.St) (gs : G.St) (t : Nat)
    (h1 : nsols solved = 1)
    (hfull : ∀ r c, isActiveCell r c = true → (solved r c).isSome = true) :
    nsols (digHoles R G tmo solved target rs gs t).1 = 1 ∧
    ExtendsG (digHoles R G tmo solved target rs gs t).1 solved ∧
    min 369 target ≤ countClues activeCells (digHoles R G tmo solved target rs gs t).1 ∧
    countClues activeCells (digHoles R G tmo solved target rs gs t).1 ≤ 369 := by
  have hperm : (R.shuffle (Nat × Nat) rs activeCells).1.val.Perm activeCells :=
    (R.shuffle (Nat × Nat) rs activeCells).1.property
  have hnd : (R.shuffle (Nat × Nat) rs activeCells).1.val.Nodup :=
    hperm.nodup_iff.2 activeCells_nodup
  obtain ⟨ha, hb, hc⟩ := digGo_spec G tmo target (R.shuffle (Nat × Nat) rs activeCells).1.val
    hnd solved (R.shuffle (Nat × Nat) rs activeCells).1.val solved t gs
    (fun x hx => hx) h1 (extendsG_refl solved)
  rw [digHoles_fst]
  refine ⟨ha, hb, ?_, ?_⟩
  · rw [countClues_perm hperm, countClues_full hfull] at hc
    rw [← countClues_perm hperm]
    exact hc
  · rw [← countClues_perm hperm]
    exact le_trans (countClues_le _ _) (le_of_eq (hperm.length_eq.trans activeCells_length))

theorem genAttempts_zero (R : RandomSource) (G : GlobalRand) (tmo : Nat → Bool)
    (adapt : Bool) (solved : Grid) (base : Nat) (hbase : base ≤ 369)
    (h1 : nsols solved = 1)
    (hfull : ∀ r c, isActiveCell r c = true → (solved r c).isSome = true)
    (target : Nat) (rs : R.St) (gs : G.St) (t : Nat) :
    ∃ puzzle st2, genAttempts R G tmo adapt solved base 0 target rs gs t
        = (.ok (puzzle, solved), st2) ∧
      nsols puzzle = 1 ∧ ExtendsG puzzle solved ∧
      base ≤ countClues activeCells puzzle ∧ countClues activeCells puzzle ≤ 369 := by
  obtain ⟨hn, he, hlo, hhi⟩ := digHoles_spec R G tmo solved (max base 210) rs gs t h1 hfull
  refine ⟨(digHoles R G tmo solved (max base 210) rs gs t).1,
    ((digHoles R G tmo solved (max base 210) rs gs t).2.1,
     (digHoles R G tmo solved (max base 210) rs gs t).2.2.1,
     (digHoles R G tmo solved (max base 210) rs gs t).2.2.2), ?_, hn, he, by omega, hhi⟩
  simp only [genAttempts]

/-- Any run of the attempt loop (with a target at least the base)
returns a uniquely solvable sub-grid of the untouched solution with at
least `base` clues. -/
theorem genAttempts_spec (R : RandomSource) (G : GlobalRand) (tmo : Nat → Bool)
    (adapt : Bool) (solved : Grid) (base : Nat) (hbase : base ≤ 369)
    (h1 : nsols solved = 1)
    (hfull : ∀ r c, isActiveCell r c = true → (solved r c).isSome = true) :
    ∀ (n target : Nat) (rs : R.St) (gs : G.St) (t : Nat), base ≤ target →
      ∃ puzzle st2, genAttempts R G tmo adapt solved base n target rs gs t
          = (.ok (puzzle, solved), st2) ∧
        nsols puzzle = 1 ∧ ExtendsG puzzle solved ∧
        base ≤ countClues activeCells puzzle ∧ countClues activeCells puzzle ≤ 369 := by
  intro n
  induction n with
  | zero =>
    intro target rs gs t _
    exact genAttempts_zero R G tmo adapt solved base hbase h1 hfull target rs gs t
  | succ n ih =>
    intro target rs gs t htar
    obtain ⟨hn, he, hlo, hhi⟩ := digHoles_spec R G tmo solved target rs gs t h1 hfull
    by_cases hchk : ((solveUnique G (digHoles R G tmo solved target rs gs t).1 2
        (digHoles R G tmo solved target rs gs t).2.2.1).1.1 &&
        ((solveUnique G (digHoles R G tmo solved target rs gs t).1 2
          (digHoles R G tmo solved target rs gs t).2.2.1).1.2 == 1)) = true
    · have hstep : genAttempts R G tmo adapt solved base (n + 1) target rs gs t
          = (.ok ((digHoles R G tmo solved target rs gs t).1, solved),
             ((digHoles R G tmo solved target rs gs t).2.1,
              (solveUnique G (digHoles R G tmo solved target rs gs t).1 2
                (digHoles R G tmo solved target rs gs t).2.2.1).2.2,
              (digHoles R G tmo solved target rs gs t).2.2.2)) := by
        simp only [genAttempts]
        rw [if_pos hchk]
      exact ⟨_, _, hstep, hn, he, by omega, hhi⟩
    · by_cases hadapt : adapt = true
      · have hstep : genAttempts R G tmo adapt solved base (n + 1) target rs gs t
            = genAttempts R G tmo adapt solved base n (target + 10)
                (digHoles R G tmo solved target rs gs t).2.1
                (solveUnique G (digHoles R G tmo solved target rs gs t).1 2
                  (digHoles R G tmo solved target rs gs t).2.2.1).2.2
                (digHoles R G tmo solved target rs gs t).2.2.2 := by
          simp only [genAttempts]
          rw [if_neg hchk, if_neg (by rw [hadapt]; exact fun h0 => Bool.noConfusion h0)]
        rw [hstep]
        exact ih (target + 10) _ _ _ (by omega)
      · have hstep : genAttempts R G tmo adapt solved base (n + 1) target rs gs t
            = genAttempts R G tmo adapt solved base 0 target
                (digHoles R G tmo solved target rs gs t).2.1
                (solveUnique G (digHoles R G tmo solved target rs gs t).1 2
                  (digHoles R G tmo solved target rs gs t).2.2.1).2.2
                (digHoles R G tmo solved target rs gs t).2.2.2 := by
          simp only [genAttempts]
          rw [if_neg hchk, if_pos (by rw [Bool.not_eq_true] at hadapt; rw [hadapt]; rfl)]
        rw [hstep]
        exact genAttempts_zero R G tmo adapt solved base hbase h1 hfull target _ _ _

theorem lookup_base_le {s : String} {b : Nat} (h : DIFFICULTY_CLUES.lookup s = some b) :
    b ≤ 369 := by
  simp only [DIFFICULTY_CLUES, List.lookup] at h
  split at h
  · injection h with h2
    omega
  · split at h
    · injection h with h2
      omega
    · split at h
      · injection h with h2
        omega
      · split at h
        · injection h with h2
          omega
        · exact Option.noConfusion h

/-- Master specification of `generate_samurai` on a recognized difficulty:
it succeeds, the solution is exactly the (unchanged) composed solution,
the puzzle is a uniquely solvable subset of it, and the clue count is
between the difficulty's base target and 369. -/
theorem generateSamurai_spec (R : RandomSource) (G : GlobalRand) (P : PickCol)
    (tmo : Nat → Bool) (rs : R.St) (gs : G.St) (difficulty : String) (adapt : Bool)
    {base : Nat} (hlook : DIFFICULTY_CLUES.lookup (lowerStr difficulty) = some base) :
    ∃ puzzle solution st2,
      generateSamurai R G P tmo rs gs difficulty adapt = (.ok (puzzle, solution), st2) ∧
      (∃ rs1, solveComposition R P rs = (some solution, rs1)) ∧
      nsols puzzle = 1 ∧ ExtendsG puzzle solution ∧
      (∀ b ∈ BOARDS, ValidBoard9 (subBoard solution b.2.1 b.2.2)) ∧
      (∀ r c, isActiveCell r c = true → (solution r c).isSome = true) ∧
      (∀ r c, isActiveCell r c = false → solution r c = none) ∧
      base ≤ countClues activeCells puzzle ∧ countClues activeCells puzzle ≤ 369 := by
  obtain ⟨solved, rs1, hcomp, hvb, hfull, hinact⟩ := solveComposition_spec R P rs
  have h1 : nsols solved = 1 := nsols_full (gridFull_of_full hfull)
  obtain ⟨puzzle, st2, hgen, hn, he, hlo, hhi⟩ :=
    genAttempts_spec R G tmo adapt solved base (lookup_base_le hlook) h1 hfull
      3 base rs1 gs 0 (le_refl base)
  refine ⟨puzzle, solved, st2, ?_, ⟨rs1, hcomp⟩, hn, he, hvb, hfull, hinact, hlo, hhi⟩
  simp only [generateSamurai, hlook, hcomp]
  exact hgen

/-! ### Independence of the generator's result from the ambient global
random oracle

The global `random` state only feeds the candidate shuffles inside
`solve_unique`; by the counting lemma those never change the returned
result pair, so the whole generation result (though not the global state)
is the same under any global oracle. -/

theorem digGo_irrel (G1 G2 : GlobalRand) (tmo : Nat → Bool) (target : Nat)
    (actives : List (Nat × Nat)) :
    ∀ (cells : List (Nat × Nat)) (p : Grid) (t : Nat) (gs1 : G1.St) (gs2 : G2.St),
      (digGo G1 tmo target actives cells p t gs1).1
        = (digGo G2 tmo target actives cells p t gs2).1 ∧
      (digGo G1 tmo target actives cells p t gs1).2.1
        = (digGo G2 tmo target actives cells p t gs2).2.1 := by
  intro cells
  induction cells with
  | nil =>
    intro p t gs1 gs2
    exact ⟨rfl, rfl⟩
  | cons x rest ih =>
    obtain ⟨r, c⟩ := x
    intro p t gs1 gs2
    by_cases hcc : countClues actives p ≤ target
    · have e1 : digGo G1 tmo target actives ((r, c) :: rest) p t gs1 = (p, t, gs1) := by
        simp only [digGo]
        rw [if_pos hcc]
      have e2 : digGo G2 tmo target actives ((r, c) :: rest) p t gs2 = (p, t, gs2) := by
        simp only [digGo]
        rw [if_pos hcc]
      rw [e1, e2]
      exact ⟨rfl, rfl⟩
    · rcases hp : p r c with _ | v
      · have e1 : digGo G1 tmo target actives ((r, c) :: rest) p t gs1
            = digGo G1 tmo target actives rest p t gs1 := by
          simp only [digGo]
          rw [if_neg hcc, hp]
        have e2 : digGo G2 tmo target actives ((r, c) :: rest) p t gs2
            = digGo G2 tmo target actives rest p t gs2 := by
          simp only [digGo]
          rw [if_neg hcc, hp]
        rw [e1, e2]
        exact ih p t gs1 gs2
      · have e1 : digGo G1 tmo target actives ((r, c) :: rest) p t gs1
            = (if (tmo t || ! ((solveUnique G1 (gset p r c none) 2 gs1).1.1 &&
                  ((solveUnique G1 (gset p r c none) 2 gs1).1.2 == 1))) = true then
                digGo G1 tmo target actives rest (gset (gset p r c none) r c (some v)) (t + 1)
                  (solveUnique G1 (gset p r c none) 2 gs1).2.2
              else
                digGo G1 tmo target actives rest (gset p r c none) (t + 1)
                  (solveUnique G1 (gset p r c none) 2 gs1).2.2) := by
          simp only [digGo]
          rw [if_neg hcc, hp]
        have e2 : digGo G2 tmo target actives ((r, c) :: rest) p t gs2
            = (if (tmo t || ! ((solveUnique G2 (gset p r c none) 2 gs2).1.1 &&
                  ((solveUnique G2 (gset p r c none) 2 gs2).1.2 == 1))) = true then
                digGo G2 tmo target actives rest (gset (gset p r c none) r c (some v)) (t + 1)
                  (solveUnique G2 (gset p r c none) 2 gs2).2.2
              else
                digGo G2 tmo target actives rest (gset p r c none) (t + 1)
                  (solveUnique G2 (gset p r c none) 2 gs2).2.2) := by
          simp only [digGo]
          rw [if_neg hcc, hp]
        rw [e1, e2]
        have hru : (solveUnique G1 (gset p r c none) 2 gs1).1
            = (solveUnique G2 (gset p r c none) 2 gs2).1 :=
          solveUnique_result_irrel G1 G2 (gset p r c none) 2 gs1 gs2 (by omega)
        rw [hru]
        by_cases hc2 : (tmo t || ! ((solveUnique G2 (gset p r c none) 2 gs2).1.1 &&
            ((solveUnique G2 (gset p r c none) 2 gs2).1.2 == 1))) = true
        · rw [if_pos hc2, if_pos hc2]
          exact ih _ _ _ _
        · rw [if_neg hc2, if_neg hc2]
          exact ih _ _ _ _

theorem digHoles_irrel (R : RandomSource) (G1 G2 : GlobalRand) (tmo : Nat → Bool)
    (solved : Grid) (target : Nat) (rs : R.St) (gs1 : G1.St) (gs2 : G2.St) (t : Nat) :
    (digHoles R G1 tmo solved target rs gs1 t).1
      = (digHoles R G2 tmo solved target rs gs2 t).1 ∧
    (digHoles R G1 tmo solved target rs gs1 t).2.1
      = (digHoles R G2 tmo solved target rs gs2 t).2.1 ∧
    (digHoles R G1 tmo solved target rs gs1 t).2.2.2
      = (digHoles R G2 tmo solved target rs gs2 t).2.2.2 := by
  obtain ⟨h1, h2⟩ := digGo_irrel G1 G2 tmo target (R.shuffle (Nat × Nat) rs activeCells).1.val
    (R.shuffle (Nat × Nat) rs activeCells).1.val solved t gs1 gs2
  exact ⟨h1, rfl, h2⟩

theorem genAttempts_irrel_zero (R : RandomSource) (G1 G2 : GlobalRand) (tmo : Nat → Bool)
    (adapt : Bool) (solved : Grid) (base : Nat) (target : Nat) (rs : R.St)
    (gs1 : G1.St) (gs2 : G2.St) (t : Nat) :
    (genAttempts R G1 tmo adapt solved base 0 target rs gs1 t).1
      = (genAttempts R G2 tmo adapt solved base 0 target rs gs2 t).1 ∧
    (genAttempts R G1 tmo adapt solved base 0 target rs gs1 t).2.1
      = (genAttempts R G2 tmo adapt solved base 0 target rs gs2 t).2.1 ∧
    (genAttempts R G1 tmo adapt solved base 0 target rs gs1 t).2.2.2
      = (genAttempts R G2 tmo adapt solved base 0 target rs gs2 t).2.2.2 := by
  obtain ⟨h1, h2, h3⟩ := digHoles_irrel R G1 G2 tmo solved (max base 210) rs gs1 gs2 t
  have e1 : genAttempts R G1 tmo adapt solved base 0 target rs gs1 t
      = (.ok ((digHoles R G1 tmo solved (max base 210) rs gs1 t).1, solved),
         ((digHoles R G1 tmo solved (max base 210) rs gs1 t).2.1,
          (digHoles R G1 tmo solved (max base 210) rs gs1 t).2.2.1,
          (digHoles R G1 tmo solved (max base 210) rs gs1 t).2.2.2)) := by
    simp only [genAttempts]
  have e2 : genAttempts R G2 tmo adapt solved base 0 target rs gs2 t
      = (.ok ((digHoles R G2 tmo solved (max base 210) rs gs2 t).1, solved),
         ((digHoles R G2 tmo solved (max base 210) rs gs2 t).2.1,
          (digHoles R G2 tmo solved (max base 210) rs gs2 t).2.2.1,
          (digHoles R G2 tmo solved (max base 210) rs gs2 t).2.2.2)) := by
    simp only [genAttempts]
  rw [e1, e2]
  exact ⟨by rw [h1], h2, h3⟩

theorem genAttempts_irrel (R : RandomSource) (G1 G2 : GlobalRand) (tmo : Nat → Bool)
    (adapt : Bool) (solved : Grid) (base : Nat) :
    ∀ (n target : Nat) (rs : R.St) (gs1 : G1.St) (gs2 : G2.St) (t : Nat),
      (genAttempts R G1 tmo adapt solved base n target rs gs1 t).1
        = (genAttempts R G2 tmo adapt solved base n target rs gs2 t).1 ∧
      (genAttempts R G1 tmo adapt solved base n target rs gs1 t).2.1
        = (genAttempts R G2 tmo adapt solved base n target rs gs2 t).2.1 ∧
      (genAttempts R G1 tmo adapt solved base n target rs gs1 t).2.2.2
        = (genAttempts R G2 tmo adapt solved base n target rs gs2 t).2.2.2 := by
  intro n
  induction n with
  | zero =>
    intro target rs gs1 gs2 t
    exact genAttempts_irrel_zero R G1 G2 tmo adapt solved base target rs gs1 gs2 t
  | succ n ih =>
    intro target rs gs1 gs2 t
    obtain ⟨hd1, hd2, hd3⟩ := digHoles_irrel R G1 G2 tmo solved target rs gs1 gs2 t
    have hru : (solveUnique G1 (digHoles R G1 tmo solved target rs gs1 t).1 2
        (digHoles R G1 tmo solved target rs gs1 t).2.2.1).1
        = (solveUnique G2 (digHoles R G2 tmo solved target rs gs2 t).1 2
          (digHoles R G2 tmo solved target rs gs2 t).2.2.1).1 := by
      rw [hd1]
      exact solveUnique_result_irrel G1 G2 _ 2 _ _ (by omega)
    by_cases hchk : ((solveUnique G2 (digHoles R G2 tmo solved target rs gs2 t).1 2
        (digHoles R G2 tmo solved target rs gs2 t).2.2.1).1.1 &&
        ((solveUnique G2 (digHoles R G2 tmo solved target rs gs2 t).1 2
          (digHoles R G2 tmo solved target rs gs2 t).2.2.1).1.2 == 1)) = true
    · have hchk1 : ((solveUnique G1 (digHoles R G1 tmo solved target rs gs1 t).1 2
          (digHoles R G1 tmo solved target rs gs1 t).2.2.1).1.1 &&
          ((solveUnique G1 (digHoles R G1 tmo solved target rs gs1 t).1 2
            (digHoles R G1 tmo solved target rs gs1 t).2.2.1).1.2 == 1)) = true := by
        rw [hru]
        exact hchk
      have e1 : genAttempts R G1 tmo adapt solved base (n + 1) target rs gs1 t
          = (.ok ((digHoles R G1 tmo solved target rs gs1 t).1, solved),
             ((digHoles R G1 tmo solved target rs gs1 t).2.1,
              (solveUnique G1 (digHoles R G1 tmo solved target rs gs1 t).1 2
                (digHoles R G1 tmo solved target rs gs1 t).2.2.1).2.2,
              (digHoles R G1 tmo solved target rs gs1 t).2.2.2)) := by
        simp only [genAttempts]
        rw [if_pos hchk1]
      have e2 : genAttempts R G2 tmo adapt solved base (n + 1) target rs gs2 t
          = (.ok ((digHoles R G2 tmo solved target rs gs2 t).1, solved),
             ((digHoles R G2 tmo solved target rs gs2 t).2.1,
              (solveUnique G2 (digHoles R G2 tmo solved target rs gs2 t).1 2
                (digHoles R G2 tmo solved target rs gs2 t).2.2.1).2.2,
              (digHoles R G2 tmo solved target rs gs2 t).2.2.2)) := by
        simp only [genAttempts]
        rw [if_pos hchk]
      rw [e1, e2]
      exact ⟨by rw [hd1], hd2, hd3⟩
    · have hchk1 : ¬ ((solveUnique G1 (digHoles R G1 tmo solved target rs gs1 t).1 2
          (digHoles R G1 tmo solved target rs gs1 t).2.2.1).1.1 &&
          ((solveUnique G1 (digHoles R G1 tmo solved target rs gs1 t).1 2
            (digHoles R G1 tmo solved target rs gs1 t).2.2.1).1.2 == 1)) = true := by
        rw [hru]
        exact hchk
      by_cases hadapt : adapt = true
      · have e1 : genAttempts R G1 tmo adapt solved base (n + 1) target rs gs1 t
            = genAttempts R G1 tmo adapt solved base n (target + 10)
                (digHoles R G1 tmo solved target rs gs1 t).2.1
                (solveUnique G1 (digHoles R G1 tmo solved target rs gs1 t).1 2
                  (digHoles R G1 tmo solved target rs gs1 t).2.2.1).2.2
                (digHoles R G1 tmo solved target rs gs1 t).2.2.2 := by
          simp only [genAttempts]
          rw [if_neg hchk1, if_neg (by rw [hadapt]; exact fun h0 => Bool.noConfusion h0)]
        have e2 : genAttempts R G2 tmo adapt solved base (n + 1) target rs gs2 t
            = genAttempts R G2 tmo adapt solved base n (target + 10)
                (digHoles R G2 tmo solved target rs gs2 t).2.1
                (solveUnique G2 (digHoles R G2 tmo solved target rs gs2 t).1 2
                  (digHoles R G2 tmo solved target rs gs2 t).2.2.1).2.2
                (digHoles R G2 tmo solved target rs gs2 t).2.2.2 := by
          simp only [genAttempts]
          rw [if_neg hchk, if_neg (by rw [hadapt]; exact fun h0 => Bool.noConfusion h0)]
        rw [e1, e2, hd2, hd3]
        exact ih (target + 10) _ _ _ _
      · have hnadapt : (! adapt) = true := by
          rw [Bool.not_eq_true] at hadapt
          rw [hadapt]
          rfl
        have e1 : genAttempts R G1 tmo adapt solved base (n + 1) target rs gs1 t
            = genAttempts R G1 tmo adapt solved base 0 target
                (digHoles R G1 tmo solved target rs gs1 t).2.1
                (solveUnique G1 (digHoles R G1 tmo solved target rs gs1 t).1 2
                  (digHoles R G1 tmo solved target rs gs1 t).2.2.1).2.2
                (digHoles R G1 tmo solved target rs gs1 t).2.2.2 := by
          simp only [genAttempts]
          rw [if_neg hchk1, if_pos hnadapt]
        have e2 : genAttempts R G2 tmo adapt solved base (n + 1) target rs gs2 t
            = genAttempts R G2 tmo adapt solved base 0 target
                (digHoles R G2 tmo solved target rs gs2 t).2.1
                (solveUnique G2 (digHoles R G2 tmo solved target rs gs2 t).1 2
                  (digHoles R G2 tmo solved target rs gs2 t).2.2.1).2.2
                (digHoles R G2 tmo solved target rs gs2 t).2.2.2 := by
          simp only [genAttempts]
          rw [if_neg hchk, if_pos hnadapt]
        rw [e1, e2, hd2, hd3]
        exact genAttempts_irrel_zero R G1 G2 tmo adapt solved base target _ _ _ _

/-! ### Concrete oracle instances -/

/-- The identity random source: shuffles leave lists in place. -/
def idRand : RandomSource :=
  ⟨Unit, fun _ _ l => (⟨l, List.Perm.refl l⟩, ())⟩

/-- The identity global-random oracle. -/
def trivGlobal : GlobalRand :=
  ⟨Unit, fun s l => (⟨l, List.Perm.refl l⟩, s)⟩

/-- A global-random oracle whose state counts how many shuffles have been
drawn from it. -/
def countingGlobal : GlobalRand :=
  ⟨Nat, fun s l => (⟨l, List.Perm.refl l⟩, s + 1)⟩

/-- A concrete column chooser: always the minimum of the active-column
set. -/
def minPick : PickCol :=
  ⟨fun s h => ⟨s.min' h, s.min'_mem h⟩⟩

/-- A grid with every cell filled (used to exercise the counting
backtracker on a full grid). -/
def gFullDemo : Grid := fun _ _ => some 1

/-- A grid whose only empty active cell is `(0,0)`, with two remaining
candidates there. -/
def gTwoCand : Grid := fun r c =>
  if r = 0 ∧ c = 0 then none
  else some (if r = 0 ∧ 1 ≤ c ∧ c ≤ 7 then c + 2 else 3)

/-! ### The claims -/

/-- C1: for every recognized difficulty, random source, global oracle,
column chooser, timeout oracle and adapt flag, `generate_samurai` succeeds
and the returned puzzle has exactly one completion under the full samurai
constraints: `solve_unique` with limit 2 reports `(True, 1)` on it — with
any global shuffle oracle and state — no matter whether the puzzle came
from a direct dig, an adaptive retry, or the unverified final fallback
dig. -/
theorem claim_C1 (R : RandomSource) (G : GlobalRand) (P : PickCol) (tmo : Nat → Bool)
    (rs : R.St) (gs : G.St) (d : String) (adapt : Bool) {base : Nat}
    (hd : DIFFICULTY_CLUES.lookup (lowerStr d) = some base) :
    ∃ puzzle solution st2,
      generateSamurai R G P tmo rs gs d adapt = (.ok (puzzle, solution), st2) ∧
      ∀ (G2 : GlobalRand) (s2 : G2.St), (solveUnique G2 puzzle 2 s2).1 = (true, 1) := by
  obtain ⟨pz, sol, st2, heq, _, hns, _, _, _, _, _, _⟩ :=
    generateSamurai_spec R G P tmo rs gs d adapt hd
  exact ⟨pz, sol, st2, heq, fun G2 s2 => (solveUnique_eq_one_iff G2 pz s2).2 hns⟩

theorem claim_C1_witness :
    DIFFICULTY_CLUES.lookup (lowerStr "easy") = some 170 ∧
    ∃ puzzle solution st2,
      generateSamurai idRand trivGlobal minPick (fun _ => true) () () "easy" true
        = (.ok (puzzle, solution), st2) ∧
      ∀ (G2 : GlobalRand) (s2 : G2.St), (solveUnique G2 puzzle 2 s2).1 = (true, 1) :=
  ⟨by decide,
   @claim_C1 idRand trivGlobal minPick (fun _ => true) () () "easy" true 170 (by decide)⟩

/-- C2: for every random source and column chooser, the composed-solution
builder succeeds, its 21×21 grid is populated on every active cell, and for
every cell and every board covering that cell the board's 81-cell region is
a fully valid solved Sudoku (each digit exactly once in every row, column
and box) — in particular the two boards through each overlap cell agree. -/
theorem claim_C2 (R : RandomSource) (P : PickCol) (rs : R.St) :
    ∃ g rs2, solveComposition R P rs = (some g, rs2) ∧
      (∀ r c, isActiveCell r c = true → (g r c).isSome = true) ∧
      (∀ r c, ∀ b ∈ boardsCoveringCell r c, ValidBoard9 (subBoard g b.2.1 b.2.2)) := by
  obtain ⟨g, rs2, heq, hvb, hfull, _⟩ := solveComposition_spec R P rs
  refine ⟨g, rs2, heq, hfull, ?_⟩
  intro r c b hb
  exact hvb b (List.mem_filter.1 hb).1

/-- C3: for every random source, column chooser and topologically valid
given set, the single-board solver returns a board in which every row,
column and 3×3 box holds each digit 1–9 exactly once and every given cell
`(r,c,d)` holds `d+1` — through the DLX path or the complete fallback
backtracker. -/
theorem claim_C3 (R : RandomSource) (P : PickCol) (rs : R.St)
    (givens : List (Nat × Nat × Nat)) (hval : ValidGivens givens) :
    ∃ b rs2, solveRandom R P rs givens = (some b, rs2) ∧ ValidBoard9 b ∧
      ∀ gv ∈ givens, b gv.1 gv.2.1 = gv.2.2 + 1 :=
  solveRandom_spec R P rs hval

theorem claim_C3_witness :
    ValidGivens ([] : List (Nat × Nat × Nat)) ∧
    ∃ b rs2, solveRandom idRand minPick () [] = (some b, rs2) ∧ ValidBoard9 b ∧
      ∀ gv ∈ ([] : List (Nat × Nat × Nat)), b gv.1 gv.2.1 = gv.2.2 + 1 :=
  ⟨validGivens_nil, claim_C3 idRand minPick () [] validGivens_nil⟩

/-- C4: for every recognized difficulty the returned pair satisfies: every
puzzle cell is either empty or equal to the solution's value there, and the
returned solution is exactly the grid built by the composed-solution
builder, unchanged (the digger works on a copy). -/
theorem claim_C4 (R : RandomSource) (G : GlobalRand) (P : PickCol) (tmo : Nat → Bool)
    (rs : R.St) (gs : G.St) (d : String) (adapt : Bool) {base : Nat}
    (hd : DIFFICULTY_CLUES.lookup (lowerStr d) = some base) :
    ∃ puzzle solution st2,
      generateSamurai R G P tmo rs gs d adapt = (.ok (puzzle, solution), st2) ∧
      (∀ r c, puzzle r c = none ∨ puzzle r c = solution r c) ∧
      ∃ rs1, solveComposition R P rs = (some solution, rs1) := by
  obtain ⟨pz, sol, st2, heq, hcomp, _, hext, _, _, _, _, _⟩ :=
    generateSamurai_spec R G P tmo rs gs d adapt hd
  exact ⟨pz, sol, st2, heq, hext, hcomp⟩

theorem claim_C4_witness :
    DIFFICULTY_CLUES.lookup (lowerStr "evil") = some 80 ∧
    ∃ puzzle solution st2,
      generateSamurai idRand trivGlobal minPick (fun _ => false) () () "evil" false
        = (.ok (puzzle, solution), st2) ∧
      (∀ r c, puzzle r c = none ∨ puzzle r c = solution r c) ∧
      ∃ rs1, solveComposition idRand minPick () = (some solution, rs1) :=
  ⟨by decide,
   @claim_C4 idRand trivGlobal minPick (fun _ => false) () () "evil" false 80 (by decide)⟩

/-- C5: one iteration of the digger on cell `(r,c)`: if the clue count is
already at most the target the loop stops with everything unchanged;
otherwise, when the cell is filled, it is cleared and the limit-2
uniqueness check runs, and the value is restored — so the grid passed on
is exactly the entry grid — precisely when the check timed out or the
exhaustive completion count of the cleared grid is zero or more than one;
otherwise the cell stays cleared. -/
theorem claim_C5 (G : GlobalRand) (tmo : Nat → Bool) (target : Nat)
    (actives : List (Nat × Nat)) (r c : Nat) (rest : List (Nat × Nat))
    (p : Grid) (t : Nat) (gs : G.St) :
    (countClues actives p ≤ target →
      digGo G tmo target actives ((r, c) :: rest) p t gs = (p, t, gs)) ∧
    (¬ countClues actives p ≤ target → ∀ v, p r c = some v →
      ((tmo t = true ∨ nsols (gset p r c none) ≠ 1) →
        digGo G tmo target actives ((r, c) :: rest) p t gs
          = digGo G tmo target actives rest p (t + 1)
              (solveUnique G (gset p r c none) 2 gs).2.2) ∧
      (tmo t = false → nsols (gset p r c none) = 1 →
        digGo G tmo target actives ((r, c) :: rest) p t gs
          = digGo G tmo target actives rest (gset p r c none) (t + 1)
              (solveUnique G (gset p r c none) 2 gs).2.2)) := by
  constructor
  · intro hcc
    simp only [digGo]
    rw [if_pos hcc]
  · intro hcc v hv
    have hstep : digGo G tmo target actives ((r, c) :: rest) p t gs
        = (if (tmo t || ! ((solveUnique G (gset p r c none) 2 gs).1.1 &&
              ((solveUnique G (gset p r c none) 2 gs).1.2 == 1))) = true then
            digGo G tmo target actives rest (gset (gset p r c none) r c (some v)) (t + 1)
              (solveUnique G (gset p r c none) 2 gs).2.2
          else
            digGo G tmo target actives rest (gset p r c none) (t + 1)
              (solveUnique G (gset p r c none) 2 gs).2.2) := by
      simp only [digGo]
      rw [if_neg hcc, hv]
    have hspec := solveUnique_spec G (gset p r c none) 2 gs (by omega)
    have h1 : (solveUnique G (gset p r c none) 2 gs).1.1
        = decide (0 < min 2 (nsols (gset p r c none))) := by
      rw [hspec]
    have h2 : (solveUnique G (gset p r c none) 2 gs).1.2
        = min 2 (nsols (gset p r c none)) := by
      rw [hspec]
    constructor
    · intro hbad
      have hcond : (tmo t || ! ((solveUnique G (gset p r c none) 2 gs).1.1 &&
          ((solveUnique G (gset p r c none) 2 gs).1.2 == 1))) = true := by
        rw [h1, h2]
        rcases hbad with htm | hns
        · rw [htm, Bool.true_or]
        · have hne : (min 2 (nsols (gset p r c none)) == 1) = false :=
            beq_eq_false_iff_ne.2 (by omega)
          rw [hne, Bool.and_false, Bool.not_false, Bool.or_true]
      rw [hstep, if_pos hcond, gset_gset_restore hv]
    · intro htm hns
      have hcond : ¬ (tmo t || ! ((solveUnique G (gset p r c none) 2 gs).1.1 &&
          ((solveUnique G (gset p r c none) 2 gs).1.2 == 1))) = true := by
        rw [h1, h2, htm, hns]
        simp
      rw [hstep, if_neg hcond]

theorem claim_C5_witness :
    ¬ countClues [((0 : Nat), (0 : Nat))] gFullDemo ≤ 0 ∧
    gFullDemo 0 0 = some 1 ∧
    ((fun _ : Nat => true) 0 = true ∨ nsols (gset gFullDemo 0 0 none) ≠ 1) ∧
    digGo trivGlobal (fun _ => true) 0 [(0, 0)] ((0, 0) :: []) gFullDemo 0 ()
      = digGo trivGlobal (fun _ => true) 0 [(0, 0)] [] gFullDemo 1
          (solveUnique trivGlobal (gset gFullDemo 0 0 none) 2 ()).2.2 :=
  ⟨by decide, rfl, Or.inl rfl,
   ((claim_C5 trivGlobal (fun _ => true) 0 [(0, 0)] 0 0 [] gFullDemo 0 ()).2
     (by decide) 1 rfl).1 (Or.inl rfl)⟩

/-- C6: for every recognized difficulty the puzzle's clue count over the
369 active cells is at least the difficulty's base target
(easy=170, medium=140, hard=110, evil=80) and at most 369. -/
theorem claim_C6 (R : RandomSource) (G : GlobalRand) (P : PickCol) (tmo : Nat → Bool)
    (rs : R.St) (gs : G.St) (d : String) (adapt : Bool) {base : Nat}
    (hd : DIFFICULTY_CLUES.lookup (lowerStr d) = some base) :
    DIFFICULTY_CLUES = [("easy", 170), ("medium", 140), ("hard", 110), ("evil", 80)] ∧
    activeCells.length = 369 ∧
    ∃ puzzle solution st2,
      generateSamurai R G P tmo rs gs d adapt = (.ok (puzzle, solution), st2) ∧
      base ≤ countClues activeCells puzzle ∧ countClues activeCells puzzle ≤ 369 := by
  obtain ⟨pz, sol, st2, heq, _, _, _, _, _, _, hlo, hhi⟩ :=
    generateSamurai_spec R G P tmo rs gs d adapt hd
  exact ⟨rfl, activeCells_length, pz, sol, st2, heq, hlo, hhi⟩

theorem claim_C6_witness :
    DIFFICULTY_CLUES.lookup (lowerStr "easy") = some 170 ∧
    (DIFFICULTY_CLUES = [("easy", 170), ("medium", 140), ("hard", 110), ("evil", 80)] ∧
     activeCells.length = 369 ∧
     ∃ puzzle solution st2,
       generateSamurai idRand trivGlobal minPick (fun _ => true) () () "easy" false
         = (.ok (puzzle, solution), st2) ∧
       170 ≤ countClues activeCells puzzle ∧ countClues activeCells puzzle ≤ 369) :=
  ⟨by decide,
   @claim_C6 idRand trivGlobal minPick (fun _ => true) () () "easy" false 170 (by decide)⟩

/-- C7 (amended): `generate_samurai` returns the invalid-difficulty error —
with the random states untouched and the check counter zero, before any
solving or digging — exactly when the *lowercased* difficulty argument is
not one of the enumerated names; the raw argument is lowercased first, so
e.g. "EASY" is accepted although it is not itself in the enumerated set. -/
theorem claim_C7 (R : RandomSource) (G : GlobalRand) (P : PickCol) (tmo : Nat → Bool)
    (rs : R.St) (gs : G.St) (d : String) (adapt : Bool) :
    generateSamurai R G P tmo rs gs d adapt
        = (.error (.invalidDifficulty (lowerStr d)), (rs, gs, 0))
      ↔ DIFFICULTY_CLUES.lookup (lowerStr d) = none := by
  constructor
  · intro h
    cases hl : DIFFICULTY_CLUES.lookup (lowerStr d) with
    | none => rfl
    | some b =>
      obtain ⟨pz, sol, st2, heq, _⟩ := generateSamurai_spec R G P tmo rs gs d adapt hl
      rw [heq] at h
      exact Except.noConfusion (congrArg Prod.fst h)
  · intro h
    simp only [generateSamurai, h]

theorem claim_C7_counterexample :
    (∀ kv ∈ DIFFICULTY_CLUES, "EASY" ≠ kv.1) ∧
    ∃ pz sol st2,
      generateSamurai idRand trivGlobal minPick (fun _ => true) () () "EASY" true
        = (.ok (pz, sol), st2) := by
  refine ⟨by decide, ?_⟩
  obtain ⟨pz, sol, st2, heq, _⟩ := generateSamurai_spec idRand trivGlobal minPick
    (fun _ => true) () () "EASY" true (show _ = some 170 by decide)
  exact ⟨pz, sol, st2, heq⟩

/-- C8 (amended): the generation result — the `(puzzle, solution)` pair or
the error — is fully determined by the explicit inputs: it is identical
under any two ambient global random oracles and states.  (The original
claim that no randomized step reads the ambient global random state is
false: the candidate shuffle inside `solve_unique` draws from it; only the
*returned pair* is independent of those draws.) -/
theorem claim_C8 (R : RandomSource) (P : PickCol) (tmo : Nat → Bool) (rs : R.St)
    (d : String) (adapt : Bool) (G1 G2 : GlobalRand) (gs1 : G1.St) (gs2 : G2.St) :
    (generateSamurai R G1 P tmo rs gs1 d adapt).1
      = (generateSamurai R G2 P tmo rs gs2 d adapt).1 := by
  cases hl : DIFFICULTY_CLUES.lookup (lowerStr d) with
  | none =>
    have e1 : generateSamurai R G1 P tmo rs gs1 d adapt
        = (.error (.invalidDifficulty (lowerStr d)), (rs, gs1, 0)) := by
      simp only [generateSamurai, hl]
    have e2 : generateSamurai R G2 P tmo rs gs2 d adapt
        = (.error (.invalidDifficulty (lowerStr d)), (rs, gs2, 0)) := by
      simp only [generateSamurai, hl]
    rw [e1, e2]
  | some base =>
    rcases hc : solveComposition R P rs with ⟨og, rs1⟩
    cases og with
    | none =>
      have e1 : generateSamurai R G1 P tmo rs gs1 d adapt
          = (.error .solverStuck, (rs1, gs1, 0)) := by
        simp only [generateSamurai, hl, hc]
      have e2 : generateSamurai R G2 P tmo rs gs2 d adapt
          = (.error .solverStuck, (rs1, gs2, 0)) := by
        simp only [generateSamurai, hl, hc]
      rw [e1, e2]
    | some solved =>
      have e1 : generateSamurai R G1 P tmo rs gs1 d adapt
          = genAttempts R G1 tmo adapt solved base 3 base rs1 gs1 0 := by
        simp only [generateSamurai, hl, hc]
      have e2 : generateSamurai R G2 P tmo rs gs2 d adapt
          = genAttempts R G2 tmo adapt solved base 3 base rs1 gs2 0 := by
        simp only [generateSamurai, hl, hc]
      rw [e1, e2]
      exact (genAttempts_irrel R G1 G2 tmo adapt solved base 3 base rs1 gs1 gs2 0).1

theorem claim_C8_counterexample :
    (solveUnique countingGlobal gTwoCand 2 Nat.zero).2.2 = Nat.succ Nat.zero := rfl

/-- C9: in the fixed five-board topology every canvas cell lies in at most
two boards; a cell lies in exactly two boards precisely when it is in one
of the four 3×3 overlap blocks (rows and columns in `[6,9) ∪ [12,15)`),
each of which involves the center board and exactly one corner board and
starts on a 3×3 box boundary of both covering boards; and no cell is
shared by two corner boards. -/
theorem claim_C9 : ∀ (r c : Fin 21),
    (boardsCoveringCell r.val c.val).length ≤ 2 ∧
    ((boardsCoveringCell r.val c.val).length = 2 ↔
      (((6 ≤ r.val ∧ r.val < 9) ∨ (12 ≤ r.val ∧ r.val < 15)) ∧
       ((6 ≤ c.val ∧ c.val < 9) ∨ (12 ≤ c.val ∧ c.val < 15)))) ∧
    ((boardsCoveringCell r.val c.val).length = 2 →
      ("C", (6 : Nat), (6 : Nat)) ∈ boardsCoveringCell r.val c.val ∧
      ((boardsCoveringCell r.val c.val).countP fun b => ! (b.1 == "C")) = 1 ∧
      ∀ b ∈ boardsCoveringCell r.val c.val,
        (r.val / 3 * 3 = b.2.1 ∨ r.val / 3 * 3 = b.2.1 + 3 ∨ r.val / 3 * 3 = b.2.1 + 6) ∧
        (c.val / 3 * 3 = b.2.2 ∨ c.val / 3 * 3 = b.2.2 + 3 ∨ c.val / 3 * 3 = b.2.2 + 6)) ∧
    ((boardsCoveringCell r.val c.val).countP fun b => ! (b.1 == "C")) ≤ 1 := by
  decide

/-- C10: if `solve_unique` with limit `L ≥ 1` returns a count strictly
below `L` (the search ran to exhaustion instead of stopping at the cap),
the grid is exactly as it was on entry: every trial assignment was
undone. -/
theorem claim_C10 (G : GlobalRand) (g : Grid) (L : Nat) (s : G.St) (hL : 1 ≤ L)
    (h : (solveUnique G g L s).1.2 < L) : (solveUnique G g L s).2.1 = g := by
  have hcnt := btrack_count G L (numEmpty g + 1) g s 0 (Nat.lt_succ_self _) (by omega)
  have hk : (solveUnique G g L s).1.2 = (btrack G L (numEmpty g + 1) s g 0).2.2.1 := by
    unfold solveUnique
    rcases hb : btrack G L (numEmpty g + 1) s g 0 with ⟨b, g2, k, s2⟩
    rfl
  have hg2 : (solveUnique G g L s).2.1 = (btrack G L (numEmpty g + 1) s g 0).2.1 := by
    unfold solveUnique
    rcases hb : btrack G L (numEmpty g + 1) s g 0 with ⟨b, g2, k, s2⟩
    rfl
  rw [hk] at h
  rw [hg2]
  have hbf : (btrack G L (numEmpty g + 1) s g 0).1 = false := by
    rw [hcnt.2]
    apply decide_eq_false
    have h1 := hcnt.1
    omega
  exact btrack_frame G L (numEmpty g + 1) s g 0 hbf

theorem claim_C10_witness :
    1 ≤ 2 ∧ (solveUnique trivGlobal gFullDemo 2 ()).1.2 < 2 ∧
    (solveUnique trivGlobal gFullDemo 2 ()).2.1 = gFullDemo :=
  ⟨by decide, by decide, claim_C10 trivGlobal gFullDemo 2 () (by decide) (by decide)⟩

end Samurai
